import Mathlib

/-!
Verification development for the lunr.js fork (TypeScript sources under
`src/lib`, together with their bundled JavaScript mirrors).

Modeling conventions:
* JavaScript strings are lists of characters (`Str`); every string handled
  here is ASCII, so UTF-16 code-unit order coincides with codepoint order.
* JavaScript numbers are rationals; `Math.sqrt` (which only feeds the
  cosine-similarity denominator) is an uninterpreted parameter `sqrtFn`.
* The mutable graph of `TokenSet` nodes is an arena: a map from allocation
  index to node, with a size counter.  The arena is stored as a binary
  trie over the bits of the index purely so that proofs and kernel
  evaluation stay tractable; `Arena.get`/`Arena.setNode`/`Arena.alloc`
  are its only interface.  The source's auto-incremented node id
  (`TokenSet._nextId`, starting at 1 in a freshly loaded module)
  corresponds to `index + 1`.
* JavaScript objects used as string-keyed maps become association lists
  in insertion order; property assignment replaces in place or appends.
* Loops whose termination depends on the shape of the heap take an
  explicit `fuel` bound on the number of iterations; theorems either
  hold for every fuel or evaluate at a concrete sufficient fuel.
-/

namespace Lunr

/-- Strings as lists of characters. -/
abbrev Str := List Char

/-- JavaScript string comparison `a < b` (lexicographic by code unit). -/
def strLt : Str → Str → Bool
  | _, [] => false
  | [], _ :: _ => true
  | a :: as, b :: bs => if a < b then true else if b < a then false else strLt as bs

/-- Length of the longest common prefix of two words, as computed by the
loop in `TokenSet.Builder.insert` (`src/lib/idf.ts`, lines 42-45). -/
def commonLen : Str → Str → Nat
  | a :: as, b :: bs => if a = b then commonLen as bs + 1 else 0
  | _, _ => 0

/-- Decimal digit as a character. -/
def digitChar : Nat → Char
  | 0 => '0' | 1 => '1' | 2 => '2' | 3 => '3' | 4 => '4'
  | 5 => '5' | 6 => '6' | 7 => '7' | 8 => '8' | _ => '9'

/-- Auxiliary for `natDigits`; the first argument is fuel (any bound on
the number of digits). -/
def natDigitsAux : Nat → Nat → List Char
  | 0, _ => []
  | fuel + 1, n =>
    if n < 10 then [digitChar n]
    else natDigitsAux fuel (n / 10) ++ [digitChar (n % 10)]

/-- Decimal representation of a natural number (JavaScript
number-to-string for the node ids embedded in canonical keys). -/
def natDigits (n : Nat) : Str := natDigitsAux (n + 1) n

/-- Insertion step for sorting characters ascending. -/
def insertChar (c : Char) : List Char → List Char
  | [] => [c]
  | x :: xs => if c ≤ x then c :: x :: xs else x :: insertChar c xs

/-- Sort characters ascending (`Object.keys(..).sort()` on one-character
keys). -/
def sortChars : List Char → List Char
  | [] => []
  | x :: xs => insertChar x (sortChars xs)

/-- Stable insertion step for sorting strings by `strLt`. -/
def insertStr (w : Str) : List Str → List Str
  | [] => [w]
  | x :: xs => if strLt w x then w :: x :: xs else x :: insertStr w xs

/-- Sort strings ascending (JavaScript `Array.prototype.sort()` default
string comparison). -/
def sortStrs : List Str → List Str
  | [] => []
  | x :: xs => insertStr x (sortStrs xs)

/-- A `TokenSet` node: finality flag plus labeled edges.  Edges are kept
in insertion order with unique labels, mirroring a JavaScript object. -/
structure Node where
  final : Bool
  edges : List (Char × Nat)
deriving Repr, DecidableEq, Inhabited

def Node.empty : Node := ⟨false, []⟩

/-- Binary trie over the bits of an index; the backing store of the
arena. -/
inductive BTree where
  | nil
  | br (val : Option Node) (ev od : BTree)
deriving Repr, DecidableEq, Inhabited

def BTree.get : BTree → List Bool → Option Node
  | .nil, _ => none
  | .br v _ _, [] => v
  | .br _ e o, b :: bs => BTree.get (if b then o else e) bs

def BTree.set : BTree → List Bool → Node → BTree
  | .nil, [], nd => .br (some nd) .nil .nil
  | .nil, b :: bs, nd =>
    if b then .br none .nil (BTree.set .nil bs nd)
    else .br none (BTree.set .nil bs nd) .nil
  | .br _ e o, [], nd => .br (some nd) e o
  | .br v e o, b :: bs, nd =>
    if b then .br v e (BTree.set o bs nd) else .br v (BTree.set e bs nd) o

/-- Little-endian bits of a natural number (fuel-structural so that it
kernel-reduces). -/
def natBitsF : Nat → Nat → List Bool
  | 0, _ => []
  | fuel + 1, n => if n = 0 then [] else (n % 2 = 1) :: natBitsF fuel (n / 2)

def natBits (n : Nat) : List Bool := natBitsF (n + 1) n

/-- The node arena.  `size` is the next allocation index. -/
structure Arena where
  tree : BTree
  size : Nat
deriving Repr, DecidableEq, Inhabited

def Arena.init : Arena := ⟨.nil, 0⟩

def Arena.get (a : Arena) (n : Nat) : Node :=
  (a.tree.get (natBits n)).getD Node.empty

/-- Allocate a fresh node (`new TokenSet`), returning its handle. -/
def Arena.alloc (a : Arena) : Arena × Nat :=
  (⟨a.tree.set (natBits a.size) Node.empty, a.size + 1⟩, a.size)

def Arena.setNode (a : Arena) (n : Nat) (nd : Node) : Arena :=
  ⟨a.tree.set (natBits n) nd, a.size⟩

/-- JavaScript object property read `edges[c]`. -/
def edgesGet : List (Char × Nat) → Char → Option Nat
  | [], _ => none
  | (c0, t0) :: rest, c => if c0 = c then some t0 else edgesGet rest c

/-- JavaScript object property write `edges[c] = t` (replace in place or
append). -/
def edgesSet : List (Char × Nat) → Char → Nat → List (Char × Nat)
  | [], c, t => [(c, t)]
  | (c0, t0) :: rest, c, t =>
    if c0 = c then (c, t) :: rest else (c0, t0) :: edgesSet rest c t

/-- Set an edge on the node at handle `n`. -/
def Arena.setEdge (a : Arena) (n : Nat) (c : Char) (t : Nat) : Arena :=
  let nd := a.get n
  a.setNode n { nd with edges := edgesSet nd.edges c t }

/-- Mark the node at handle `n` final (`node.final = true`). -/
def Arena.setFinal (a : Arena) (n : Nat) : Arena :=
  let nd := a.get n
  a.setNode n { nd with final := true }

/-- Assign the finality flag of the node at handle `n` (`node.final = b`). -/
def Arena.setFinalVal (a : Arena) (n : Nat) (b : Bool) : Arena :=
  let nd := a.get n
  a.setNode n { nd with final := b }

/-- The canonical key of a node (`TokenSet.prototype.toString`,
`src/lib/token_set.ts` lines 103-128): the finality flag followed by each
label in sorted order and the decimal source-level id (`index + 1`) of
its target.  The source caches this string in `_str` once a node is
sealed; a sealed node is never mutated, so the cache is semantically
transparent and not modeled. -/
def nodeKey (a : Arena) (n : Nat) : Str :=
  let nd := a.get n
  (if nd.final then '1' else '0') ::
    (sortChars (nd.edges.map Prod.fst)).flatMap
      (fun c => c :: natDigits ((edgesGet nd.edges c).getD 0 + 1))

/-- `Object.keys` enumeration order for an edge map: single-digit labels
are array-index-like keys and enumerate first in ascending order; other
labels follow in insertion order. -/
def jsKeys (es : List (Char × Nat)) : List Char :=
  sortChars ((es.map Prod.fst).filter fun c => c.isDigit) ++
    (es.map Prod.fst).filter fun c => !c.isDigit

/-- The incremental DAWG builder (`lunr.TokenSet.Builder`,
`src/lib/idf.ts` lines 25-96).  The unchecked-node stack keeps its top at
the list head; entries are `(parent, label, child)`. -/
structure TSBuilder where
  arena : Arena
  root : Nat
  previousWord : Str
  uncheckedNodes : List (Nat × Char × Nat)
  minimizedNodes : List (Str × Nat)
deriving Repr, Inhabited

def TSBuilder.initial : TSBuilder :=
  let (a, r) := Arena.alloc Arena.init
  ⟨a, r, [], [], []⟩

def lookupKey : List (Str × Nat) → Str → Option Nat
  | [], _ => none
  | (k, v) :: rest, key => if k = key then some v else lookupKey rest key

/-- One sweep of `Builder.prototype.minimize(downTo)`: pop stack entries
while more than `downTo` remain; a child whose key is already interned
has its parent edge redirected to the canonical node, otherwise the
child becomes canonical. -/
def minimizeAux (downTo : Nat) :
    Arena → List (Str × Nat) → List (Nat × Char × Nat) →
    Arena × List (Str × Nat) × List (Nat × Char × Nat)
  | a, mz, [] => (a, mz, [])
  | a, mz, (parent, ch, child) :: rest =>
    if rest.length + 1 ≤ downTo then (a, mz, (parent, ch, child) :: rest)
    else
      let childKey := nodeKey a child
      match lookupKey mz childKey with
      | some canonical => minimizeAux downTo (a.setEdge parent ch canonical) mz rest
      | none => minimizeAux downTo a ((childKey, child) :: mz) rest

def TSBuilder.minimize (b : TSBuilder) (downTo : Nat) : TSBuilder :=
  let (a, mz, stack) := minimizeAux downTo b.arena b.minimizedNodes b.uncheckedNodes
  { b with arena := a, minimizedNodes := mz, uncheckedNodes := stack }

/-- Append the fresh suffix chain for the characters of a word beyond the
common prefix (the second loop of `Builder.prototype.insert`). -/
def extendChain :
    Arena → List (Nat × Char × Nat) → Nat → Str →
    Arena × List (Nat × Char × Nat) × Nat
  | a, stack, node, [] => (a, stack, node)
  | a, stack, node, c :: cs =>
    let (a, next) := a.alloc
    let a := a.setEdge node c next
    extendChain a ((node, c, next) :: stack) next cs

/-- `Builder.prototype.insert(word)`: fails with "Out of order word
insertion" when `word` precedes the previously inserted word, otherwise
minimizes down to the common prefix and extends a fresh chain whose last
node is marked final. -/
def TSBuilder.insert (b : TSBuilder) (word : Str) : Except String TSBuilder :=
  if strLt word b.previousWord then
    .error "Out of order word insertion"
  else
    let cp := commonLen word b.previousWord
    let b := b.minimize cp
    let node :=
      match b.uncheckedNodes with
      | (_, _, child) :: _ => child
      | [] => b.root
    let (a, stack, last) := extendChain b.arena b.uncheckedNodes node (word.drop cp)
    .ok { b with
            arena := a.setFinal last
            uncheckedNodes := stack
            previousWord := word }

def TSBuilder.finish (b : TSBuilder) : TSBuilder := b.minimize 0

/-- `TokenSet.fromArray` (`src/lib/token_set.ts`, lines 211-220): insert
every word into a fresh builder and return the finished root. -/
def TokenSet.fromArray (arr : List Str) : Except String (Arena × Nat) := do
  let b ← arr.foldlM (fun b w => b.insert w) TSBuilder.initial
  let b := b.finish
  pure (b.arena, b.root)

/-- `TokenSet.prototype.toArray` (`src/lib/token_set.ts`, lines 56-91):
depth-first traversal with an explicit stack of `(path, node)` frames
(top at the head), emitting the accumulated label path at every final
node.  `fuel` bounds the number of loop iterations; on builder output
the source loop terminates because sealed nodes only reference
earlier-sealed nodes. -/
def toArrayFuel (a : Arena) : Nat → List (Str × Nat) → List Str
  | 0, _ => []
  | _, [] => []
  | fuel + 1, (path, n) :: stack =>
    let nd := a.get n
    let frames := (jsKeys nd.edges).map
      (fun c => (path ++ [c], (edgesGet nd.edges c).getD 0))
    let rest := toArrayFuel a fuel (frames.reverse ++ stack)
    if nd.final then path :: rest else rest

/-- Run `toArray` from a root with the given fuel. -/
def TokenSet.toArray (a : Arena) (root : Nat) (fuel : Nat) : List Str :=
  toArrayFuel a fuel [([], root)]

/-- `TokenSet.fromString` (`src/lib/token_set.ts`, lines 409-439):
auxiliary loop over the characters, threading the current node.  A `*`
character installs a self loop and assigns the finality flag on the
current node; any other character allocates a successor. -/
def fromStringAux : Arena → Nat → Str → Arena
  | a, _, [] => a
  | a, node, c :: cs =>
    let final := cs.isEmpty
    if c = '*' then
      let a := a.setEdge node c node
      let a := a.setFinalVal node final
      fromStringAux a node cs
    else
      let (a, next) := a.alloc
      let a := a.setFinalVal next final
      let a := a.setEdge node c next
      fromStringAux a next cs

def TokenSet.fromString (str : Str) : Arena × Nat :=
  let (a, root) := Arena.alloc Arena.init
  (fromStringAux a root str, root)

/-- Follow the edge for `c` from node `n`, creating a fresh target when
absent (the repeated `if (char in frame.node.edges) .. else ..` blocks of
`TokenSet.fromFuzzyString`). -/
def getOrCreate (a : Arena) (n : Nat) (c : Char) : Arena × Nat :=
  match edgesGet (a.get n).edges c with
  | some m => (a, m)
  | none =>
    let (a, m) := a.alloc
    (a.setEdge n c m, m)

/-- A pending frame of the fuzzy-automaton construction. -/
structure FzFrame where
  node : Nat
  editsRemaining : Nat
  str : Str
deriving Repr, DecidableEq

/-- Process one frame of `TokenSet.fromFuzzyString`
(`src/lib/token_set.ts`, lines 267-394): the no-edit, deletion, terminal
deletion, substitution, insertion and transposition blocks, in source
order, returning the mutated arena and the frames pushed (in push
order). -/
def fuzzFrameSteps (a0 : Arena) (fr : FzFrame) : Arena × List FzFrame :=
  -- no edit
  let step1 :=
    match fr.str with
    | [] => (a0, [])
    | c :: rest =>
      let (a, noEditNode) := getOrCreate a0 fr.node c
      let a := if rest.isEmpty then a.setFinal noEditNode else a
      (a, [FzFrame.mk noEditNode fr.editsRemaining rest])
  let a1 := step1.1
  -- deletion (of the first character, consuming the second)
  let step2 :=
    match fr.str with
    | _ :: c1 :: rest2 =>
      if fr.editsRemaining > 0 then
        let (a, deletionNode) := getOrCreate a1 fr.node c1
        if rest2.isEmpty then (a.setFinal deletionNode, [])
        else (a, [FzFrame.mk deletionNode (fr.editsRemaining - 1) rest2])
      else (a1, [])
    | _ => (a1, [])
  let a2 := step2.1
  -- terminal deletion (just removing the last character)
  let a3 :=
    if fr.editsRemaining > 0 ∧ fr.str.length = 1 then a2.setFinal fr.node else a2
  -- substitution
  let step4 :=
    if fr.editsRemaining > 0 ∧ fr.str.length ≥ 1 then
      let (a, substitutionNode) := getOrCreate a3 fr.node '*'
      if fr.str.length = 1 then (a.setFinal substitutionNode, [])
      else (a, [FzFrame.mk substitutionNode (fr.editsRemaining - 1) (fr.str.drop 1)])
    else (a3, [])
  let a4 := step4.1
  -- insertion
  let step5 :=
    if fr.editsRemaining > 0 then
      let (a, insertionNode) := getOrCreate a4 fr.node '*'
      if fr.str.isEmpty then (a.setFinal insertionNode, [])
      else (a, [FzFrame.mk insertionNode (fr.editsRemaining - 1) fr.str])
    else (a4, [])
  let a5 := step5.1
  -- transposition
  let step6 :=
    match fr.str with
    | charA :: charB :: rest2 =>
      if fr.editsRemaining > 0 then
        let (a, transposeNode) := getOrCreate a5 fr.node charB
        -- the source guards this on `str.length == 1`, which is
        -- unreachable under `str.length > 1`; kept as written
        if fr.str.length = 1 then (a.setFinal transposeNode, [])
        else (a, [FzFrame.mk transposeNode (fr.editsRemaining - 1) (charA :: rest2)])
      else (a5, [])
    | _ => (a5, [])
  (step6.1, step1.2 ++ step2.2 ++ step4.2 ++ step5.2 ++ step6.2)

/-- The explicit-stack loop of `TokenSet.fromFuzzyString`.  The stack is
LIFO: frames pushed within one iteration are processed in reverse push
order, as in the source. -/
def fuzzLoop : Nat → Arena → List FzFrame → Arena
  | 0, a, _ => a
  | _, a, [] => a
  | fuel + 1, a, fr :: rest =>
    let (a, pushes) := fuzzFrameSteps a fr
    fuzzLoop fuel a (pushes.reverse ++ rest)

/-- `TokenSet.fromFuzzyString(str, editDistance)`
(`src/lib/token_set.ts`, lines 256-397). -/
def TokenSet.fromFuzzyString (fuel : Nat) (str : Str) (editDistance : Nat) :
    Arena × Nat :=
  let (a, root) := Arena.alloc Arena.init
  (fuzzLoop fuel a [⟨root, editDistance, str⟩], root)

/-- A pending frame of the automaton intersection. -/
structure IFrame where
  qNode : Nat
  output : Nat
  node : Nat
deriving Repr, DecidableEq

/-- Inner double loop of `TokenSet.prototype.intersect`
(`src/lib/token_set.ts`, lines 158-198) for one `(qEdge, nEdge)` pair:
when the labels match (or the query label is `*`), fetch or create the
output child for `nEdge`, fold the conjunction of finality flags into
it, and push a frame. -/
def intersectPair (aV aQ : Arena) (fr : IFrame) (qEdge nEdge : Char)
    (acc : Arena × List IFrame) : Arena × List IFrame :=
  if nEdge = qEdge ∨ qEdge = '*' then
    let node := (edgesGet (aV.get fr.node).edges nEdge).getD 0
    let qNode := (edgesGet (aQ.get fr.qNode).edges qEdge).getD 0
    let final := (aV.get node).final && (aQ.get qNode).final
    let aO := acc.1
    match edgesGet (aO.get fr.output).edges nEdge with
    | some next =>
      let aO := aO.setFinalVal next ((aO.get next).final || final)
      (aO, acc.2 ++ [⟨qNode, next, node⟩])
    | none =>
      let (aO, next) := aO.alloc
      let aO := aO.setFinalVal next final
      let aO := aO.setEdge fr.output nEdge next
      (aO, acc.2 ++ [⟨qNode, next, node⟩])
  else acc

/-- Process one frame of the intersection: iterate query edges (outer)
and this-side edges (inner) in `Object.keys` order. -/
def intersectFrame (aV aQ : Arena) (aO : Arena) (fr : IFrame) :
    Arena × List IFrame :=
  let qEdges := jsKeys (aQ.get fr.qNode).edges
  let nEdges := jsKeys (aV.get fr.node).edges
  qEdges.foldl
    (fun acc qEdge =>
      nEdges.foldl (fun acc2 nEdge => intersectPair aV aQ fr qEdge nEdge acc2) acc)
    (aO, [])

/-- The explicit-stack loop of `TokenSet.prototype.intersect`. -/
def intersectLoop (aV aQ : Arena) : Nat → Arena → List IFrame → Arena
  | 0, aO, _ => aO
  | _, aO, [] => aO
  | fuel + 1, aO, fr :: rest =>
    let (aO, pushes) := intersectFrame aV aQ aO fr
    intersectLoop aV aQ fuel aO (pushes.reverse ++ rest)

/-- `a.intersect(b)` where `a` is this (vocabulary) side and `b` the
query side: a fresh output automaton is built from the product frames. -/
def TokenSet.intersect (fuel : Nat) (aV : Arena) (rV : Nat) (aQ : Arena)
    (rQ : Nat) : Arena × Nat :=
  let (aO, outRoot) := Arena.alloc Arena.init
  (intersectLoop aV aQ fuel aO [⟨rQ, outRoot, rV⟩], outRoot)

/-! ### NumberMap (`src/lib/number_map.js`, `src/unnamed/part_005`) -/

/-- One entry of a `NumberMap`: a numeric value and the index terms whose
surface strings parse to it. -/
structure NMEntry where
  value : ℚ
  tokens : List Str
deriving Repr, DecidableEq

structure NumberMap where
  entries : List NMEntry
deriving Repr, DecidableEq

/-- The `while (l <= h)` loop of `NumberMap.prototype.binarySearch`;
returns the matching index, or the bitwise complement `~l` of the
insertion point.  `fuel` bounds the iterations (`entries.length + 2`
always suffices). -/
def binarySearchGo (entries : List NMEntry) (value : ℚ) :
    Nat → Int → Int → Int
  | 0, l, _ => -(l + 1)
  | fuel + 1, l, h =>
    if l ≤ h then
      let m := l + (h - l) / 2
      let mv := ((entries.drop m.toNat).headD ⟨0, []⟩).value
      if mv < value then binarySearchGo entries value fuel (m + 1) h
      else if value < mv then binarySearchGo entries value fuel l (m - 1)
      else m
    else -(l + 1)

def NumberMap.binarySearch (m : NumberMap) (value : ℚ) : Int :=
  binarySearchGo m.entries value (m.entries.length + 2) 0 (m.entries.length - 1)

/-- `NumberMap.prototype.collectTokens(startIndex, endIndex)`: concatenate
the token lists of the entries at indices in `[startIndex, endIndex)`
(after clamping), sort, and build a token set. -/
def NumberMap.collectTokens (m : NumberMap) (startIndex endIndex : Int) :
    Except String (Arena × Nat) :=
  let len : Int := m.entries.length
  let result : List Str :=
    if startIndex < len ∧ endIndex > 0 then
      let s := (max startIndex 0).toNat
      let e := (min endIndex len).toNat
      ((m.entries.drop s).take (e - s)).flatMap (·.tokens)
    else []
  TokenSet.fromArray (sortStrs result)

/-- `NumberMap.prototype.matchRange(start, end)` (`src/lib/number_map.js`
lines 39-51); a `"*"` endpoint is `none`.  Note `~startIndex + 1 = -startIndex`
and `~endIndex = -endIndex - 1` for negative search results. -/
def NumberMap.matchRange (m : NumberMap) (start e : Option ℚ) :
    Except String (Arena × Nat) :=
  let startIndex := match start with | none => 0 | some v => m.binarySearch v
  let startIndex := if startIndex < 0 then -startIndex else startIndex
  let endIndex := match e with | none => (m.entries.length : Int) | some v => m.binarySearch v
  let endIndex := if endIndex < 0 then -endIndex - 1 else endIndex
  m.collectTokens startIndex endIndex

/-- The relational operators of comparator clauses. -/
inductive Comparator where
  | gt | ge | lt | le
deriving Repr, DecidableEq

/-- `NumberMap.prototype.matchComparator(comparator, comparand)`
(`src/lib/number_map.js` lines 11-33). -/
def NumberMap.matchComparator (m : NumberMap) (comparator : Comparator)
    (comparand : ℚ) : Except String (Arena × Nat) :=
  let index := m.binarySearch comparand
  let startIndex : Int :=
    match comparator with
    | .gt => (if index < 0 then -index - 1 else index) + 1
    | .ge => if index < 0 then -index else index
    | _ => 0
  let endIndex : Int :=
    match comparator with
    | .lt => if index < 0 then -index else index
    | .le => (if index < 0 then -index - 1 else index) + 1
    | _ => m.entries.length
  m.collectTokens startIndex endIndex

/-! ### Concrete inputs used by the counterexample evaluations -/

/-- The ten decimal digit characters. -/
def digitRange : List Char := ['0','1','2','3','4','5','6','7','8','9']

/-- A lexicographically sorted list of 197 distinct short words engineered
so that two structurally different nodes of the construction receive the
same canonical key.  The digit and letter blocks burn allocation indices
so that the node for the word `K` receives source id 212; the node for
the prefix `L` then has key `"00212"` (children `'0'` and `'1'` both the
canonical leaf with id 2), and the node for the prefix `M` (single child
`'0'` pointing at the id-212 node) gets the identical key and is merged
with it. -/
def collisionWords : List Str :=
  [['0']] ++
  (['1','2','3','4','5','6','7','8','9'].flatMap fun c =>
    digitRange.map fun d => [c, d]) ++
  (['A','B','C','D','E','F','G','H','I','J'].flatMap fun c =>
    digitRange.map fun d => [c, d]) ++
  [['K'], ['K','0'], ['L','0'], ['L','1'], ['M','0'], ['M','0','0']]

/-- The round trip of the claim: build the token set from a word list and
read it back (`TokenSet.fromArray(L).toArray()`); an error (impossible on
sorted input) is reported as a marker list. -/
def roundTrip (fuel : Nat) (words : List Str) : List Str :=
  match TokenSet.fromArray words with
  | .ok (a, r) => TokenSet.toArray a r fuel
  | .error _ => [['!']]

/-- Expansion of a query pattern against a vocabulary:
`TokenSet.fromArray(sort(V)).intersect(TokenSet.fromString(p)).toArray()`
(the vocabulary lists used here are already sorted). -/
def wildcardExpansion (fuel : Nat) (vocab : List Str) (pattern : Str) :
    List Str :=
  match TokenSet.fromArray vocab with
  | .ok (aV, rV) =>
    let (aQ, rQ) := TokenSet.fromString pattern
    let (aO, rO) := TokenSet.intersect fuel aV rV aQ rQ
    TokenSet.toArray aO rO fuel
  | .error _ => [['!']]

/-- Glob matching with `*` wildcards, as the claim states it (`*` matches
any sequence of characters, including the empty one); fuel-structural so
that it kernel-reduces.  This definition follows the claim text, not the
source. -/
def globMatchF : Nat → Str → Str → Bool
  | 0, _, _ => false
  | _ + 1, [], s => s.isEmpty
  | fuel + 1, c :: p, s =>
    if c = '*' then
      globMatchF fuel p s ||
        (match s with
         | [] => false
         | _ :: s2 => globMatchF fuel (c :: p) s2)
    else
      match s with
      | [] => false
      | c2 :: s2 => c = c2 && globMatchF fuel p s2

/-- Glob matching of candidate `s` against pattern `p`. -/
def globMatch (p s : Str) : Bool := globMatchF (p.length + s.length + 1) p s

/-- The number map of the specification example: documents a, b, c with
numeric field `wordCount` values 5, 4, 5 index the terms "4" (document b)
and "5" (documents a and c), giving sorted entries
`[(4, ["4"]), (5, ["5"])]`. -/
def exampleNumberMap : NumberMap :=
  ⟨[⟨4, [['4']]⟩, ⟨5, [['5']]⟩]⟩

/-- Evaluate `matchRange` to the resulting token list. -/
def rangeTokens (fuel : Nat) (m : NumberMap) (start e : Option ℚ) : List Str :=
  match m.matchRange start e with
  | .ok (a, r) => TokenSet.toArray a r fuel
  | .error _ => [['!']]

/-- Strict lexicographic ascent of a word list (each word `strLt` the
next); this is the "lexicographically sorted list of distinct strings"
premise of the round-trip claim. -/
def ascChain : List Str → Bool
  | [] => true
  | [_] => true
  | a :: b :: rest => strLt a b && ascChain (b :: rest)

/-- Modelled from the claim: the tokens `matchRange(lo, hi)` is claimed to
return, namely those of the entries from the first index with value
`≥ lo` up to (exclusively) the first index with value `> hi`. -/
def claimRangeTokens (m : NumberMap) (lo hi : ℚ) : List Str :=
  ((m.entries.filter fun en => lo ≤ en.value ∧ en.value ≤ hi).flatMap
    (·.tokens))

/-! ### Association-list helpers for JavaScript objects used as maps -/

/-- JavaScript object property read. -/
def assocGet {α β : Type} [DecidableEq α] : List (α × β) → α → Option β
  | [], _ => none
  | (k0, v0) :: rest, k => if k0 = k then some v0 else assocGet rest k

/-- JavaScript object property write: replace in place or append in
insertion order. -/
def assocSet {α β : Type} [DecidableEq α] (k : α) (v : β) :
    List (α × β) → List (α × β)
  | [] => [(k, v)]
  | (k0, v0) :: rest =>
    if k0 = k then (k, v) :: rest else (k0, v0) :: assocSet k v rest

/-! ### Set (`src/lib/set.ts`)

The source uses two singleton sentinel objects `Set.complete` and
`Set.empty` with overridden methods; reference identity with a sentinel
corresponds here to being the `complete` or `empty` constructor.  A
general set stores its keys (first-occurrence order, deduplicated, as a
JavaScript object would) together with the `length` of the original
element array. -/

inductive LSet where
  | complete
  | empty
  | finite (elements : List String) (length : Nat)
deriving Repr, DecidableEq

/-- Deduplicate, keeping the first occurrence of each key (the key set of
the object built by `this.elements[element] = true`). -/
def dedupKeysAux (seen : List String) : List String → List String
  | [] => []
  | x :: xs =>
    if seen.contains x then dedupKeysAux seen xs
    else x :: dedupKeysAux (x :: seen) xs

def dedupKeys (xs : List String) : List String := dedupKeysAux [] xs

/-- The constructor `new Set(elements)` (`src/lib/set.ts`, lines 68-85):
an absent or empty element array returns the shared `Set.empty` sentinel
rather than a fresh set. -/
def mkSet : Option (List String) → LSet
  | none => .empty
  | some [] => .empty
  | some xs => .finite (dedupKeys xs) xs.length

def LSet.contains : LSet → String → Bool
  | .complete, _ => true
  | .empty, _ => false
  | .finite els _, x => els.contains x

/-- `intersect` (`src/lib/set.ts`, lines 105-137): sentinel fast paths,
then iterate the smaller side filtering by membership in the larger. -/
def LSet.intersect : LSet → LSet → LSet
  | .complete, other => other
  | .empty, _ => .empty
  | .finite els len, other =>
    match other with
    | .complete => .finite els len
    | .empty => .empty
    | .finite els2 len2 =>
      let p := if len < len2 then (els, els2) else (els2, els)
      let intersection := p.1.filter fun e => p.2.contains e
      if intersection.isEmpty then .empty else mkSet (some intersection)

/-- `union` (`src/lib/set.ts`, lines 146-156): sentinel fast paths, then
a new set from the concatenated key lists. -/
def LSet.union : LSet → LSet → LSet
  | .complete, _ => .complete
  | .empty, other => other
  | .finite els len, other =>
    match other with
    | .complete => .complete
    | .empty => .finite els len
    | .finite els2 _ => mkSet (some (els ++ els2))

/-! ### Vector (`src/lib/vector.ts`)

The flat `[index, value, index, value, …]` array with strictly increasing
indices is modeled as a list of index-value pairs.  `Math.sqrt` is the
uninterpreted parameter `sqrtFn`; division by zero in `ℚ` yields 0, which
coincides with the source's `dot / magnitude || 0` whenever the magnitude
vanishes (all stored values of the left vector are then zero, so the dot
product is 0 and the JavaScript expression evaluates to 0 as well). -/

abbrev Vec := List (Nat × ℚ)

/-- `upsert(insertIdx, val, fn)` (`src/lib/vector.ts`, lines 78-87): the
least-upper-bound binary search plus splice of the source amounts to
ordered insertion on the pair list, combining on an existing index. -/
def vecUpsert (idx : Nat) (val : ℚ) (combine : ℚ → ℚ → ℚ) : Vec → Vec
  | [] => [(idx, val)]
  | (i, x) :: rest =>
    if i = idx then (i, combine x val) :: rest
    else if idx < i then (idx, val) :: (i, x) :: rest
    else (i, x) :: vecUpsert idx val combine rest

/-- The two-pointer merge of `dot` (`src/lib/vector.ts`, lines 114-135);
fuel-structural (one element is consumed per iteration, so
`a.length + b.length + 1` always suffices). -/
def vecDotF : Nat → Vec → Vec → ℚ
  | 0, _, _ => 0
  | _ + 1, [], _ => 0
  | _ + 1, _ :: _, [] => 0
  | fuel + 1, (i, x) :: as, (j, y) :: bs =>
    if i < j then vecDotF fuel as ((j, y) :: bs)
    else if j < i then vecDotF fuel ((i, x) :: as) bs
    else x * y + vecDotF fuel as bs

def vecDot (a b : Vec) : ℚ := vecDotF (a.length + b.length + 1) a b

/-- Sum of squared values (the radicand of `magnitude`). -/
def vecSumSquares (v : Vec) : ℚ := (v.map fun p => p.2 * p.2).sum

/-- `similarity(otherVector) = dot / magnitude || 0`
(`src/lib/vector.ts`, lines 144-146), with `magnitude = sqrtFn(Σ v²)`. -/
def vecSimilarity (sqrtFn : ℚ → ℚ) (a b : Vec) : ℚ :=
  vecDot a b / sqrtFn (vecSumSquares a)

/-! ### Builder: field lengths and average field lengths
(`src/lib/builder.ts`, lines 181-275)

Only the state that `calculateAverageFieldLengths` consumes is modeled:
the per-`(fieldName, docRef)` field lengths and the document count.  A
document is a reference plus, per field name, the token list that field
produces after tokenization and the ingestion pipeline (the claim is
about post-pipeline lengths); a field the document lacks produces no
tokens, because `lunr.tokenizer(undefined)` yields `[]` and the pipeline
preserves `[]`.  The `FieldRef` string `fieldName + "/" + docRef` is kept
as the pair `(fieldName, docRef)`; the two are in bijection because `/`
is banned in field names. -/

structure C5Builder where
  fields : List String
  fieldLengths : List ((String × String) × Nat)
  documentCount : Nat
deriving Repr, DecidableEq

/-- `Builder.prototype.add(doc)` restricted to the modeled state: bump the
document count, then for every configured field store that field's term
count under its field ref (`this.fieldLengths[fr] = 0;
this.fieldLengths[fr] += terms.length`). -/
def C5Builder.add (b : C5Builder) (docRef : String)
    (docFields : List (String × List Str)) : C5Builder :=
  let b := { b with documentCount := b.documentCount + 1 }
  b.fields.foldl
    (fun b2 fieldName =>
      let terms := (assocGet docFields fieldName).getD []
      { b2 with
          fieldLengths :=
            assocSet (fieldName, docRef) terms.length b2.fieldLengths })
    b

/-- The accumulating loop of `calculateAverageFieldLengths`
(`src/lib/builder.ts`, lines 257-266): walk every field ref, counting refs
per field name (`documentsWithField`) and totaling lengths per field name
(`accumulator`). -/
def c5Accumulate (L : List ((String × String) × Nat)) :
    List (String × Nat) × List (String × Nat) :=
  L.foldl
    (fun (acc : List (String × Nat) × List (String × Nat)) entry =>
      (assocSet entry.1.1 ((assocGet acc.1 entry.1.1).getD 0 + 1) acc.1,
       assocSet entry.1.1 ((assocGet acc.2 entry.1.1).getD 0 + entry.2) acc.2))
    ([], [])

/-- `Builder.prototype.calculateAverageFieldLengths`
(`src/lib/builder.ts`, lines 252-275): accumulate over every field ref,
then divide total length by ref count for every configured field. -/
def C5Builder.calculateAverageFieldLengths (b : C5Builder) :
    List (String × ℚ) :=
  b.fields.map fun f =>
    (f, ((assocGet (c5Accumulate b.fieldLengths).2 f).getD 0 : ℚ) /
        ((assocGet (c5Accumulate b.fieldLengths).1 f).getD 0 : ℚ))

/-- Build from a fresh builder by adding every document in order. -/
def buildC5 (fields : List String)
    (docs : List (String × List (String × List Str))) : C5Builder :=
  docs.foldl (fun b d => b.add d.1 d.2) ⟨fields, [], 0⟩

/-- The `averageFieldLength` entry a built index records for a field. -/
def avgFieldLength (b : C5Builder) (f : String) : Option ℚ :=
  assocGet (b.calculateAverageFieldLengths) f

/-- Modelled from the claim: the average the specification describes —
the sum of the field lengths of `f` over the documents that contain
field `f`, divided by the number of those documents. -/
def claimAvgFieldLength (docs : List (String × List (String × List Str)))
    (f : String) : ℚ :=
  let present := docs.filter fun d => (assocGet d.2 f).isSome
  ((present.map fun d => (((assocGet d.2 f).getD []).length : ℚ)).sum) /
    (present.length : ℚ)

/-- The two-document counterexample input: `d1` has field "f" with two
terms, `d2` lacks the field entirely. -/
def c5Docs : List (String × List (String × List Str)) :=
  [("d1", [("f", [['x'], ['y']])]), ("d2", [])]

/-! ### Query model and execution engine
(`src/unnamed/part_005` for `lunr.Query`, `src/lib/builder.ts` lines
592-869 for `Index.prototype.query`)

The engine is modeled over a clause list (the clauses the caller-supplied
builder function pushed onto the query).  The search pipeline
(`this.pipeline.runString`) is an arbitrary function parameter of the
index, as §4.1 allows any pipeline respecting the contract.  `MatchData`
aggregation is modeled as the ordered list of `(term, field, metadata)`
contributions — `add` and `combine` concatenate and no claim inspects the
nesting.  JavaScript would throw a `TypeError` where a clause names a
field absent from the index (`posting[field]`, `queryVectors[field]`) or
where a required clause has no pipeline terms (`requiredMatches[field]`
undefined); these reads are totalized with defaults here, and the
theorems about such paths carry the corresponding well-formedness
hypotheses. -/

inductive Presence where
  | optional | required | prohibited
deriving Repr, DecidableEq

/-- A clause term: a string, a range (with `"*"` endpoints as `none`), or
a comparator term. -/
inductive QTerm where
  | str (s : Str)
  | range (start e : Option ℚ)
  | cmp (comparator : Comparator) (comparand : ℚ)
deriving Repr, DecidableEq

/-- A query clause, after `Query.prototype.clause` has applied defaults. -/
structure Clause where
  fields : List String
  term : QTerm
  boost : ℚ
  editDistance : Option Nat
  usePipeline : Bool
  presence : Presence
  numberMap : Option NumberMap

/-- `Query.prototype.isNegated`: every clause prohibited. -/
def isNegated (clauses : List Clause) : Bool :=
  clauses.all fun c => c.presence == Presence.prohibited

/-- A posting of the inverted index: the dense term ordinal `_index` and,
per field name, the per-document metadata payloads. -/
structure Posting (μ : Type) where
  index : Nat
  fieldMap : List (String × List (String × μ))

/-- The built index state that `query` consumes.  Field vectors are keyed
by `(fieldName, docRef)`, the pair form of the `FieldRef` string. -/
structure QIndex (μ : Type) where
  fields : List String
  invertedIndex : List (Str × Posting μ)
  fieldVectors : List ((String × String) × Vec)
  tsArena : Arena
  tsRoot : Nat
  pipelineFn : Str → List Str

/-- A query result (`ref`, `score`, `matchData`). -/
structure QResult (μ : Type) where
  ref : String
  score : ℚ
  matchData : List (Str × String × μ)

/-- The mutable locals of one `Index.prototype.query` invocation. -/
structure QState (μ : Type) where
  matchingFields : List ((String × String) × List (Str × String × μ))
  queryVectors : List (String × Vec)
  termFieldCache : List (Str × String)
  requiredMatches : List (String × LSet)
  prohibitedMatches : List (String × LSet)

/-- `TokenSet.fromClause` (`src/lib/token_set.ts`, lines 229-239):
range/comparator terms require a number map, strings build a fuzzy or
plain token set. -/
def TokenSet.fromClause (fuel : Nat) (c : Clause) :
    Except String (Arena × Nat) :=
  match c.term with
  | .range s e =>
    match c.numberMap with
    | none => .error "A comparator or range clause requires a number map"
    | some m => m.matchRange s e
  | .cmp op v =>
    match c.numberMap with
    | none => .error "A comparator or range clause requires a number map"
    | some m => m.matchComparator op v
  | .str s =>
    match c.editDistance with
    | some k => .ok (TokenSet.fromFuzzyString fuel s k)
    | none => .ok (TokenSet.fromString s)

/-- The effective term list of a clause (`builder.ts` lines 629-639): the
search pipeline expansion for string terms with the pipeline enabled,
otherwise the clause term itself. -/
def effectiveTerms {μ : Type} (idx : QIndex μ) (c : Clause) : List QTerm :=
  match c.term with
  | .str s => if c.usePipeline then (idx.pipelineFn s).map QTerm.str else [c.term]
  | _ => [c.term]

/-- Expansion of one effective term (`builder.ts` lines 650-658): build
the clause token set and intersect it with the index token set. -/
def expandTerm {μ : Type} (fuel : Nat) (idx : QIndex μ) (c : Clause)
    (t : QTerm) : Except String (List Str) := do
  let (aT, rT) ← TokenSet.fromClause fuel { c with term := t }
  let (aO, rO) := TokenSet.intersect fuel idx.tsArena idx.tsRoot aT rT
  pure (TokenSet.toArray aO rO fuel)

/-- The body of the inner field loop (`builder.ts` lines 682-767) for one
expanded term and one clause field: prohibited terms only extend the
per-field prohibited set; otherwise the query vector is upserted with the
clause boost and (unless the `(term, field)` pair was already seen) the
match data of every matching document is collected. -/
def processField {μ : Type} (c : Clause) (expandedTerm : Str)
    (posting : Posting μ) (acc : QState μ × LSet) (field : String) :
    QState μ × LSet :=
  let st := acc.1
  let fieldPosting := (assocGet posting.fieldMap field).getD []
  let matchingDocumentRefs := fieldPosting.map Prod.fst
  let matchingDocumentsSet := mkSet (some matchingDocumentRefs)
  let clauseMatches :=
    if c.presence = Presence.required then acc.2.union matchingDocumentsSet
    else acc.2
  let st :=
    if c.presence = Presence.required ∧
        (assocGet st.requiredMatches field).isNone then
      { st with requiredMatches := assocSet field LSet.complete st.requiredMatches }
    else st
  if c.presence = Presence.prohibited then
    let prev := (assocGet st.prohibitedMatches field).getD LSet.empty
    ({ st with
        prohibitedMatches :=
          assocSet field (prev.union matchingDocumentsSet) st.prohibitedMatches },
     clauseMatches)
  else
    let st :=
      { st with
          queryVectors :=
            match assocGet st.queryVectors field with
            | some v =>
              assocSet field
                (vecUpsert posting.index c.boost (fun a b => a + b) v)
                st.queryVectors
            | none => st.queryVectors }
    if st.termFieldCache.contains (expandedTerm, field) then (st, clauseMatches)
    else
      let st := fieldPosting.foldl
        (fun st2 entry =>
          let key := (field, entry.1)
          match assocGet st2.matchingFields key with
          | some md =>
            { st2 with
                matchingFields :=
                  assocSet key (md ++ [(expandedTerm, field, entry.2)])
                    st2.matchingFields }
          | none =>
            { st2 with
                matchingFields :=
                  assocSet key [(expandedTerm, field, entry.2)]
                    st2.matchingFields })
        st
      ({ st with termFieldCache := st.termFieldCache ++ [(expandedTerm, field)] },
       clauseMatches)

/-- Process one expanded term (`builder.ts` lines 674-768): fetch its
posting and fold over the clause fields.  (JavaScript would crash on a
term absent from the inverted index; with a correctly built index every
expansion is an index term.) -/
def processExpandedTerm {μ : Type} (idx : QIndex μ) (c : Clause)
    (acc : QState μ × LSet) (expandedTerm : Str) : QState μ × LSet :=
  let posting := (assocGet idx.invertedIndex expandedTerm).getD ⟨0, []⟩
  c.fields.foldl (processField c expandedTerm posting) acc

/-- The per-term loop of one clause (`builder.ts` lines 641-769),
including the early `break` when a required term has an empty expansion:
the required set of every clause field is emptied and the remaining terms
of the clause are skipped. -/
def processTerms {μ : Type} (fuel : Nat) (idx : QIndex μ) (c : Clause) :
    List QTerm → QState μ → LSet → Except String (QState μ × LSet)
  | [], st, cm => .ok (st, cm)
  | t :: rest, st, cm => do
    let expandedTerms ← expandTerm fuel idx c t
    if expandedTerms.length = 0 ∧ c.presence = Presence.required then
      .ok (c.fields.foldl
        (fun st2 field =>
          { st2 with
              requiredMatches := assocSet field LSet.empty st2.requiredMatches })
        st, cm)
    else
      let acc := expandedTerms.foldl (processExpandedTerm idx c) (st, cm)
      processTerms fuel idx c rest acc.1 acc.2

/-- Process one clause (`builder.ts` lines 620-782): run the terms, then
for a required clause intersect every field's required set with the
matches this clause accumulated across its fields. -/
def processClause {μ : Type} (fuel : Nat) (idx : QIndex μ) (st : QState μ)
    (c : Clause) : Except String (QState μ) := do
  let terms := effectiveTerms idx c
  let acc ← processTerms fuel idx c terms st LSet.empty
  if c.presence = Presence.required then
    .ok (c.fields.foldl
      (fun st2 field =>
        { st2 with
            requiredMatches :=
              assocSet field
                (((assocGet st2.requiredMatches field).getD LSet.empty).intersect
                  acc.2)
                st2.requiredMatches })
      acc.1)
  else .ok acc.1

/-- The clause loop of `query`. -/
def clauseLoop {μ : Type} (fuel : Nat) (idx : QIndex μ) :
    QState μ → List Clause → Except String (QState μ)
  | st, [] => .ok st
  | st, c :: rest => do
    let st ← processClause fuel idx st c
    clauseLoop fuel idx st rest

/-- The initial query state (`builder.ts` lines 600-616): one eagerly
created empty query vector per index field.  (`fieldTypeCache` is also
populated there but never read by `query` and is not modeled.) -/
def initState (μ : Type) (idx : QIndex μ) : QState μ :=
  ⟨[], idx.fields.map (fun f => (f, ([] : Vec))), [], [], []⟩

/-- Combine the per-field required sets (`builder.ts` lines 789-797). -/
def allRequired {μ : Type} (idx : QIndex μ) (st : QState μ) : LSet :=
  idx.fields.foldl
    (fun acc f =>
      match assocGet st.requiredMatches f with
      | some s => acc.intersect s
      | none => acc)
    LSet.complete

/-- Combine the per-field prohibited sets (`builder.ts` lines 799-802). -/
def allProhibited {μ : Type} (idx : QIndex μ) (st : QState μ) : LSet :=
  idx.fields.foldl
    (fun acc f =>
      match assocGet st.prohibitedMatches f with
      | some s => acc.union s
      | none => acc)
    LSet.empty

/-- Push a fresh result or fold a score and match data into the existing
result of the same document (`builder.ts` lines 851-862; the `matches`
map and the results array alias the same objects). -/
def addOrCombine {μ : Type} (results : List (QResult μ)) (docRef : String)
    (score : ℚ) (md : List (Str × String × μ)) : List (QResult μ) :=
  if results.any (fun r => r.ref = docRef) then
    results.map fun r =>
      if r.ref = docRef then
        { r with score := r.score + score, matchData := r.matchData ++ md }
      else r
  else results ++ [⟨docRef, score, md⟩]

/-- The scoring loop over matching field refs (`builder.ts` lines
827-863). -/
def resultsLoop {μ : Type} (sqrtFn : ℚ → ℚ) (idx : QIndex μ) (st : QState μ)
    (allReq allProh : LSet) (refs : List (String × String)) :
    List (QResult μ) :=
  refs.foldl
    (fun results fr =>
      if !(allReq.contains fr.2) then results
      else if allProh.contains fr.2 then results
      else
        let fieldVector := (assocGet idx.fieldVectors fr).getD []
        let score := vecSimilarity sqrtFn
          ((assocGet st.queryVectors fr.1).getD []) fieldVector
        addOrCombine results fr.2 score ((assocGet st.matchingFields fr).getD []))
    []

/-- Stable insertion of a result into a descending-by-score list: it goes
after every result of score greater than or equal to its own. -/
def insertResultDesc {μ : Type} (r : QResult μ) :
    List (QResult μ) → List (QResult μ)
  | [] => [r]
  | x :: xs => if r.score > x.score then r :: x :: xs else x :: insertResultDesc r xs

/-- `results.sort((a, b) => b.score - a.score)` (`builder.ts` line 868):
JavaScript `Array.prototype.sort` is stable, so the sort is the unique
reordering that is descending by score and preserves the relative order
of equal scores; stable insertion sort computes it. -/
def sortResults {μ : Type} (l : List (QResult μ)) : List (QResult μ) :=
  l.foldl (fun acc r => insertResultDesc r acc) []

/-- `Index.prototype.query` up to the final sort. -/
def Index.queryRaw (μ : Type) (fuel : Nat) (sqrtFn : ℚ → ℚ) (idx : QIndex μ)
    (clauses : List Clause) : Except String (List (QResult μ)) := do
  let st ← clauseLoop fuel idx (initState μ idx) clauses
  let allReq := allRequired idx st
  let allProh := allProhibited idx st
  let pair :=
    if isNegated clauses then
      (idx.fieldVectors.map Prod.fst,
       { st with
          matchingFields :=
            (idx.fieldVectors.map Prod.fst).foldl
              (fun mf fr => assocSet fr [] mf) st.matchingFields })
    else (st.matchingFields.map Prod.fst, st)
  pure (resultsLoop sqrtFn idx pair.2 allReq allProh pair.1)

/-- `Index.prototype.query`: the raw results, sorted by score descending
(stable). -/
def Index.query (μ : Type) (fuel : Nat) (sqrtFn : ℚ → ℚ) (idx : QIndex μ)
    (clauses : List Clause) : Except String (List (QResult μ)) :=
  (Index.queryRaw μ fuel sqrtFn idx clauses).map sortResults

/-- Well-formed clause terms: string terms, or object terms carrying a
number map (`fromClause` throws otherwise). -/
def termOk (c : Clause) : Bool :=
  match c.term with
  | .str _ => true
  | _ => c.numberMap.isSome

/-- Whether document `d` contains some expanded term of clause `c` in a
searched field that the index knows (the documents the clause's
prohibited-match processing collects). -/
def clauseProhibits {μ : Type} (fuel : Nat) (idx : QIndex μ) (c : Clause)
    (d : String) : Bool :=
  (effectiveTerms idx c).any fun t =>
    match expandTerm fuel idx c t with
    | .error _ => false
    | .ok ts =>
      ts.any fun e =>
        c.fields.any fun f =>
          idx.fields.contains f &&
          (((assocGet
              ((assocGet idx.invertedIndex e).getD ⟨0, []⟩).fieldMap
              f).getD []).map Prod.fst).contains d

/-- Whether document `d` contains some expanded term of some clause in a
searched field that the index knows (the documents the prohibited-match
sets collect). -/
def prohibitedDocRef {μ : Type} (fuel : Nat) (idx : QIndex μ)
    (clauses : List Clause) (d : String) : Bool :=
  clauses.any fun c => clauseProhibits fuel idx c d

/-- The combined prohibited sets' membership test, written directly over
the per-field prohibited-match entries (shown equal to
`(allProhibited idx st).contains d`). -/
def apContains {μ : Type} (idx : QIndex μ) (st : QState μ) (d : String) :
    Bool :=
  idx.fields.any fun f =>
    ((assocGet st.prohibitedMatches f).getD LSet.empty).contains d

/-! ### Concrete query inputs for the clause-loop evaluations -/

/-- A one-word vocabulary token set (the word `"a"`). -/
def c6TS : Arena × Nat :=
  match TokenSet.fromArray [['a']] with
  | .ok p => p
  | .error _ => (Arena.init, 0)

/-- A one-field, one-document index whose single term is `"a"` (document
`"d1"`). -/
def c6Idx : QIndex Unit :=
  { fields := ["f"]
    invertedIndex := [(['a'], ⟨0, [("f", [("d1", ())])]⟩)]
    fieldVectors := [(("f", "d1"), [])]
    tsArena := c6TS.1
    tsRoot := c6TS.2
    pipelineFn := fun s => [s] }

/-- A `REQUIRED` clause for the term `"z"`, which is absent from the
vocabulary, so its expansion is empty. -/
def c6Clause1 : Clause :=
  { fields := ["f"], term := .str ['z'], boost := 1, editDistance := none,
    usePipeline := false, presence := .required, numberMap := none }

/-- An `OPTIONAL` clause for the vocabulary term `"a"`. -/
def c6Clause2 : Clause :=
  { fields := ["f"], term := .str ['a'], boost := 1, editDistance := none,
    usePipeline := false, presence := .optional, numberMap := none }

/-- A one-field index with two documents: `"d1"` contains the sole term
`"a"`, `"d2"` contains nothing. -/
def c7Idx : QIndex Unit :=
  { fields := ["f"]
    invertedIndex := [(['a'], ⟨0, [("f", [("d1", ())])]⟩)]
    fieldVectors := [(("f", "d1"), []), (("f", "d2"), [])]
    tsArena := c6TS.1
    tsRoot := c6TS.2
    pipelineFn := fun s => [s] }

/-- A `PROHIBITED` clause for the term `"a"`. -/
def c7Clause : Clause :=
  { fields := ["f"], term := .str ['a'], boost := 1, editDistance := none,
    usePipeline := false, presence := .prohibited, numberMap := none }

/-! ### Claim C4: fuzzy expansion and edit distance -/

/-- Expansion of a fuzzy term against a vocabulary:
`TokenSet.fromArray(sort(V)).intersect(TokenSet.fromFuzzyString(s, k)).toArray()`. -/
def fuzzyExpansion (fuel : Nat) (vocab : List Str) (s : Str) (k : Nat) :
    Except String (List Str) :=
  match TokenSet.fromArray (sortStrs vocab) with
  | .ok (aV, rV) =>
    let (aQ, rQ) := TokenSet.fromFuzzyString fuel s k
    let (aO, rO) := TokenSet.intersect fuel aV rV aQ rQ
    .ok (TokenSet.toArray aO rO fuel)
  | .error e => .error e

/-- Modelled from the spec: one Damerau-Levenshtein edit derivation from
`s` to `t` of cost `c` — matches are free; deletions, insertions,
substitutions and adjacent transpositions cost one each. -/
inductive Ed : Str → Str → Nat → Prop where
  | nil : Ed [] [] 0
  | keep {s t : Str} {c : Nat} (a : Char) : Ed s t c → Ed (a :: s) (a :: t) c
  | del {s t : Str} {c : Nat} (a : Char) : Ed s t c → Ed (a :: s) t (c + 1)
  | ins {s t : Str} {c : Nat} (b : Char) : Ed s t c → Ed s (b :: t) (c + 1)
  | sub {s t : Str} {c : Nat} (a b : Char) :
      Ed s t c → Ed (a :: s) (b :: t) (c + 1)
  | trans {s t : Str} {c : Nat} (a b : Char) :
      Ed (a :: s) t c → Ed (a :: b :: s) (b :: t) (c + 1)

/-- Modelled from the spec: the Damerau-Levenshtein distance between `s`
and `t` is at most `k` (witnessed by an edit derivation of cost at most
`k`). -/
def dlLE (s t : Str) (k : Nat) : Prop := ∃ c, c ≤ k ∧ Ed s t c

/-- The label patterns producible from a remaining input string with a
given number of edits: the grammar the fuzzy-automaton construction
implements (no edit, deletion, substitution `*`, insertion `*`,
transposition). -/
inductive EdC : Str → Str → Nat → Prop where
  | nil : EdC [] [] 0
  | noEdit {s u : Str} {c : Nat} (a : Char) :
      EdC s u c → EdC (a :: s) (a :: u) c
  | del {s u : Str} {c : Nat} (a : Char) : EdC s u c → EdC (a :: s) u (c + 1)
  | sub {s u : Str} {c : Nat} (a : Char) :
      EdC s u c → EdC (a :: s) ('*' :: u) (c + 1)
  | ins {s u : Str} {c : Nat} : EdC s u c → EdC s ('*' :: u) (c + 1)
  | trans {s u : Str} {c : Nat} (a b : Char) :
      EdC (a :: s) u c → EdC (a :: b :: s) (b :: u) (c + 1)

/-- Wildcard match of an edge-label pattern against a string: `*` matches
any single character, any other label matches exactly itself. -/
inductive WMatch : Str → Str → Prop where
  | nil : WMatch [] []
  | lit {p t : Str} (a : Char) : WMatch p t → WMatch (a :: p) (a :: t)
  | star {p t : Str} (a : Char) : WMatch p t → WMatch ('*' :: p) (a :: t)

/-- A path in an arena following exactly the labels of `u`. -/
inductive EPath (a : Arena) : Nat → Str → Nat → Prop where
  | nil (n : Nat) : EPath a n [] n
  | cons {n m r : Nat} {c : Char} {u : Str} :
      edgesGet (a.get n).edges c = some m → EPath a m u r →
      EPath a n (c :: u) r

/-- A path in an arena consuming the characters of `t`, each either via
the identically labeled edge or via a `*` edge. -/
inductive WPath (a : Arena) : Nat → Str → Nat → Prop where
  | nil (n : Nat) : WPath a n [] n
  | lit {n m r : Nat} {c : Char} {t : Str} :
      edgesGet (a.get n).edges c = some m → WPath a m t r →
      WPath a n (c :: t) r
  | star {n m r : Nat} {c : Char} {t : Str} :
      edgesGet (a.get n).edges '*' = some m → WPath a m t r →
      WPath a n (c :: t) r

/-- Binary decoding, inverse of `natBits`. -/
def bitsVal : List Bool → Nat
  | [] => 0
  | b :: bs => (if b then 1 else 0) + 2 * bitsVal bs

/-- Structural well-formedness of the arenas grown by `getOrCreate` and
by the intersection loop: unallocated indices are untouched, every edge
points strictly forward to an allocated node, and every node has at most
one incoming edge. -/
def AOK (a : Arena) : Prop :=
  (∀ x, a.size ≤ x → a.tree.get (natBits x) = none) ∧
  (∀ n c m, edgesGet (a.get n).edges c = some m → n < m ∧ m < a.size) ∧
  (∀ m n1 c1 n2 c2, edgesGet (a.get n1).edges c1 = some m →
    edgesGet (a.get n2).edges c2 = some m → n1 = n2 ∧ c1 = c2)

/-- The justification a pending fuzzy frame carries: any pattern path to
the frame's node, extended by any pattern producible from the remaining
string within the remaining edits, wildcard-matches only strings within
distance `k` of `s`. -/
def FzGood (s : Str) (k : Nat) (a : Arena) (n : Nat) (e : Nat)
    (str : Str) : Prop :=
  ∀ p, EPath a 0 p n → ∀ u c, EdC str u c → c ≤ e →
    ∀ t, WMatch (p ++ u) t → dlLE s t k

/-- Soundness of the final nodes: their pattern paths wildcard-match only
strings within distance `k` of `s`. -/
def FzFinal (s : Str) (k : Nat) (a : Arena) : Prop :=
  ∀ x, (a.get x).final = true → ∀ p, EPath a 0 p x →
    ∀ t, WMatch p t → dlLE s t k

/-- The loop invariant of `fromFuzzyString`. -/
def FzInv (s : Str) (k : Nat) (a : Arena) (stack : List FzFrame) : Prop :=
  AOK a ∧ FzFinal s k a ∧
  ∀ fr ∈ stack, fr.node < a.size ∧
    FzGood s k a fr.node fr.editsRemaining fr.str

/-- Output-node justification of the intersection: every exact path to
the output node wildcard-traces from the query root to the query node. -/
def IOut (aQ : Arena) (rQ : Nat) (aO : Arena) (o q : Nat) : Prop :=
  ∀ p, EPath aO 0 p o → WPath aQ rQ p q

/-- The loop invariant of `intersect`. -/
def IInv (aQ : Arena) (rQ : Nat) (aO : Arena) (stack : List IFrame) : Prop :=
  AOK aO ∧
  (∀ fr ∈ stack, fr.output < aO.size ∧ IOut aQ rQ aO fr.output fr.qNode) ∧
  (∀ x, (aO.get x).final = true →
    ∃ q, IOut aQ rQ aO x q ∧ (aQ.get q).final = true)

/-- A frame list whose members all carry valid justifications. -/
def FzFrames (s : Str) (k : Nat) (a : Arena) (l : List FzFrame) : Prop :=
  ∀ g ∈ l, g.node < a.size ∧ FzGood s k a g.node g.editsRemaining g.str

/-- The intermediate-state invariant of one intersection frame: the
current frame, the pending frames and the already-pushed frames are all
justified, and every final output node has a final query witness. -/
def IPair (aQ : Arena) (rQ : Nat) (fr : IFrame) (others : List IFrame)
    (acc : Arena × List IFrame) : Prop :=
  AOK acc.1 ∧
  (fr.output < acc.1.size ∧ IOut aQ rQ acc.1 fr.output fr.qNode) ∧
  (∀ g ∈ others, g.output < acc.1.size ∧ IOut aQ rQ acc.1 g.output g.qNode) ∧
  (∀ g ∈ acc.2, g.output < acc.1.size ∧ IOut aQ rQ acc.1 g.output g.qNode) ∧
  (∀ x, (acc.1.get x).final = true →
    ∃ q, IOut aQ rQ acc.1 x q ∧ (aQ.get q).final = true)


end Lunr

namespace Lunr

/-! ### Theorems -/

/-- Claim C9: `TokenSet.Builder.insert(word)` fails with the error
"Out of order word insertion" exactly when `word` is lexicographically
less than the previously inserted word, and succeeds otherwise — no other
precondition causes a failure, for any builder state whatsoever. -/
theorem C9_insert_out_of_order (b : TSBuilder) (word : Str) :
    (if strLt word b.previousWord then
        b.insert word = .error "Out of order word insertion"
      else ∃ b2, b.insert word = .ok b2) := by
  unfold TSBuilder.insert
  split
  · rfl
  · exact ⟨_, rfl⟩

set_option maxRecDepth 100000 in
set_option maxHeartbeats 4000000 in
/-- Claim C2 (refuting evaluation): `collisionWords` is a sorted list of
distinct strings, yet the round trip `TokenSet.fromArray(L).toArray()`
is not a permutation of it: the inserted word "M00" is lost and the
never-inserted word "M1" appears, because the canonical keys of two
structurally different nodes collide (`"0" + "0" + "2" + "1" + "2"`
versus `"0" + "0" + "212"`). -/
theorem C2_roundTrip_not_permutation :
    ascChain collisionWords = true ∧
    ¬ (roundTrip 1000 collisionWords).Perm collisionWords := by
  refine ⟨by decide, fun h => ?_⟩
  have hmem := h.mem_iff (a := ['M', '0', '0'])
  have h1 : ['M', '0', '0'] ∉ roundTrip 1000 collisionWords ∧
      ['M', '0', '0'] ∈ collisionWords := by decide
  exact absurd (hmem.mpr h1.2) h1.1

set_option maxRecDepth 100000 in
set_option maxHeartbeats 8000000 in
/-- Claim C3 (refuting evaluation): with the collision vocabulary, the
string "M00" is in the vocabulary and matches the wildcard-free pattern
"M00" under glob semantics, yet it is not a member of
`fromArray(V).intersect(fromString("M00")).toArray()` — the canonical-key
collision of C2 removes it from the vocabulary automaton. -/
theorem C3_wildcard_glob_mismatch :
    collisionWords.contains ['M', '0', '0'] = true ∧
    globMatch ['M', '0', '0'] ['M', '0', '0'] = true ∧
    (wildcardExpansion 1000 collisionWords ['M', '0', '0']).contains
      ['M', '0', '0'] = false := by decide

/-- Claim C1 (refuting evaluation): on the specification's own example
(`wordCount` values `{a:5, b:4, c:5}`, entries `[(4,["4"]),(5,["5"])]`),
`matchRange(5, 5)` returns the empty token set — both endpoints resolve
to index 1 and the half-open range `[1, 1)` is empty — although the claim
requires the tokens of every entry with value in `[5, 5]`, namely "5"
(documents a and c). -/
theorem C1_matchRange_example_empty :
    rangeTokens 100 exampleNumberMap (some 5) (some 5) = [] ∧
    claimRangeTokens exampleNumberMap 5 5 = [['5']] := by decide

/-- Claim C10: constructing a `Set` from an absent or empty element array
yields the shared `Set.empty` sentinel itself (not a fresh set), whose
`contains` is false everywhere, and `intersect`/`union` treat it through
the sentinel fast paths (`empty ∩ s = empty`, `s ∩ empty = empty`,
`empty ∪ s = s`, `s ∪ empty = s`). -/
theorem C10_empty_sentinel :
    mkSet none = LSet.empty ∧ mkSet (some []) = LSet.empty ∧
    (∀ x, LSet.empty.contains x = false) ∧
    (∀ s : LSet, LSet.empty.intersect s = LSet.empty) ∧
    (∀ s : LSet, s.intersect LSet.empty = LSet.empty) ∧
    (∀ s : LSet, LSet.empty.union s = s) ∧
    (∀ s : LSet, s.union LSet.empty = s) := by
  refine ⟨rfl, rfl, fun x => rfl, fun s => rfl, fun s => ?_, fun s => rfl,
    fun s => ?_⟩
  · cases s <;> rfl
  · cases s <;> rfl

theorem assocGet_assocSet_self {α β : Type} [DecidableEq α] (l : List (α × β))
    (k : α) (v : β) : assocGet (assocSet k v l) k = some v := by
  induction l with
  | nil => simp [assocSet, assocGet]
  | cons hd tl ih =>
    by_cases h : hd.1 = k
    · simp [assocSet, assocGet, h]
    · simpa [assocSet, assocGet, h] using ih

theorem assocGet_assocSet_ne {α β : Type} [DecidableEq α] (l : List (α × β))
    (k k2 : α) (v : β) (h : k ≠ k2) :
    assocGet (assocSet k v l) k2 = assocGet l k2 := by
  induction l with
  | nil => simp [assocSet, assocGet, h]
  | cons hd tl ih =>
    by_cases h2 : hd.1 = k
    · simp [assocSet, assocGet, h2, h]
    · simp only [assocSet, if_neg h2, assocGet]
      by_cases h3 : hd.1 = k2 <;> simp [h3, ih]

theorem assocSet_of_get_none {α β : Type} [DecidableEq α] (l : List (α × β))
    (k : α) (v : β) (h : assocGet l k = none) :
    assocSet k v l = l ++ [(k, v)] := by
  induction l with
  | nil => simp [assocSet]
  | cons hd tl ih =>
    by_cases h2 : hd.1 = k
    · simp [assocGet, h2] at h
    · simp [assocGet, h2] at h
      simp [assocSet, h2, ih h]

theorem assocGet_append_of_none {α β : Type} [DecidableEq α]
    (l1 l2 : List (α × β)) (k : α) (h : assocGet l1 k = none) :
    assocGet (l1 ++ l2) k = assocGet l2 k := by
  induction l1 with
  | nil => simp
  | cons hd tl ih =>
    by_cases h2 : hd.1 = k
    · simp [assocGet, h2] at h
    · simp [assocGet, h2] at h ⊢
      exact ih h

/-- The inner fold of the modeled `add` appends one field-length entry
per configured field, provided the field refs are fresh and the
configured field names are distinct. -/
theorem c5_add_fold (docRef : String) (docFields : List (String × List Str))
    (fs : List String) (s : C5Builder)
    (hfresh : ∀ fn ∈ fs, assocGet s.fieldLengths (fn, docRef) = none)
    (hnd : fs.Nodup) :
    (fs.foldl
      (fun b2 fieldName =>
        { b2 with
            fieldLengths :=
              assocSet (fieldName, docRef)
                ((assocGet docFields fieldName).getD []).length
                b2.fieldLengths }) s).fieldLengths =
      s.fieldLengths ++ fs.map
        (fun fn => ((fn, docRef), ((assocGet docFields fn).getD []).length)) := by
  induction fs generalizing s with
  | nil => simp
  | cons fn rest ih =>
    simp only [List.foldl_cons, List.map_cons]
    have hget : assocGet s.fieldLengths (fn, docRef) = none := hfresh fn (by simp)
    rw [List.nodup_cons] at hnd
    rw [ih]
    · rw [assocSet_of_get_none _ _ _ hget, List.append_assoc]
      rfl
    · intro fn2 h2
      have hne : ((fn, docRef) : String × String) ≠ (fn2, docRef) := by
        intro he
        exact hnd.1 (by cases he; exact h2)
      simp only [assocSet_of_get_none _ _ _ hget]
      rw [assocGet_append_of_none _ _ _ (hfresh fn2 (List.mem_cons_of_mem _ h2))]
      simp [assocGet, hne]
    · exact hnd.2

/-- The length the modeled `add` records for each field of a document. -/
theorem c5_add_fieldLengths (b : C5Builder) (docRef : String)
    (docFields : List (String × List Str))
    (hfresh : ∀ fn ∈ b.fields, assocGet b.fieldLengths (fn, docRef) = none)
    (hnd : b.fields.Nodup) :
    (b.add docRef docFields).fieldLengths =
      b.fieldLengths ++ b.fields.map
        (fun fn => ((fn, docRef), ((assocGet docFields fn).getD []).length)) := by
  unfold C5Builder.add
  exact c5_add_fold docRef docFields b.fields _ hfresh hnd

theorem c5_add_fold_fields (docRef : String)
    (docFields : List (String × List Str)) (fs : List String) (s : C5Builder) :
    (fs.foldl
      (fun b2 fieldName =>
        { b2 with
            fieldLengths :=
              assocSet (fieldName, docRef)
                ((assocGet docFields fieldName).getD []).length
                b2.fieldLengths }) s).fields = s.fields ∧
    (fs.foldl
      (fun b2 fieldName =>
        { b2 with
            fieldLengths :=
              assocSet (fieldName, docRef)
                ((assocGet docFields fieldName).getD []).length
                b2.fieldLengths }) s).documentCount = s.documentCount := by
  induction fs generalizing s with
  | nil => exact ⟨rfl, rfl⟩
  | cons fn rest ih => simpa using ih _

theorem c5_add_fields (b : C5Builder) (docRef : String)
    (docFields : List (String × List Str)) :
    (b.add docRef docFields).fields = b.fields ∧
    (b.add docRef docFields).documentCount = b.documentCount + 1 := by
  unfold C5Builder.add
  simpa using c5_add_fold_fields docRef docFields b.fields _

theorem assocGet_block_none (fields : List String) (r r2 : String)
    (v : String → Nat) (fn2 : String) (h : r2 ≠ r) :
    assocGet (fields.map fun fn => ((fn, r), v fn)) (fn2, r2) = none := by
  induction fields with
  | nil => rfl
  | cons fn rest ih =>
    have : ((fn, r) : String × String) ≠ (fn2, r2) := by
      intro he; cases he; exact h rfl
    simp [assocGet, this, ih]

theorem assocGet_append_none {α β : Type} [DecidableEq α]
    (l1 l2 : List (α × β)) (k : α) (h1 : assocGet l1 k = none)
    (h2 : assocGet l2 k = none) : assocGet (l1 ++ l2) k = none := by
  rw [assocGet_append_of_none _ _ _ h1]; exact h2

/-- Running the modeled builder over documents with pairwise-distinct
references records one field-length entry per document per configured
field, in order. -/
theorem c5_build_fold (fields : List String) (hnd : fields.Nodup)
    (docs : List (String × List (String × List Str))) (s : C5Builder)
    (hs : s.fields = fields) (hrefs : (docs.map Prod.fst).Nodup)
    (hfresh : ∀ d ∈ docs, ∀ fn, assocGet s.fieldLengths (fn, d.1) = none) :
    (docs.foldl (fun b d => b.add d.1 d.2) s).fieldLengths =
      s.fieldLengths ++ docs.flatMap (fun d => fields.map
        (fun fn => ((fn, d.1), ((assocGet d.2 fn).getD []).length))) ∧
    (docs.foldl (fun b d => b.add d.1 d.2) s).fields = fields ∧
    (docs.foldl (fun b d => b.add d.1 d.2) s).documentCount =
      s.documentCount + docs.length := by
  induction docs generalizing s with
  | nil => simpa using hs
  | cons d rest ih =>
    simp only [List.foldl_cons, List.flatMap_cons]
    have hndfields : s.fields.Nodup := hs ▸ hnd
    have hflAdd : (s.add d.1 d.2).fieldLengths =
        s.fieldLengths ++ fields.map
          (fun fn => ((fn, d.1), ((assocGet d.2 fn).getD []).length)) := by
      rw [c5_add_fieldLengths s d.1 d.2
        (fun fn _ => hfresh d (by simp) fn) hndfields, hs]
    have hfields2 : (s.add d.1 d.2).fields = fields :=
      (c5_add_fields s d.1 d.2).1.trans hs
    have hdc2 : (s.add d.1 d.2).documentCount = s.documentCount + 1 :=
      (c5_add_fields s d.1 d.2).2
    simp only [List.map_cons, List.nodup_cons] at hrefs
    have hfresh2 : ∀ d2 ∈ rest, ∀ fn,
        assocGet (s.add d.1 d.2).fieldLengths (fn, d2.1) = none := by
      intro d2 h2 fn
      rw [hflAdd]
      refine assocGet_append_none _ _ _
        (hfresh d2 (List.mem_cons_of_mem _ h2) fn) ?_
      exact assocGet_block_none fields d.1 d2.1 _ fn
        (fun he => hrefs.1 (he ▸ List.mem_map_of_mem Prod.fst h2))
    obtain ⟨hA, hB, hC⟩ := ih (s.add d.1 d.2) hfields2 hrefs.2 hfresh2
    refine ⟨?_, hB, ?_⟩
    · rw [hA, hflAdd, List.append_assoc]
    · rw [hC, hdc2, List.length_cons]; omega

/-- Characterization of the per-field accumulating fold of
`calculateAverageFieldLengths`: starting from any accumulators, the ref
count for `f` grows by the number of entries for `f` and the length
accumulator by their total length. -/
theorem c5_acc_fold (f : String) (L : List ((String × String) × Nat))
    (m : List (String × Nat) × List (String × Nat)) :
    (assocGet (L.foldl
      (fun (acc : List (String × Nat) × List (String × Nat)) entry =>
        (assocSet entry.1.1 ((assocGet acc.1 entry.1.1).getD 0 + 1) acc.1,
         assocSet entry.1.1 ((assocGet acc.2 entry.1.1).getD 0 + entry.2) acc.2))
      m).1 f).getD 0 =
      (assocGet m.1 f).getD 0 + (L.filter (fun e => e.1.1 = f)).length ∧
    (assocGet (L.foldl
      (fun (acc : List (String × Nat) × List (String × Nat)) entry =>
        (assocSet entry.1.1 ((assocGet acc.1 entry.1.1).getD 0 + 1) acc.1,
         assocSet entry.1.1 ((assocGet acc.2 entry.1.1).getD 0 + entry.2) acc.2))
      m).2 f).getD 0 =
      (assocGet m.2 f).getD 0 +
        ((L.filter (fun e => e.1.1 = f)).map (·.2)).sum := by
  induction L generalizing m with
  | nil => simp
  | cons entry rest ih =>
    simp only [List.foldl_cons]
    obtain ⟨ih1, ih2⟩ := ih
      (assocSet entry.1.1 ((assocGet m.1 entry.1.1).getD 0 + 1) m.1,
       assocSet entry.1.1 ((assocGet m.2 entry.1.1).getD 0 + entry.2) m.2)
    by_cases hf : entry.1.1 = f
    · subst hf
      constructor
      · rw [ih1, assocGet_assocSet_self]
        simp [List.filter_cons]
        omega
      · rw [ih2, assocGet_assocSet_self]
        simp [List.filter_cons]
        omega
    · constructor
      · rw [ih1, assocGet_assocSet_ne _ _ _ _ hf]
        simp [List.filter_cons, hf]
      · rw [ih2, assocGet_assocSet_ne _ _ _ _ hf]
        simp [List.filter_cons, hf]

theorem assocGet_map_self (fields : List String) (g : String → ℚ) (f : String)
    (hf : f ∈ fields) :
    assocGet (fields.map fun fn => (fn, g fn)) f = some (g f) := by
  induction fields with
  | nil => cases hf
  | cons fn rest ih =>
    by_cases h : fn = f
    · subst h; simp [assocGet]
    · have : f ∈ rest := by
        rcases List.mem_cons.1 hf with h2 | h2
        · exact absurd h2.symm h
        · exact h2
      simp [assocGet, h, ih this]

theorem c5_block_filter_nil (fields : List String) (f r : String)
    (v : String → Nat) (hf : f ∉ fields) :
    (fields.map fun fn => ((fn, r), v fn)).filter (fun e => e.1.1 = f) = [] := by
  induction fields with
  | nil => rfl
  | cons fn rest ih =>
    have h1 : fn ≠ f := fun he => hf (he ▸ List.mem_cons_self fn rest)
    have h2 : f ∉ rest := fun he => hf (List.mem_cons_of_mem _ he)
    simp [List.filter_cons, h1, ih h2]

theorem c5_block_filter (fields : List String) (f r : String)
    (v : String → Nat) (hnd : fields.Nodup) (hf : f ∈ fields) :
    (fields.map fun fn => ((fn, r), v fn)).filter (fun e => e.1.1 = f) =
      [((f, r), v f)] := by
  induction fields with
  | nil => cases hf
  | cons fn rest ih =>
    rw [List.nodup_cons] at hnd
    by_cases h : fn = f
    · subst h
      simp [List.filter_cons, c5_block_filter_nil rest fn r v hnd.1]
    · have : f ∈ rest := by
        rcases List.mem_cons.1 hf with h2 | h2
        · exact absurd h2.symm h
        · exact h2
      simp [List.filter_cons, h, ih hnd.2 this]

theorem c5_flatMap_filter (fields : List String)
    (docs : List (String × List (String × List Str))) (f : String)
    (hnd : fields.Nodup) (hf : f ∈ fields) :
    (docs.flatMap (fun d => fields.map
      (fun fn => ((fn, d.1), ((assocGet d.2 fn).getD []).length)))).filter
        (fun e => e.1.1 = f) =
      docs.map (fun d => ((f, d.1), ((assocGet d.2 f).getD []).length)) := by
  induction docs with
  | nil => rfl
  | cons d rest ih =>
    simp only [List.flatMap_cons, List.filter_append, List.map_cons]
    rw [c5_block_filter fields f d.1 _ hnd hf, ih]
    rfl

/-- The two accumulators after the accumulating pass: ref count and total
length of the entries whose field name is `f`. -/
theorem c5_accumulate_spec (f : String) (L : List ((String × String) × Nat)) :
    (assocGet (c5Accumulate L).1 f).getD 0 =
      (L.filter (fun e => e.1.1 = f)).length ∧
    (assocGet (c5Accumulate L).2 f).getD 0 =
      ((L.filter (fun e => e.1.1 = f)).map (·.2)).sum := by
  obtain ⟨h1, h2⟩ := c5_acc_fold f L ([], [])
  constructor
  · simpa [c5Accumulate, assocGet] using h1
  · simpa [c5Accumulate, assocGet] using h2

/-- Claim C5 (amended): after `build()`, for every configured field `f`,
`averageFieldLength[f]` is the total of the recorded field lengths of `f`
divided by the number of added documents — every added document records a
field-length entry for every configured field (zero when the document
lacks the field), so documents lacking `f` do count in the divisor. -/
theorem C5_average_divides_by_all_documents (fields : List String)
    (docs : List (String × List (String × List Str)))
    (hnd : fields.Nodup) (hrefs : (docs.map Prod.fst).Nodup)
    (f : String) (hf : f ∈ fields) (_hne : docs ≠ []) :
    avgFieldLength (buildC5 fields docs) f =
      some ((((docs.map fun d =>
        ((assocGet d.2 f).getD []).length).sum : Nat) : ℚ) /
          ((docs.length : Nat) : ℚ)) := by
  obtain ⟨hL, hF, _⟩ := c5_build_fold fields hnd docs ⟨fields, [], 0⟩ rfl hrefs
    (by intro d _ fn; rfl)
  have hF2 : (buildC5 fields docs).fields = fields := hF
  have hL2 : (buildC5 fields docs).fieldLengths =
      docs.flatMap (fun d => fields.map
        (fun fn => ((fn, d.1), ((assocGet d.2 fn).getD []).length))) := by
    unfold buildC5
    simpa using hL
  unfold avgFieldLength C5Builder.calculateAverageFieldLengths
  rw [hF2, hL2]
  rw [assocGet_map_self fields _ f hf]
  rw [(c5_accumulate_spec f _).1, (c5_accumulate_spec f _).2,
    c5_flatMap_filter fields docs f hnd hf]
  have hcnt : (docs.map (fun d =>
      ((f, d.1), ((assocGet d.2 f).getD []).length))).length = docs.length := by
    simp
  have hsum : ((docs.map (fun d =>
      ((f, d.1), ((assocGet d.2 f).getD []).length))).map (·.2)).sum =
      (docs.map fun d => ((assocGet d.2 f).getD []).length).sum := by
    simp [List.map_map]
    rfl
  rw [hcnt, hsum]

/-- Claim C5 (witness for the amended theorem): on the two-document
example the average is (2 + 0) / 2 = 1. -/
theorem C5_average_witness :
    ["f"].Nodup ∧ (c5Docs.map Prod.fst).Nodup ∧ "f" ∈ ["f"] ∧ c5Docs ≠ [] ∧
    avgFieldLength (buildC5 ["f"] c5Docs) "f" =
      some ((((c5Docs.map fun d =>
        ((assocGet d.2 "f").getD []).length).sum : Nat) : ℚ) /
          ((c5Docs.length : Nat) : ℚ)) :=
  ⟨by decide, by decide, by decide, by decide,
    C5_average_divides_by_all_documents ["f"] c5Docs (by decide) (by decide)
      "f" (by decide) (by decide)⟩

/-- Claim C5 (refuting evaluation): with document `d1` holding two terms
in field "f" and document `d2` lacking the field, the built average is
(2 + 0) / 2 = 1, while the claim's average over the documents containing
the field is 2 / 1 = 2. -/
theorem C5_average_counterexample :
    avgFieldLength (buildC5 ["f"] c5Docs) "f" = some 1 ∧
    claimAvgFieldLength c5Docs "f" = 2 ∧ (1 : ℚ) ≠ 2 := by
  refine ⟨?_, ?_, by norm_num⟩
  · norm_num [avgFieldLength, buildC5, c5Docs, C5Builder.add,
      C5Builder.calculateAverageFieldLengths, c5Accumulate, assocGet, assocSet]
  · norm_num [claimAvgFieldLength, c5Docs, assocGet]

/-! Sortedness and stability of the final result sort (claim C8). -/

theorem mem_insertResultDesc {μ : Type} (r y : QResult μ)
    (l : List (QResult μ)) :
    y ∈ insertResultDesc r l ↔ y = r ∨ y ∈ l := by
  induction l with
  | nil => simp [insertResultDesc]
  | cons x xs ih =>
    by_cases h : r.score > x.score
    · simp [insertResultDesc, h]
    · simp [insertResultDesc, h, ih]
      tauto

theorem insertResultDesc_sorted {μ : Type} (r : QResult μ)
    (l : List (QResult μ)) (hs : l.Pairwise (fun a b => b.score ≤ a.score)) :
    (insertResultDesc r l).Pairwise (fun a b => b.score ≤ a.score) := by
  induction l with
  | nil => simp [insertResultDesc]
  | cons x xs ih =>
    rw [List.pairwise_cons] at hs
    by_cases h : r.score > x.score
    · rw [insertResultDesc, if_pos h, List.pairwise_cons]
      refine ⟨?_, List.pairwise_cons.2 hs⟩
      intro y hy
      rcases List.mem_cons.1 hy with hy2 | hy2
      · subst hy2; exact le_of_lt h
      · exact le_trans (hs.1 y hy2) (le_of_lt h)
    · rw [insertResultDesc, if_neg h, List.pairwise_cons]
      refine ⟨?_, ih hs.2⟩
      intro y hy
      rcases (mem_insertResultDesc r y xs).1 hy with hy2 | hy2
      · subst hy2; exact le_of_not_lt h
      · exact hs.1 y hy2

theorem filter_eq_nil_of_lt {μ : Type} (q : ℚ) (x : QResult μ)
    (xs : List (QResult μ)) (hs : (x :: xs).Pairwise (fun a b => b.score ≤ a.score))
    (hlt : x.score < q) :
    (x :: xs).filter (fun y => decide (y.score = q)) = [] := by
  rw [List.filter_eq_nil_iff]
  intro y hy
  have hle : y.score ≤ x.score := by
    rcases List.mem_cons.1 hy with hy2 | hy2
    · subst hy2; exact le_refl _
    · exact (List.pairwise_cons.1 hs).1 y hy2
  simp only [decide_eq_true_eq]
  intro he
  exact absurd (he ▸ hlt) (not_lt_of_le hle)

theorem insertResultDesc_filter {μ : Type} (r : QResult μ)
    (l : List (QResult μ)) (q : ℚ)
    (hs : l.Pairwise (fun a b => b.score ≤ a.score)) :
    (insertResultDesc r l).filter (fun y => decide (y.score = q)) =
      if r.score = q then
        l.filter (fun y => decide (y.score = q)) ++ [r]
      else l.filter (fun y => decide (y.score = q)) := by
  induction l with
  | nil =>
    simp only [insertResultDesc, List.filter]
    by_cases h : r.score = q <;> simp [h]
  | cons x xs ih =>
    rw [List.pairwise_cons] at hs
    by_cases h : r.score > x.score
    · rw [insertResultDesc, if_pos h]
      by_cases hrq : r.score = q
      · have hnil : (x :: xs).filter (fun y => decide (y.score = q)) = [] :=
          filter_eq_nil_of_lt q x xs (List.pairwise_cons.2 hs) (hrq ▸ h)
        rw [List.filter_cons_of_pos (by simpa using hrq), hnil, if_pos hrq]
        rfl
      · simp only [if_neg hrq]
        rw [List.filter_cons_of_neg (by simpa using hrq)]
    · rw [insertResultDesc, if_neg h]
      by_cases hx : x.score = q
      · rw [List.filter_cons_of_pos (by simpa using hx),
          List.filter_cons_of_pos (by simpa using hx), ih hs.2]
        by_cases hrq : r.score = q <;> simp [hrq]
      · rw [List.filter_cons_of_neg (by simpa using hx),
          List.filter_cons_of_neg (by simpa using hx), ih hs.2]

theorem sortResults_fold_sorted {μ : Type} (l acc : List (QResult μ))
    (hs : acc.Pairwise (fun a b => b.score ≤ a.score)) :
    (l.foldl (fun acc r => insertResultDesc r acc) acc).Pairwise
      (fun a b => b.score ≤ a.score) := by
  induction l generalizing acc with
  | nil => exact hs
  | cons r rest ih => exact ih _ (insertResultDesc_sorted r acc hs)

theorem sortResults_fold_filter {μ : Type} (l acc : List (QResult μ)) (q : ℚ)
    (hs : acc.Pairwise (fun a b => b.score ≤ a.score)) :
    (l.foldl (fun acc r => insertResultDesc r acc) acc).filter
        (fun y => decide (y.score = q)) =
      acc.filter (fun y => decide (y.score = q)) ++
        l.filter (fun y => decide (y.score = q)) := by
  induction l generalizing acc with
  | nil => simp
  | cons r rest ih =>
    rw [List.foldl_cons, ih _ (insertResultDesc_sorted r acc hs),
      insertResultDesc_filter r acc q hs]
    by_cases hrq : r.score = q
    · rw [List.filter_cons_of_pos (by simpa using hrq), if_pos hrq,
        List.append_assoc]
      rfl
    · rw [List.filter_cons_of_neg (by simpa using hrq), if_neg hrq]

/-- Claim C8: the result list of `Index.query` is sorted by score in
descending order, and results of equal score keep the order in which they
were first pushed onto the raw results list (the first-encountered
order); the whole computation is a function of the index and the query,
hence deterministic. -/
theorem C8_results_sorted_and_stable (μ : Type) (fuel : Nat)
    (sqrtFn : ℚ → ℚ) (idx : QIndex μ) (clauses : List Clause)
    (res : List (QResult μ))
    (h : Index.query μ fuel sqrtFn idx clauses = .ok res) :
    ∃ raw, Index.queryRaw μ fuel sqrtFn idx clauses = .ok raw ∧
      res = sortResults raw ∧
      res.Pairwise (fun a b => b.score ≤ a.score) ∧
      ∀ q : ℚ, res.filter (fun r => decide (r.score = q)) =
        raw.filter (fun r => decide (r.score = q)) := by
  unfold Index.query at h
  cases hraw : Index.queryRaw μ fuel sqrtFn idx clauses with
  | error e => rw [hraw] at h; exact absurd h (by simp [Except.map])
  | ok raw =>
    rw [hraw] at h
    simp only [Except.map, Except.ok.injEq] at h
    refine ⟨raw, rfl, h.symm, ?_, ?_⟩
    · rw [← h]
      exact sortResults_fold_sorted raw [] (by simp)
    · intro q
      rw [← h]
      unfold sortResults
      rw [sortResults_fold_filter raw [] q (by simp)]
      simp

/-- Claim C8 (witness): a concrete query evaluates successfully, so the
theorem applies to it. -/
theorem C8_results_sorted_witness :
    ∃ raw, Index.queryRaw Unit 10 (fun q => q)
        ⟨[], [], [], Arena.init, 0, fun _ => []⟩ [] = .ok raw ∧
      ([] : List (QResult Unit)) = sortResults raw ∧
      ([] : List (QResult Unit)).Pairwise (fun a b => b.score ≤ a.score) ∧
      ∀ q : ℚ, ([] : List (QResult Unit)).filter (fun r => decide (r.score = q)) =
        raw.filter (fun r => decide (r.score = q)) :=
  C8_results_sorted_and_stable Unit 10 (fun q => q)
    ⟨[], [], [], Arena.init, 0, fun _ => []⟩ [] [] rfl

/-! ### Claim C6: a required clause with an empty term expansion -/

/-- Generic `foldl` invariance. -/
theorem foldl_invariant {α β : Type} (P : β → Prop) (g : β → α → β)
    (h : ∀ b a, P b → P (g b a)) (l : List α) :
    ∀ (b : β), P b → P (l.foldl g b) := by
  induction l with
  | nil => intro b hb; exact hb
  | cons a l ih => intro b hb; exact ih (g b a) (h b a hb)

/-- `Except` bind on a success. -/
theorem exc_bind_ok {ε α β : Type} (a : α) (f : α → Except ε β) :
    (do let x ← (Except.ok a : Except ε α); f x) = f a := rfl

/-- `Except` bind on a failure. -/
theorem exc_bind_error {ε α β : Type} (e : ε) (f : α → Except ε β) :
    (do let x ← (Except.error e : Except ε α); f x) =
      (Except.error e : Except ε β) := rfl

/-- The empty set absorbs `intersect` on the left. -/
theorem lset_empty_intersect (s : LSet) : LSet.empty.intersect s = LSet.empty :=
  rfl

/-- The empty set absorbs `intersect` on the right. -/
theorem lset_intersect_empty (s : LSet) : s.intersect LSet.empty = LSet.empty := by
  cases s <;> rfl

/-- The `requiredMatches` of the empty-expansion break fold is a fold on
the association list alone. -/
theorem c6_breakFold_req {μ : Type} (fields : List String) :
    ∀ (st : QState μ),
      (fields.foldl
        (fun st2 field =>
          { st2 with requiredMatches := assocSet field LSet.empty st2.requiredMatches })
        st).requiredMatches =
      fields.foldl (fun l field => assocSet field LSet.empty l)
        st.requiredMatches := by
  induction fields with
  | nil => intro st; rfl
  | cons g fields ih => intro st; exact ih _

/-- A key outside the written fields is untouched by the break fold. -/
theorem c6_foldSet_notmem (f0 : String) (fields : List String) :
    ∀ (l : List (String × LSet)), f0 ∉ fields →
      assocGet (fields.foldl (fun l field => assocSet field LSet.empty l) l) f0 =
        assocGet l f0 := by
  induction fields with
  | nil => intro l _; rfl
  | cons g fields ih =>
    intro l h
    have hg : g ≠ f0 := by rintro rfl; exact h (List.mem_cons_self _ _)
    rw [List.foldl_cons, ih _ (fun hm => h (List.mem_cons_of_mem g hm)),
      assocGet_assocSet_ne _ _ _ _ hg]

/-- Every written field reads back as the empty set after the break fold. -/
theorem c6_foldSet_mem (f0 : String) (fields : List String) :
    ∀ (l : List (String × LSet)), f0 ∈ fields →
      assocGet (fields.foldl (fun l field => assocSet field LSet.empty l) l) f0 =
        some LSet.empty := by
  induction fields with
  | nil => intro l h; exact absurd h (List.not_mem_nil f0)
  | cons g fields ih =>
    intro l h
    by_cases hm : f0 ∈ fields
    · rw [List.foldl_cons]; exact ih _ hm
    · have hg : g = f0 := by
        rcases List.mem_cons.mp h with h1 | h2
        · exact h1.symm
        · exact absurd h2 hm
      rw [List.foldl_cons, c6_foldSet_notmem f0 fields _ hm, hg,
        assocGet_assocSet_self]

/-- The break fold preserves an already-empty entry. -/
theorem c6_foldSet_pres (f0 : String) (fields : List String)
    (l : List (String × LSet)) (h : assocGet l f0 = some LSet.empty) :
    assocGet (fields.foldl (fun l field => assocSet field LSet.empty l) l) f0 =
      some LSet.empty := by
  by_cases hm : f0 ∈ fields
  · exact c6_foldSet_mem f0 fields l hm
  · rw [c6_foldSet_notmem f0 fields l hm]; exact h

/-- The `requiredMatches` of the required-clause intersection fold is a
fold on the association list alone. -/
theorem c6_reqFold_req {μ : Type} (cm : LSet) (fields : List String) :
    ∀ (st : QState μ),
      (fields.foldl
        (fun st2 field =>
          { st2 with
              requiredMatches :=
                assocSet field
                  (((assocGet st2.requiredMatches field).getD LSet.empty).intersect cm)
                  st2.requiredMatches })
        st).requiredMatches =
      fields.foldl
        (fun l field =>
          assocSet field (((assocGet l field).getD LSet.empty).intersect cm) l)
        st.requiredMatches := by
  induction fields with
  | nil => intro st; rfl
  | cons g fields ih => intro st; exact ih _

/-- The required-clause intersection fold keeps an empty entry empty. -/
theorem c6_reqFold_pres (f0 : String) (cm : LSet) (fields : List String) :
    ∀ (l : List (String × LSet)), assocGet l f0 = some LSet.empty →
      assocGet
        (fields.foldl
          (fun l field =>
            assocSet field (((assocGet l field).getD LSet.empty).intersect cm) l)
          l) f0 = some LSet.empty := by
  induction fields with
  | nil => intro l h; exact h
  | cons g fields ih =>
    intro l h
    rw [List.foldl_cons]
    by_cases hg : g = f0
    · subst hg
      have hv : ((assocGet l g).getD LSet.empty).intersect cm = LSet.empty := by
        rw [h]
        exact lset_empty_intersect cm
      rw [hv]
      exact ih _ (assocGet_assocSet_self l g LSet.empty)
    · refine ih _ ?_
      rw [assocGet_assocSet_ne _ _ _ _ hg]
      exact h

/-- `processField` preserves an empty required-match entry. -/
theorem c6_processField_req {μ : Type} (f0 : String) (c : Clause)
    (expandedTerm : Str) (posting : Posting μ) (acc : QState μ × LSet)
    (field : String)
    (h : assocGet acc.1.requiredMatches f0 = some LSet.empty) :
    assocGet (processField c expandedTerm posting acc field).1.requiredMatches f0 =
      some LSet.empty := by
  unfold processField
  dsimp only
  set st1 := if c.presence = Presence.required ∧
      (assocGet acc.1.requiredMatches field).isNone then
    { acc.1 with requiredMatches := assocSet field LSet.complete acc.1.requiredMatches }
  else acc.1 with hst1
  have hP1 : assocGet st1.requiredMatches f0 = some LSet.empty := by
    rw [hst1]
    split
    · rename_i hcond
      have hne : field ≠ f0 := by
        rintro rfl
        rw [h] at hcond
        exact absurd hcond.2 (by simp)
      dsimp only
      rw [assocGet_assocSet_ne _ _ _ _ hne]
      exact h
    · exact h
  split
  · exact hP1
  · split
    · exact hP1
    · refine foldl_invariant
        (fun st2 : QState μ => assocGet st2.requiredMatches f0 = some LSet.empty)
        _ ?_ _ _ ?_
      · intro b a hb
        dsimp only
        split <;> exact hb
      · exact hP1

/-- `processExpandedTerm` preserves an empty required-match entry. -/
theorem c6_processExpandedTerm_req {μ : Type} (f0 : String) (idx : QIndex μ)
    (c : Clause) (acc : QState μ × LSet) (e : Str)
    (h : assocGet acc.1.requiredMatches f0 = some LSet.empty) :
    assocGet (processExpandedTerm idx c acc e).1.requiredMatches f0 =
      some LSet.empty := by
  unfold processExpandedTerm
  exact foldl_invariant
    (fun b : QState μ × LSet => assocGet b.1.requiredMatches f0 = some LSet.empty)
    _ (fun b a hb => c6_processField_req f0 c e _ b a hb) c.fields acc h

/-- `processTerms` preserves an empty required-match entry whenever it
succeeds. -/
theorem c6_processTerms_pres {μ : Type} (f0 : String) (fuel : Nat)
    (idx : QIndex μ) (c : Clause) :
    ∀ (terms : List QTerm) (st : QState μ) (cm : LSet) (st' : QState μ)
      (cm' : LSet),
      processTerms fuel idx c terms st cm = .ok (st', cm') →
      assocGet st.requiredMatches f0 = some LSet.empty →
      assocGet st'.requiredMatches f0 = some LSet.empty := by
  intro terms
  induction terms with
  | nil =>
    intro st cm st' cm' hp h
    simp only [processTerms, Except.ok.injEq, Prod.mk.injEq] at hp
    rw [← hp.1]
    exact h
  | cons u rest ih =>
    intro st cm st' cm' hp h
    cases hexp : expandTerm fuel idx c u with
    | error e =>
      simp only [processTerms, hexp, exc_bind_error] at hp
      exact Except.noConfusion hp
    | ok es =>
      simp only [processTerms, hexp, exc_bind_ok] at hp
      by_cases h2 : es.length = 0 ∧ c.presence = Presence.required
      · rw [if_pos h2] at hp
        simp only [Except.ok.injEq, Prod.mk.injEq] at hp
        rw [← hp.1, c6_breakFold_req]
        exact c6_foldSet_pres f0 c.fields st.requiredMatches h
      · rw [if_neg h2] at hp
        refine ih _ _ _ _ hp ?_
        exact foldl_invariant
          (fun b : QState μ × LSet =>
            assocGet b.1.requiredMatches f0 = some LSet.empty)
          _ (fun b a hb => c6_processExpandedTerm_req f0 idx c b a hb) es (st, cm) h

/-- When one of the terms expands to the empty list and the clause is
required, a successful `processTerms` leaves every clause field's
required-match entry empty. -/
theorem c6_processTerms_estab {μ : Type} (f0 : String) (fuel : Nat)
    (idx : QIndex μ) (c : Clause) (t : QTerm)
    (hexp0 : expandTerm fuel idx c t = .ok [])
    (hpres : c.presence = Presence.required) (hf : f0 ∈ c.fields) :
    ∀ (terms : List QTerm) (st : QState μ) (cm : LSet) (st' : QState μ)
      (cm' : LSet),
      t ∈ terms →
      processTerms fuel idx c terms st cm = .ok (st', cm') →
      assocGet st'.requiredMatches f0 = some LSet.empty := by
  intro terms
  induction terms with
  | nil => intro st cm st' cm' hm _; exact absurd hm (List.not_mem_nil t)
  | cons u rest ih =>
    intro st cm st' cm' hm hp
    cases hexp : expandTerm fuel idx c u with
    | error e =>
      simp only [processTerms, hexp, exc_bind_error] at hp
      exact Except.noConfusion hp
    | ok es =>
      simp only [processTerms, hexp, exc_bind_ok] at hp
      by_cases h2 : es.length = 0 ∧ c.presence = Presence.required
      · rw [if_pos h2] at hp
        simp only [Except.ok.injEq, Prod.mk.injEq] at hp
        rw [← hp.1, c6_breakFold_req]
        exact c6_foldSet_mem f0 c.fields st.requiredMatches hf
      · rw [if_neg h2] at hp
        rcases List.mem_cons.mp hm with h3 | h3
        · exfalso
          rw [← h3, hexp0] at hexp
          have hes : es = [] := (Except.ok.injEq _ _).mp hexp.symm
          exact h2 ⟨by rw [hes]; rfl, hpres⟩
        · exact ih _ _ _ _ h3 hp

/-- `processClause` preserves an empty required-match entry whenever it
succeeds. -/
theorem c6_processClause_pres {μ : Type} (f0 : String) (fuel : Nat)
    (idx : QIndex μ) (c : Clause) (st st' : QState μ)
    (hp : processClause fuel idx st c = .ok st')
    (h : assocGet st.requiredMatches f0 = some LSet.empty) :
    assocGet st'.requiredMatches f0 = some LSet.empty := by
  unfold processClause at hp
  dsimp only at hp
  cases hpt : processTerms fuel idx c (effectiveTerms idx c) st LSet.empty with
  | error e =>
    rw [hpt] at hp
    exact Except.noConfusion ((exc_bind_error e _) ▸ hp)
  | ok acc =>
    rw [hpt, exc_bind_ok] at hp
    have hP : assocGet acc.1.requiredMatches f0 = some LSet.empty :=
      c6_processTerms_pres f0 fuel idx c _ st LSet.empty acc.1 acc.2 hpt h
    by_cases hr : c.presence = Presence.required
    · rw [if_pos hr] at hp
      have := (Except.ok.injEq _ _).mp hp
      rw [← this, c6_reqFold_req]
      exact c6_reqFold_pres f0 acc.2 c.fields acc.1.requiredMatches hP
    · rw [if_neg hr] at hp
      have := (Except.ok.injEq _ _).mp hp
      rw [← this]
      exact hP

/-- A required clause with an empty term expansion leaves every clause
field's required-match entry empty after a successful `processClause`. -/
theorem c6_processClause_estab {μ : Type} (f0 : String) (fuel : Nat)
    (idx : QIndex μ) (c : Clause) (t : QTerm) (st st' : QState μ)
    (ht : t ∈ effectiveTerms idx c) (hexp0 : expandTerm fuel idx c t = .ok [])
    (hpres : c.presence = Presence.required) (hf : f0 ∈ c.fields)
    (hp : processClause fuel idx st c = .ok st') :
    assocGet st'.requiredMatches f0 = some LSet.empty := by
  unfold processClause at hp
  dsimp only at hp
  cases hpt : processTerms fuel idx c (effectiveTerms idx c) st LSet.empty with
  | error e =>
    rw [hpt] at hp
    exact Except.noConfusion ((exc_bind_error e _) ▸ hp)
  | ok acc =>
    rw [hpt, exc_bind_ok] at hp
    have hP : assocGet acc.1.requiredMatches f0 = some LSet.empty :=
      c6_processTerms_estab f0 fuel idx c t hexp0 hpres hf _ st LSet.empty
        acc.1 acc.2 ht hpt
    rw [if_pos hpres] at hp
    have := (Except.ok.injEq _ _).mp hp
    rw [← this, c6_reqFold_req]
    exact c6_reqFold_pres f0 acc.2 c.fields acc.1.requiredMatches hP

/-- `clauseLoop` preserves an empty required-match entry whenever it
succeeds. -/
theorem c6_clauseLoop_pres {μ : Type} (f0 : String) (fuel : Nat)
    (idx : QIndex μ) :
    ∀ (clauses : List Clause) (st st' : QState μ),
      clauseLoop fuel idx st clauses = .ok st' →
      assocGet st.requiredMatches f0 = some LSet.empty →
      assocGet st'.requiredMatches f0 = some LSet.empty := by
  intro clauses
  induction clauses with
  | nil =>
    intro st st' hp h
    simp only [clauseLoop, Except.ok.injEq] at hp
    rw [← hp]
    exact h
  | cons c rest ih =>
    intro st st' hp h
    cases hpc : processClause fuel idx st c with
    | error e =>
      simp only [clauseLoop, hpc, exc_bind_error] at hp
      exact Except.noConfusion hp
    | ok st1 =>
      simp only [clauseLoop, hpc, exc_bind_ok] at hp
      exact ih st1 st' hp (c6_processClause_pres f0 fuel idx c st st1 hpc h)

/-- `clauseLoop` over a concatenation is the bind of the two halves. -/
theorem c6_clauseLoop_append {μ : Type} (fuel : Nat) (idx : QIndex μ) :
    ∀ (l1 l2 : List Clause) (st : QState μ),
      clauseLoop fuel idx st (l1 ++ l2) =
        (do let st1 ← clauseLoop fuel idx st l1
            clauseLoop fuel idx st1 l2) := by
  intro l1
  induction l1 with
  | nil => intro l2 st; rfl
  | cons c l1 ih =>
    intro l2 st
    cases hpc : processClause fuel idx st c with
    | error e =>
      simp only [List.cons_append, clauseLoop, hpc, exc_bind_error]
    | ok st1 =>
      simp only [List.cons_append, clauseLoop, hpc, exc_bind_ok]
      exact ih l2 st1

/-- The combined required set is constantly empty once it reaches the
empty set. -/
theorem c6_allRequired_stays {μ : Type} (st : QState μ) :
    ∀ (fields : List String),
      fields.foldl
        (fun acc f => match assocGet st.requiredMatches f with
          | some s => acc.intersect s
          | none => acc) LSet.empty = LSet.empty := by
  intro fields
  induction fields with
  | nil => rfl
  | cons g fields ih =>
    rw [List.foldl_cons]
    cases hg : assocGet st.requiredMatches g with
    | none => simpa only [hg] using ih
    | some s =>
      simp only [hg]
      rw [lset_empty_intersect]
      exact ih

/-- The combined required set collapses to empty if some inspected field
has the empty required-match entry. -/
theorem c6_allRequired_mem {μ : Type} (st : QState μ) (f0 : String)
    (h : assocGet st.requiredMatches f0 = some LSet.empty) :
    ∀ (fields : List String) (acc : LSet), f0 ∈ fields →
      fields.foldl
        (fun acc f => match assocGet st.requiredMatches f with
          | some s => acc.intersect s
          | none => acc) acc = LSet.empty := by
  intro fields
  induction fields with
  | nil => intro acc hm; exact absurd hm (List.not_mem_nil f0)
  | cons g fields ih =>
    intro acc hm
    by_cases hgm : f0 ∈ fields
    · rw [List.foldl_cons]; exact ih _ hgm
    · have hg : g = f0 := by
        rcases List.mem_cons.mp hm with h1 | h2
        · exact h1.symm
        · exact absurd h2 hgm
      rw [List.foldl_cons, hg, h]
      cases acc <;> exact c6_allRequired_stays st fields

/-- `allRequired` is the empty set when some index field has the empty
required-match entry. -/
theorem c6_allRequired_empty {μ : Type} (idx : QIndex μ) (st : QState μ)
    (f0 : String) (hfi : f0 ∈ idx.fields)
    (h : assocGet st.requiredMatches f0 = some LSet.empty) :
    allRequired idx st = LSet.empty :=
  c6_allRequired_mem st f0 h idx.fields LSet.complete hfi

/-- With an empty combined required set, the scoring loop produces no
results. -/
theorem c6_resultsLoop_empty {μ : Type} (sqrtFn : ℚ → ℚ) (idx : QIndex μ)
    (st : QState μ) (proh : LSet) (refs : List (String × String)) :
    resultsLoop sqrtFn idx st LSet.empty proh refs = [] := by
  unfold resultsLoop
  have main : ∀ (refs : List (String × String)) (acc : List (QResult μ)),
      refs.foldl
        (fun results fr =>
          if !(LSet.empty.contains fr.2) then results
          else if proh.contains fr.2 then results
          else
            let fieldVector := (assocGet idx.fieldVectors fr).getD []
            let score := vecSimilarity sqrtFn
              ((assocGet st.queryVectors fr.1).getD []) fieldVector
            addOrCombine results fr.2 score
              ((assocGet st.matchingFields fr).getD [])) acc = acc := by
    intro refs
    induction refs with
    | nil => intro acc; rfl
    | cons r rest ih => intro acc; rw [List.foldl_cons]; exact ih acc
  exact main refs []

/-- Claim C6 (amended): if some clause with `REQUIRED` presence has an
effective term whose expansion against the vocabulary is empty, then
(provided the clause has a field known to the index and the query
succeeds) the required-match sets of the clause's fields are emptied and
the query result is the empty list.  The remaining clauses are still
processed — the source `break` only leaves the terms loop — which is why
the conclusion speaks about the result and not about the loop stopping. -/
theorem C6_required_empty_expansion (μ : Type) (fuel : Nat) (sqrtFn : ℚ → ℚ)
    (idx : QIndex μ) (clauses : List Clause) (c : Clause) (t : QTerm)
    (f0 : String) (res : List (QResult μ))
    (hc : c ∈ clauses) (hpres : c.presence = Presence.required)
    (ht : t ∈ effectiveTerms idx c) (hexp : expandTerm fuel idx c t = .ok [])
    (hf : f0 ∈ c.fields) (hfi : f0 ∈ idx.fields)
    (hq : Index.query μ fuel sqrtFn idx clauses = .ok res) :
    res = [] := by
  obtain ⟨pre, post, rfl⟩ := List.append_of_mem hc
  unfold Index.query at hq
  cases hraw : Index.queryRaw μ fuel sqrtFn idx (pre ++ c :: post) with
  | error e =>
    rw [hraw] at hq
    exact Except.noConfusion hq
  | ok raw =>
    rw [hraw] at hq
    have hres : res = sortResults raw := by
      simpa only [Except.map, Except.ok.injEq] using hq.symm
    unfold Index.queryRaw at hraw
    rw [c6_clauseLoop_append] at hraw
    cases h1 : clauseLoop fuel idx (initState μ idx) pre with
    | error e =>
      rw [h1, exc_bind_error, exc_bind_error] at hraw
      exact Except.noConfusion hraw
    | ok st1 =>
      rw [h1, exc_bind_ok] at hraw
      cases h2 : processClause fuel idx st1 c with
      | error e =>
        simp only [clauseLoop, h2, exc_bind_error] at hraw
        exact Except.noConfusion hraw
      | ok st2 =>
        simp only [clauseLoop, h2, exc_bind_ok] at hraw
        cases h3 : clauseLoop fuel idx st2 post with
        | error e =>
          rw [h3, exc_bind_error] at hraw
          exact Except.noConfusion hraw
        | ok stF =>
          rw [h3, exc_bind_ok] at hraw
          have hP2 : assocGet st2.requiredMatches f0 = some LSet.empty :=
            c6_processClause_estab f0 fuel idx c t st1 st2 ht hexp hpres hf h2
          have hPF : assocGet stF.requiredMatches f0 = some LSet.empty :=
            c6_clauseLoop_pres f0 fuel idx post st2 stF h3 hP2
          have hAll : allRequired idx stF = LSet.empty :=
            c6_allRequired_empty idx stF f0 hfi hPF
          rw [hAll, c6_resultsLoop_empty] at hraw
          have : raw = [] :=
            ((Except.ok.injEq _ _).mp hraw).symm
          rw [hres, this]
          rfl

/-- Claim C6 (counterexample to the original wording): after a required
clause whose single term expands to nothing, the source `break` only
leaves the inner terms loop, so the following clause IS still processed —
its `(term, field)` pair lands in the term/field cache — even though the
query result is empty either way. -/
theorem C6_later_clauses_processed :
    c6Clause1.presence = Presence.required ∧
    effectiveTerms c6Idx c6Clause1 = [QTerm.str ['z']] ∧
    expandTerm 20 c6Idx c6Clause1 (QTerm.str ['z']) = .ok [] ∧
    Except.map (fun st => st.termFieldCache)
      (clauseLoop 20 c6Idx (initState Unit c6Idx) [c6Clause1]) = .ok [] ∧
    Except.map (fun st => st.termFieldCache)
      (clauseLoop 20 c6Idx (initState Unit c6Idx) [c6Clause1, c6Clause2]) =
      .ok [(['a'], "f")] ∧
    Index.query Unit 20 (fun q => q) c6Idx [c6Clause1, c6Clause2] = .ok [] :=
  ⟨rfl, rfl, rfl, rfl, rfl, rfl⟩

/-- Claim C6 (witness): the amended theorem applied to the concrete
two-clause query. -/
theorem C6_required_empty_witness :
    expandTerm 20 c6Idx c6Clause1 (QTerm.str ['z']) = .ok [] ∧
    Index.query Unit 20 (fun q => q) c6Idx [c6Clause1, c6Clause2] = .ok [] ∧
    ([] : List (QResult Unit)) = [] :=
  ⟨rfl, rfl,
    C6_required_empty_expansion Unit 20 (fun q => q) c6Idx
      [c6Clause1, c6Clause2] c6Clause1 (QTerm.str ['z']) "f" []
      (List.Mem.head _) rfl (List.Mem.head _) rfl
      (List.Mem.head _) (List.Mem.head _) rfl⟩

/-! ### Claim C7: queries with only prohibited clauses -/

/-- Deduplication preserves key membership relative to the seen set. -/
theorem c7_dedup_aux (x : String) :
    ∀ (l seen : List String),
      (dedupKeysAux seen l).contains x = (l.contains x && !seen.contains x) := by
  intro l
  induction l with
  | nil => intro seen; simp [dedupKeysAux]
  | cons a l ih =>
    intro seen
    unfold dedupKeysAux
    by_cases hs : seen.contains a
    · rw [if_pos hs, ih seen, List.contains_cons]
      by_cases hax : x = a
      · rw [hax, hs]; simp
      · have hxa : (x == a) = false := by simp [hax]
        rw [hxa]; simp
    · rw [if_neg hs, List.contains_cons, List.contains_cons, ih (a :: seen),
        List.contains_cons]
      by_cases hax : x = a
      · have hxa : (x == a) = true := by simp [hax]
        have hsx : seen.contains x = false := by
          rw [hax]; simpa using hs
        rw [hxa, hsx]; simp
      · have hxa : (x == a) = false := by simp [hax]
        rw [hxa]; simp

/-- `mkSet` of a concrete list contains exactly the list elements. -/
theorem c7_mkSet_contains (l : List String) (x : String) :
    (mkSet (some l)).contains x = l.contains x := by
  cases l with
  | nil => rfl
  | cons a l =>
    show (dedupKeysAux [] (a :: l)).contains x = (a :: l).contains x
    rw [c7_dedup_aux x (a :: l) []]
    simp

/-- Membership in a union is disjunction of memberships. -/
theorem c7_union_contains (a b : LSet) (x : String) :
    (a.union b).contains x = (a.contains x || b.contains x) := by
  cases a with
  | complete => rfl
  | empty => rfl
  | finite els len =>
    cases b with
    | complete => simp [LSet.union, LSet.contains]
    | empty => simp [LSet.union, LSet.contains]
    | finite els2 len2 =>
      show (mkSet (some (els ++ els2))).contains x = _
      rw [c7_mkSet_contains]
      show (els ++ els2).contains x = (els.contains x || els2.contains x)
      induction els with
      | nil => simp
      | cons e els ihe =>
        rw [List.cons_append, List.contains_cons, List.contains_cons, ihe,
          Bool.or_assoc]

/-- `allProhibited` membership equals the any-fold `apContains`. -/
theorem c7_allProhibited_contains {μ : Type} (idx : QIndex μ) (st : QState μ)
    (d : String) :
    (allProhibited idx st).contains d = apContains idx st d := by
  unfold allProhibited apContains
  have main : ∀ (fields : List String) (acc : LSet),
      (fields.foldl
        (fun acc f => match assocGet st.prohibitedMatches f with
          | some s => acc.union s
          | none => acc) acc).contains d =
      (acc.contains d ||
        fields.any fun f =>
          ((assocGet st.prohibitedMatches f).getD LSet.empty).contains d) := by
    intro fields
    induction fields with
    | nil => intro acc; simp
    | cons g fields ih =>
      intro acc
      rw [List.foldl_cons, List.any_cons]
      cases hg : assocGet st.prohibitedMatches g with
      | none =>
        simp only [hg, ih]
        show _ = (acc.contains d || (LSet.empty.contains d || _))
        simp [LSet.contains]
      | some s =>
        simp only [hg, ih, c7_union_contains, Option.getD, Bool.or_assoc]
  rw [main idx.fields LSet.empty]
  simp [LSet.contains]

/-- With no required matches recorded, the combined required set is the
complete set. -/
theorem c7_allRequired_complete {μ : Type} (idx : QIndex μ) (st : QState μ)
    (h : st.requiredMatches = []) : allRequired idx st = LSet.complete := by
  unfold allRequired
  have main : ∀ (fields : List String) (acc : LSet),
      fields.foldl
        (fun acc f => match assocGet st.requiredMatches f with
          | some s => acc.intersect s
          | none => acc) acc = acc := by
    intro fields
    induction fields with
    | nil => intro acc; rfl
    | cons g fields ih =>
      intro acc
      rw [List.foldl_cons]
      have : assocGet st.requiredMatches g = none := by rw [h]; rfl
      simp only [this]
      exact ih acc
  exact main idx.fields LSet.complete

/-- Looking up any field in the eagerly created empty query vectors gives
the empty vector. -/
theorem c7_qv_empty (fs : List String) (g : String) :
    (assocGet (fs.map fun f => (f, ([] : Vec))) g).getD [] = [] := by
  induction fs with
  | nil => rfl
  | cons a fs ih =>
    show (if a = g then some [] else assocGet _ g).getD [] = []
    by_cases hg : a = g
    · rw [if_pos hg]; rfl
    · rw [if_neg hg]; exact ih

/-- Similarity against an empty query vector is zero. -/
theorem c7_simil_empty (sqrtFn : ℚ → ℚ) (v : Vec) :
    vecSimilarity sqrtFn [] v = 0 := by
  unfold vecSimilarity
  rw [show vecDot [] v = 0 from rfl]
  exact zero_div _

/-- Under `PROHIBITED` presence, `processField` only extends the field's
prohibited-match entry. -/
theorem c7_processField_proh {μ : Type} (c : Clause) (e : Str)
    (p : Posting μ) (acc : QState μ × LSet) (field : String)
    (hpres : c.presence = Presence.prohibited) :
    processField c e p acc field =
      ({ acc.1 with
          prohibitedMatches :=
            assocSet field
              (((assocGet acc.1.prohibitedMatches field).getD LSet.empty).union
                (mkSet (some (((assocGet p.fieldMap field).getD []).map Prod.fst))))
              acc.1.prohibitedMatches }, acc.2) := by
  unfold processField
  rw [hpres]
  rfl

/-- An any-fold over a pointwise or-extension splits off the extension. -/
theorem c7_any_pointwise (l : List String) (g g' : String → Bool) (x : String)
    (r : Bool) (h : ∀ f, g' f = (g f || ((f == x) && r))) :
    l.any g' = (l.any g || (l.contains x && r)) := by
  induction l with
  | nil => simp
  | cons a l ih =>
    rw [List.any_cons, List.any_cons, h a, ih, List.contains_cons]
    by_cases hax : a = x
    · have h1 : (a == x) = true := by simp [hax]
      have h2 : (x == a) = true := by simp [hax]
      rw [h1, h2]
      cases r <;> cases g a <;> cases l.any g <;> cases l.contains x <;> simp
    · have h1 : (a == x) = false := by simp [hax]
      have h2 : (x == a) = false := by simp [Ne.symm hax]
      rw [h1, h2]
      cases r <;> cases g a <;> cases l.any g <;> cases l.contains x <;> simp

/-- Pointwise effect of extending one prohibited-match entry by a union. -/
theorem c7_assocSet_union_pointwise (pm : List (String × LSet)) (field : String)
    (refs : List String) (d : String) (f : String) :
    ((assocGet
        (assocSet field
          (((assocGet pm field).getD LSet.empty).union (mkSet (some refs))) pm)
        f).getD LSet.empty).contains d =
      (((assocGet pm f).getD LSet.empty).contains d ||
        ((f == field) && refs.contains d)) := by
  by_cases hf : f = field
  · rw [hf, assocGet_assocSet_self]
    show (((assocGet pm field).getD LSet.empty).union (mkSet (some refs))).contains d = _
    rw [c7_union_contains, c7_mkSet_contains]
    have hb : (field == field) = true := by simp
    rw [hb]
    simp
  · rw [assocGet_assocSet_ne _ _ _ _ (fun he => hf he.symm)]
    have hb : (f == field) = false := by simp [hf]
    rw [hb]
    simp

/-- `processField` of a prohibited clause: effect on the combined
prohibited membership. -/
theorem c7_processField_ap {μ : Type} (idx : QIndex μ) (c : Clause) (e : Str)
    (p : Posting μ) (acc : QState μ × LSet) (field : String) (d : String)
    (hpres : c.presence = Presence.prohibited) :
    apContains idx (processField c e p acc field).1 d =
      (apContains idx acc.1 d ||
        (idx.fields.contains field &&
          (((assocGet p.fieldMap field).getD []).map Prod.fst).contains d)) := by
  rw [c7_processField_proh c e p acc field hpres]
  unfold apContains
  exact c7_any_pointwise idx.fields _ _ field _
    (fun f => c7_assocSet_union_pointwise acc.1.prohibitedMatches field
      (((assocGet p.fieldMap field).getD []).map Prod.fst) d f)

/-- Folding a prohibited clause's `processField` over the clause fields:
all other state is untouched and the prohibited membership accumulates. -/
theorem c7_fieldsFold_proh {μ : Type} (idx : QIndex μ) (c : Clause) (e : Str)
    (p : Posting μ) (hpres : c.presence = Presence.prohibited) :
    ∀ (fields : List String) (acc : QState μ × LSet),
      (fields.foldl (processField c e p) acc).2 = acc.2 ∧
      (fields.foldl (processField c e p) acc).1.matchingFields =
        acc.1.matchingFields ∧
      (fields.foldl (processField c e p) acc).1.queryVectors =
        acc.1.queryVectors ∧
      (fields.foldl (processField c e p) acc).1.termFieldCache =
        acc.1.termFieldCache ∧
      (fields.foldl (processField c e p) acc).1.requiredMatches =
        acc.1.requiredMatches ∧
      ∀ d, apContains idx (fields.foldl (processField c e p) acc).1 d =
        (apContains idx acc.1 d ||
          fields.any fun f =>
            idx.fields.contains f &&
            (((assocGet p.fieldMap f).getD []).map Prod.fst).contains d) := by
  intro fields
  induction fields with
  | nil =>
    intro acc
    exact ⟨rfl, rfl, rfl, rfl, rfl, fun d => by simp⟩
  | cons g fields ih =>
    intro acc
    simp only [List.foldl_cons, List.any_cons]
    obtain ⟨h2, hmf, hqv, htc, hrm, hap⟩ := ih (processField c e p acc g)
    refine ⟨?_, ?_, ?_, ?_, ?_, fun d => ?_⟩
    · rw [h2, c7_processField_proh c e p acc g hpres]
    · rw [hmf, c7_processField_proh c e p acc g hpres]
    · rw [hqv, c7_processField_proh c e p acc g hpres]
    · rw [htc, c7_processField_proh c e p acc g hpres]
    · rw [hrm, c7_processField_proh c e p acc g hpres]
    · rw [hap d, c7_processField_ap idx c e p acc g d hpres, Bool.or_assoc]

/-- Folding a prohibited clause's `processExpandedTerm` over the expanded
terms. -/
theorem c7_termsFold_proh {μ : Type} (idx : QIndex μ) (c : Clause)
    (hpres : c.presence = Presence.prohibited) :
    ∀ (es : List Str) (acc : QState μ × LSet),
      (es.foldl (processExpandedTerm idx c) acc).2 = acc.2 ∧
      (es.foldl (processExpandedTerm idx c) acc).1.matchingFields =
        acc.1.matchingFields ∧
      (es.foldl (processExpandedTerm idx c) acc).1.queryVectors =
        acc.1.queryVectors ∧
      (es.foldl (processExpandedTerm idx c) acc).1.termFieldCache =
        acc.1.termFieldCache ∧
      (es.foldl (processExpandedTerm idx c) acc).1.requiredMatches =
        acc.1.requiredMatches ∧
      ∀ d, apContains idx (es.foldl (processExpandedTerm idx c) acc).1 d =
        (apContains idx acc.1 d ||
          es.any fun e =>
            c.fields.any fun f =>
              idx.fields.contains f &&
              (((assocGet
                  ((assocGet idx.invertedIndex e).getD ⟨0, []⟩).fieldMap
                  f).getD []).map Prod.fst).contains d) := by
  intro es
  induction es with
  | nil =>
    intro acc
    exact ⟨rfl, rfl, rfl, rfl, rfl, fun d => by simp⟩
  | cons e es ih =>
    intro acc
    simp only [List.foldl_cons, List.any_cons]
    obtain ⟨h2, hmf, hqv, htc, hrm, hap⟩ := ih (processExpandedTerm idx c acc e)
    obtain ⟨g2, gmf, gqv, gtc, grm, gap⟩ :=
      c7_fieldsFold_proh idx c e ((assocGet idx.invertedIndex e).getD ⟨0, []⟩)
        hpres c.fields acc
    refine ⟨?_, ?_, ?_, ?_, ?_, fun d => ?_⟩
    · rw [h2]; exact g2
    · rw [hmf]; exact gmf
    · rw [hqv]; exact gqv
    · rw [htc]; exact gtc
    · rw [hrm]; exact grm
    · rw [hap d]
      rw [show apContains idx (processExpandedTerm idx c acc e).1 d =
        (apContains idx acc.1 d ||
          c.fields.any fun f =>
            idx.fields.contains f &&
            (((assocGet
                ((assocGet idx.invertedIndex e).getD ⟨0, []⟩).fieldMap
                f).getD []).map Prod.fst).contains d) from gap d]
      rw [Bool.or_assoc]

/-- A successful `processTerms` of a prohibited clause: only the
prohibited matches change, and their membership accumulates the documents
matching the expanded terms. -/
theorem c7_processTerms_proh {μ : Type} (idx : QIndex μ) (c : Clause)
    (fuel : Nat) (hpres : c.presence = Presence.prohibited) :
    ∀ (terms : List QTerm) (st : QState μ) (cm : LSet) (st' : QState μ)
      (cm' : LSet),
      processTerms fuel idx c terms st cm = .ok (st', cm') →
      st'.matchingFields = st.matchingFields ∧
      st'.queryVectors = st.queryVectors ∧
      st'.termFieldCache = st.termFieldCache ∧
      st'.requiredMatches = st.requiredMatches ∧
      ∀ d, apContains idx st' d =
        (apContains idx st d ||
          terms.any fun t =>
            match expandTerm fuel idx c t with
            | .error _ => false
            | .ok ts =>
              ts.any fun e =>
                c.fields.any fun f =>
                  idx.fields.contains f &&
                  (((assocGet
                      ((assocGet idx.invertedIndex e).getD ⟨0, []⟩).fieldMap
                      f).getD []).map Prod.fst).contains d) := by
  intro terms
  induction terms with
  | nil =>
    intro st cm st' cm' hp
    simp only [processTerms, Except.ok.injEq, Prod.mk.injEq] at hp
    rw [← hp.1]
    exact ⟨rfl, rfl, rfl, rfl, fun d => by simp⟩
  | cons u rest ih =>
    intro st cm st' cm' hp
    cases hexp : expandTerm fuel idx c u with
    | error e =>
      simp only [processTerms, hexp, exc_bind_error] at hp
      exact Except.noConfusion hp
    | ok es =>
      simp only [processTerms, hexp, exc_bind_ok] at hp
      rw [if_neg (fun hcc => Presence.noConfusion (hpres ▸ hcc.2))] at hp
      obtain ⟨hmf, hqv, htc, hrm, hap⟩ := ih _ _ _ _ hp
      obtain ⟨_, gmf, gqv, gtc, grm, gap⟩ := c7_termsFold_proh idx c hpres es (st, cm)
      refine ⟨hmf.trans gmf, hqv.trans gqv, htc.trans gtc, hrm.trans grm,
        fun d => ?_⟩
      rw [hap d, gap d, List.any_cons]
      simp only [hexp]
      rw [Bool.or_assoc]

/-- A successful `processClause` of a prohibited clause. -/
theorem c7_processClause_proh {μ : Type} (idx : QIndex μ) (fuel : Nat)
    (c : Clause) (st st' : QState μ)
    (hpres : c.presence = Presence.prohibited)
    (hp : processClause fuel idx st c = .ok st') :
    st'.matchingFields = st.matchingFields ∧
    st'.queryVectors = st.queryVectors ∧
    st'.termFieldCache = st.termFieldCache ∧
    st'.requiredMatches = st.requiredMatches ∧
    ∀ d, apContains idx st' d =
      (apContains idx st d || clauseProhibits fuel idx c d) := by
  unfold processClause at hp
  dsimp only at hp
  cases hpt : processTerms fuel idx c (effectiveTerms idx c) st LSet.empty with
  | error e =>
    rw [hpt] at hp
    exact Except.noConfusion ((exc_bind_error e _) ▸ hp)
  | ok acc =>
    rw [hpt, exc_bind_ok] at hp
    rw [if_neg (fun hr => Presence.noConfusion (hpres ▸ hr))] at hp
    have hst : st' = acc.1 := ((Except.ok.injEq _ _).mp hp).symm
    subst hst
    exact c7_processTerms_proh idx c fuel hpres (effectiveTerms idx c) st
      LSet.empty acc.1 acc.2 hpt

/-- A successful `clauseLoop` of an all-prohibited query. -/
theorem c7_clauseLoop_proh {μ : Type} (idx : QIndex μ) (fuel : Nat) :
    ∀ (clauses : List Clause) (st st' : QState μ),
      isNegated clauses = true →
      clauseLoop fuel idx st clauses = .ok st' →
      st'.matchingFields = st.matchingFields ∧
      st'.queryVectors = st.queryVectors ∧
      st'.termFieldCache = st.termFieldCache ∧
      st'.requiredMatches = st.requiredMatches ∧
      ∀ d, apContains idx st' d =
        (apContains idx st d || prohibitedDocRef fuel idx clauses d) := by
  intro clauses
  induction clauses with
  | nil =>
    intro st st' _ hp
    simp only [clauseLoop, Except.ok.injEq] at hp
    rw [← hp]
    exact ⟨rfl, rfl, rfl, rfl, fun d => by simp [prohibitedDocRef]⟩
  | cons c rest ih =>
    intro st st' hneg hp
    have hneg' := hneg
    unfold isNegated at hneg'
    rw [List.all_cons, Bool.and_eq_true] at hneg'
    have hc : c.presence = Presence.prohibited := by
      simpa using hneg'.1
    have hrest : isNegated rest = true := hneg'.2
    cases hpc : processClause fuel idx st c with
    | error e =>
      simp only [clauseLoop, hpc, exc_bind_error] at hp
      exact Except.noConfusion hp
    | ok st1 =>
      simp only [clauseLoop, hpc, exc_bind_ok] at hp
      obtain ⟨m1, q1, t1, r1, a1⟩ := c7_processClause_proh idx fuel c st st1 hc hpc
      obtain ⟨m2, q2, t2, r2, a2⟩ := ih st1 st' hrest hp
      refine ⟨m2.trans m1, q2.trans q1, t2.trans t1, r2.trans r1, fun d => ?_⟩
      rw [a2 d, a1 d]
      show _ = (apContains idx st d ||
        (c :: rest).any fun c => clauseProhibits fuel idx c d)
      rw [List.any_cons, Bool.or_assoc]
      rfl

/-- Initially no prohibited matches are recorded. -/
theorem c7_ap_init {μ : Type} (idx : QIndex μ) (d : String) :
    apContains idx (initState μ idx) d = false := by
  unfold apContains
  have main : ∀ (fs : List String),
      fs.any (fun f =>
        ((assocGet (initState μ idx).prohibitedMatches f).getD
          LSet.empty).contains d) = false := by
    intro fs
    induction fs with
    | nil => rfl
    | cons a fs ih =>
      rw [List.any_cons, ih]
      show (((none : Option LSet).getD LSet.empty).contains d || false) = false
      rfl
  exact main idx.fields

/-- Membership survives the stable insertion sort. -/
theorem c7_mem_sortResults {μ : Type} :
    ∀ (l acc : List (QResult μ)) (r : QResult μ),
      r ∈ acc ∨ r ∈ l →
      r ∈ l.foldl (fun acc x => insertResultDesc x acc) acc := by
  intro l
  induction l with
  | nil =>
    intro acc r h
    exact h.resolve_right (List.not_mem_nil r)
  | cons x xs ih =>
    intro acc r h
    rw [List.foldl_cons]
    rcases h with h | h
    · exact ih _ r (Or.inl ((mem_insertResultDesc x r _).mpr (Or.inr h)))
    · rcases List.mem_cons.mp h with h | h
      · exact ih _ r (Or.inl ((mem_insertResultDesc x r _).mpr (Or.inl h)))
      · exact ih _ r (Or.inr h)

/-- `addOrCombine` with a zero score keeps an all-zero score list
all-zero. -/
theorem c7_addOrCombine_score0 {μ : Type} (results : List (QResult μ))
    (dref : String) (md : List (Str × String × μ))
    (h : ∀ r ∈ results, r.score = 0) :
    ∀ r ∈ addOrCombine results dref 0 md, r.score = 0 := by
  intro r hr
  unfold addOrCombine at hr
  split at hr
  · obtain ⟨r0, hr0, hfr⟩ := List.mem_map.mp hr
    rw [← hfr]
    by_cases he : r0.ref = dref
    · rw [if_pos he]
      show r0.score + 0 = 0
      rw [h r0 hr0, add_zero]
    · rw [if_neg he]
      exact h r0 hr0
  · rcases List.mem_append.mp hr with h1 | h1
    · exact h r h1
    · rw [List.mem_singleton.mp h1]

/-- `addOrCombine` preserves the presence of a document. -/
theorem c7_addOrCombine_mem {μ : Type} (results : List (QResult μ))
    (dref : String) (s : ℚ) (md : List (Str × String × μ)) (d : String)
    (h : ∃ r ∈ results, r.ref = d) :
    ∃ r ∈ addOrCombine results dref s md, r.ref = d := by
  obtain ⟨r0, hr0, href⟩ := h
  unfold addOrCombine
  split
  · refine ⟨_, List.mem_map_of_mem _ hr0, ?_⟩
    dsimp only
    by_cases he : r0.ref = dref
    · rw [if_pos he]
      exact href
    · rw [if_neg he]
      exact href
  · exact ⟨r0, List.mem_append_left _ hr0, href⟩

/-- `addOrCombine` records its document. -/
theorem c7_addOrCombine_mem_self {μ : Type} (results : List (QResult μ))
    (dref : String) (s : ℚ) (md : List (Str × String × μ)) :
    ∃ r ∈ addOrCombine results dref s md, r.ref = dref := by
  unfold addOrCombine
  split
  · rename_i hany
    obtain ⟨r0, hr0, hd0⟩ := List.any_eq_true.mp hany
    have hd0' : r0.ref = dref := of_decide_eq_true hd0
    refine ⟨_, List.mem_map_of_mem _ hr0, ?_⟩
    dsimp only
    rw [if_pos hd0']
    exact hd0'
  · exact ⟨⟨dref, s, md⟩,
      List.mem_append_right _ (List.mem_singleton_self _), rfl⟩

/-- Reduction of one scoring step when both gates pass. -/
theorem c7_resultsStep {μ : Type} (sqrtFn : ℚ → ℚ) (idx : QIndex μ)
    (st : QState μ) (allReq allProh : LSet) (acc : List (QResult μ))
    (fr : String × String)
    (h1 : allReq.contains fr.2 = true) (h2 : allProh.contains fr.2 = false) :
    (if !(allReq.contains fr.2) then acc
     else if allProh.contains fr.2 then acc
     else
       let fieldVector := (assocGet idx.fieldVectors fr).getD []
       let score := vecSimilarity sqrtFn
         ((assocGet st.queryVectors fr.1).getD []) fieldVector
       addOrCombine acc fr.2 score ((assocGet st.matchingFields fr).getD [])) =
    addOrCombine acc fr.2
      (vecSimilarity sqrtFn ((assocGet st.queryVectors fr.1).getD [])
        ((assocGet idx.fieldVectors fr).getD []))
      ((assocGet st.matchingFields fr).getD []) := by
  rw [h1, h2]
  rfl

/-- Every score produced by the scoring loop over empty query vectors is
zero. -/
theorem c7_resultsLoop_scores {μ : Type} (sqrtFn : ℚ → ℚ) (idx : QIndex μ)
    (st : QState μ) (allReq allProh : LSet)
    (hqv : ∀ g, (assocGet st.queryVectors g).getD [] = ([] : Vec)) :
    ∀ (refs : List (String × String)) (r : QResult μ),
      r ∈ resultsLoop sqrtFn idx st allReq allProh refs → r.score = 0 := by
  have main : ∀ (refs : List (String × String)) (acc : List (QResult μ)),
      (∀ r ∈ acc, r.score = 0) →
      ∀ r ∈ refs.foldl
        (fun results fr =>
          if !(allReq.contains fr.2) then results
          else if allProh.contains fr.2 then results
          else
            let fieldVector := (assocGet idx.fieldVectors fr).getD []
            let score := vecSimilarity sqrtFn
              ((assocGet st.queryVectors fr.1).getD []) fieldVector
            addOrCombine results fr.2 score
              ((assocGet st.matchingFields fr).getD [])) acc,
        r.score = 0 := by
    intro refs
    induction refs with
    | nil => intro acc h; exact h
    | cons fr refs ih =>
      intro acc h
      rw [List.foldl_cons]
      refine ih _ ?_
      dsimp only
      split
      · exact h
      · split
        · exact h
        · rw [hqv fr.1, c7_simil_empty]
          exact c7_addOrCombine_score0 acc fr.2 _ h
  intro refs r hr
  exact main refs [] (by simp) r hr

/-- Every document with a passing field ref lands in the scoring loop's
results. -/
theorem c7_resultsLoop_mem {μ : Type} (sqrtFn : ℚ → ℚ) (idx : QIndex μ)
    (st : QState μ) (allReq allProh : LSet) (d : String)
    (hreq : allReq.contains d = true) (hproh : allProh.contains d = false) :
    ∀ (refs : List (String × String)) (acc : List (QResult μ)),
      ((∃ f, (f, d) ∈ refs) ∨ ∃ r ∈ acc, r.ref = d) →
      ∃ r ∈ refs.foldl
        (fun results fr =>
          if !(allReq.contains fr.2) then results
          else if allProh.contains fr.2 then results
          else
            let fieldVector := (assocGet idx.fieldVectors fr).getD []
            let score := vecSimilarity sqrtFn
              ((assocGet st.queryVectors fr.1).getD []) fieldVector
            addOrCombine results fr.2 score
              ((assocGet st.matchingFields fr).getD [])) acc,
        r.ref = d := by
  intro refs
  induction refs with
  | nil =>
    intro acc h
    rcases h with ⟨f, hf⟩ | h
    · exact absurd hf (List.not_mem_nil _)
    · exact h
  | cons fr refs ih =>
    intro acc h
    rw [List.foldl_cons]
    rcases h with ⟨f, hf⟩ | h
    · rcases List.mem_cons.mp hf with heq | hmem
      · refine ih _ (Or.inr ?_)
        rw [← heq]
        dsimp only
        rw [c7_resultsStep sqrtFn idx st allReq allProh acc (f, d) hreq hproh]
        exact c7_addOrCombine_mem_self acc d _ _
      · exact ih _ (Or.inl ⟨f, hmem⟩)
    · refine ih _ (Or.inr ?_)
      dsimp only
      split
      · exact h
      · split
        · exact h
        · exact c7_addOrCombine_mem acc fr.2 _ _ d h

/-- Claim C7: for a built index and a query whose clauses all have
`PROHIBITED` presence, every document that has a field vector and does
not contain any expanded prohibited term in a searched index field
appears in the result list, with score exactly 0. -/
theorem C7_all_prohibited_score_zero (μ : Type) (fuel : Nat)
    (sqrtFn : ℚ → ℚ) (idx : QIndex μ) (clauses : List Clause)
    (res : List (QResult μ)) (f d : String)
    (hneg : isNegated clauses = true)
    (hd : (f, d) ∈ idx.fieldVectors.map Prod.fst)
    (hnp : prohibitedDocRef fuel idx clauses d = false)
    (hq : Index.query μ fuel sqrtFn idx clauses = .ok res) :
    ∃ r ∈ res, r.ref = d ∧ r.score = 0 := by
  unfold Index.query at hq
  cases hraw : Index.queryRaw μ fuel sqrtFn idx clauses with
  | error e => rw [hraw] at hq; exact Except.noConfusion hq
  | ok raw =>
    rw [hraw] at hq
    have hres : res = sortResults raw := by
      simpa only [Except.map, Except.ok.injEq] using hq.symm
    unfold Index.queryRaw at hraw
    cases hloop : clauseLoop fuel idx (initState μ idx) clauses with
    | error e =>
      rw [hloop] at hraw
      exact Except.noConfusion ((exc_bind_error e _) ▸ hraw)
    | ok stF =>
      rw [hloop, exc_bind_ok] at hraw
      obtain ⟨hm, hqv, htc, hrm, hap⟩ :=
        c7_clauseLoop_proh idx fuel clauses (initState μ idx) stF hneg hloop
      have hreqc : allRequired idx stF = LSet.complete :=
        c7_allRequired_complete idx stF (by rw [hrm]; rfl)
      have hprohd : (allProhibited idx stF).contains d = false := by
        rw [c7_allProhibited_contains, hap d, c7_ap_init, hnp]
        rfl
      rw [if_pos hneg] at hraw
      have hraweq : raw = resultsLoop sqrtFn idx
          { stF with
              matchingFields :=
                (idx.fieldVectors.map Prod.fst).foldl
                  (fun mf fr => assocSet fr [] mf) stF.matchingFields }
          (allRequired idx stF) (allProhibited idx stF)
          (idx.fieldVectors.map Prod.fst) :=
        ((Except.ok.injEq _ _).mp hraw).symm
      have hqvP : ∀ g,
          (assocGet
            ({ stF with
                matchingFields :=
                  (idx.fieldVectors.map Prod.fst).foldl
                    (fun mf fr => assocSet fr [] mf) stF.matchingFields } :
              QState μ).queryVectors g).getD [] = ([] : Vec) := by
        intro g
        show (assocGet stF.queryVectors g).getD [] = []
        rw [hqv]
        exact c7_qv_empty idx.fields g
      have hmem : ∃ r ∈ raw, r.ref = d := by
        rw [hraweq]
        unfold resultsLoop
        exact c7_resultsLoop_mem sqrtFn idx _ _ _ d (by rw [hreqc]; rfl) hprohd
          (idx.fieldVectors.map Prod.fst) [] (Or.inl ⟨f, hd⟩)
      obtain ⟨r, hrraw, hrref⟩ := hmem
      have hscore : r.score = 0 :=
        c7_resultsLoop_scores sqrtFn idx _ (allRequired idx stF)
          (allProhibited idx stF) hqvP (idx.fieldVectors.map Prod.fst) r
          (hraweq ▸ hrraw)
      refine ⟨r, ?_, hrref, hscore⟩
      rw [hres]
      exact c7_mem_sortResults raw [] r (Or.inr hrraw)

/-- Claim C7 (witness): the theorem applied to a concrete one-clause
prohibited query; document `"d2"` does not contain the prohibited term
`"a"` and is returned with score 0. -/
theorem C7_all_prohibited_witness :
    ∃ res, Index.query Unit 20 (fun q => q) c7Idx [c7Clause] = .ok res ∧
      ∃ r ∈ res, r.ref = "d2" ∧ r.score = 0 := by
  cases hq : Index.query Unit 20 (fun q => q) c7Idx [c7Clause] with
  | error e =>
    have hok : (Index.query Unit 20 (fun q => q) c7Idx [c7Clause]).isOk =
        true := rfl
    rw [hq] at hok
    exact Bool.noConfusion hok
  | ok res =>
    exact ⟨res, rfl,
      C7_all_prohibited_score_zero Unit 20 (fun q => q) c7Idx [c7Clause] res
        "f" "d2" rfl (by decide) rfl hq⟩

/-! ### Claim C4: arena infrastructure -/

/-- `bitsVal` decodes `natBitsF`. -/
theorem bitsVal_natBitsF :
    ∀ (fuel n : Nat), n ≤ fuel → bitsVal (natBitsF fuel n) = n := by
  intro fuel
  induction fuel with
  | zero =>
    intro n hn
    have : n = 0 := Nat.le_zero.mp hn
    rw [this]
    rfl
  | succ fuel ih =>
    intro n hn
    unfold natBitsF
    by_cases h0 : n = 0
    · rw [if_pos h0, h0]; rfl
    · rw [if_neg h0]
      unfold bitsVal
      rw [ih (n / 2) (by omega)]
      by_cases h2 : n % 2 = 1
      · simp [h2]
        omega
      · simp [h2]
        omega

/-- `natBits` is injective. -/
theorem natBits_inj {n m : Nat} (h : natBits n = natBits m) : n = m := by
  have h1 := bitsVal_natBitsF (n + 1) n (Nat.le_succ n)
  have h2 := bitsVal_natBitsF (m + 1) m (Nat.le_succ m)
  unfold natBits at h
  rw [← h1, ← h2, h]

/-- Reading back a `BTree` write at the same path. -/
theorem btree_get_set_self :
    ∀ (t : BTree) (p : List Bool) (nd : Node), (t.set p nd).get p = some nd := by
  intro t p
  induction p generalizing t with
  | nil => intro nd; cases t <;> rfl
  | cons b bs ih =>
    intro nd
    cases t with
    | nil =>
      show (BTree.set .nil (b :: bs) nd).get (b :: bs) = some nd
      unfold BTree.set
      cases b with
      | false => exact ih .nil nd
      | true => exact ih .nil nd
    | br v e o =>
      show (BTree.set (.br v e o) (b :: bs) nd).get (b :: bs) = some nd
      unfold BTree.set
      cases b with
      | false => exact ih e nd
      | true => exact ih o nd

/-- Reading a `BTree` write at a different path. -/
theorem btree_get_set_ne :
    ∀ (t : BTree) (p p' : List Bool) (nd : Node), p ≠ p' →
      (t.set p nd).get p' = t.get p' := by
  intro t p
  induction p generalizing t with
  | nil =>
    intro p' nd hne
    cases p' with
    | nil => exact absurd rfl hne
    | cons b' bs' => cases t <;> cases b' <;> simp [BTree.set, BTree.get]
  | cons b bs ih =>
    intro p' nd hne
    cases p' with
    | nil => cases t <;> cases b <;> simp [BTree.set, BTree.get]
    | cons b' bs' =>
      have hbs : b = b' → bs ≠ bs' := fun hb h => hne (by rw [hb, h])
      cases t with
      | nil =>
        cases b with
        | false =>
          cases b' with
          | false => simp [BTree.set, BTree.get, ih .nil bs' nd (hbs rfl)]
          | true => simp [BTree.set, BTree.get]
        | true =>
          cases b' with
          | false => simp [BTree.set, BTree.get]
          | true => simp [BTree.set, BTree.get, ih .nil bs' nd (hbs rfl)]
      | br v e o =>
        cases b with
        | false =>
          cases b' with
          | false => simp [BTree.set, BTree.get, ih e bs' nd (hbs rfl)]
          | true => simp [BTree.set, BTree.get]
        | true =>
          cases b' with
          | false => simp [BTree.set, BTree.get]
          | true => simp [BTree.set, BTree.get, ih o bs' nd (hbs rfl)]

/-- Unallocated indices read as the empty node. -/
theorem arena_get_unalloc (a : Arena)
    (hwf : ∀ x, a.size ≤ x → a.tree.get (natBits x) = none) (n : Nat)
    (hn : a.size ≤ n) : a.get n = Node.empty := by
  unfold Arena.get
  rw [hwf n hn]
  rfl

/-- Allocation does not change any node read (the fresh slot reads as the
empty node before and after). -/
theorem arena_get_alloc (a : Arena)
    (hwf : ∀ x, a.size ≤ x → a.tree.get (natBits x) = none) (n : Nat) :
    (a.alloc.1).get n = a.get n := by
  unfold Arena.alloc Arena.get
  dsimp only
  by_cases h : n = a.size
  · rw [h, btree_get_set_self, hwf a.size le_rfl]
    rfl
  · rw [btree_get_set_ne _ _ _ _ (fun he => h (natBits_inj he).symm)]

/-- Allocation preserves untouched-tail well-formedness. -/
theorem arena_alloc_wf (a : Arena)
    (hwf : ∀ x, a.size ≤ x → a.tree.get (natBits x) = none) :
    ∀ x, (a.alloc.1).size ≤ x → (a.alloc.1).tree.get (natBits x) = none := by
  intro x hx
  have hx' : a.size + 1 ≤ x := hx
  show (a.tree.set (natBits a.size) Node.empty).get (natBits x) = none
  have hxs : a.size ≠ x := by omega
  rw [btree_get_set_ne _ _ _ _ (fun he => hxs (natBits_inj he))]
  exact hwf x (by omega)

/-- `setNode` reads back at the written index. -/
theorem arena_get_setNode_self (a : Arena) (n : Nat) (nd : Node) :
    (a.setNode n nd).get n = nd := by
  unfold Arena.setNode Arena.get
  dsimp only
  rw [btree_get_set_self]
  rfl

/-- `setNode` leaves other indices unchanged. -/
theorem arena_get_setNode_ne (a : Arena) (n : Nat) (nd : Node) (m : Nat)
    (h : m ≠ n) : (a.setNode n nd).get m = a.get m := by
  unfold Arena.setNode Arena.get
  dsimp only
  rw [btree_get_set_ne _ _ _ _ (fun he => h (natBits_inj he).symm)]

/-- `setNode` preserves untouched-tail well-formedness when the index is
allocated. -/
theorem arena_setNode_wf (a : Arena) (n : Nat) (nd : Node) (hn : n < a.size)
    (hwf : ∀ x, a.size ≤ x → a.tree.get (natBits x) = none) :
    ∀ x, (a.setNode n nd).size ≤ x →
      (a.setNode n nd).tree.get (natBits x) = none := by
  intro x hx
  have hsz : (a.setNode n nd).size = a.size := rfl
  rw [hsz] at hx
  show (a.tree.set (natBits n) nd).get (natBits x) = none
  have hxn : n ≠ x := by omega
  rw [btree_get_set_ne _ _ _ _ (fun he => hxn (natBits_inj he))]
  exact hwf x hx

/-- Characterization of `edgesGet` after `edgesSet`. -/
theorem edgesGet_edgesSet (c : Char) (t : Nat) :
    ∀ (es : List (Char × Nat)) (c' : Char),
      edgesGet (edgesSet es c t) c' =
        if c = c' then some t else edgesGet es c' := by
  intro es
  induction es with
  | nil =>
    intro c'
    show (if c = c' then some t else none) = _
    by_cases h : c = c'
    · rw [if_pos h, if_pos h]
    · rw [if_neg h, if_neg h]; rfl
  | cons hd rest ih =>
    obtain ⟨c0, t0⟩ := hd
    intro c'
    show edgesGet
      (if c0 = c then (c, t) :: rest else (c0, t0) :: edgesSet rest c t) c' = _
    by_cases h1 : c0 = c
    · rw [if_pos h1]
      show (if c = c' then some t else edgesGet rest c') = _
      by_cases h2 : c = c'
      · rw [if_pos h2, if_pos h2]
      · rw [if_neg h2, if_neg h2]
        show edgesGet rest c' = if c0 = c' then some t0 else edgesGet rest c'
        rw [if_neg (fun hc => h2 (h1 ▸ hc : c = c'))]
    · rw [if_neg h1]
      show (if c0 = c' then some t0 else edgesGet (edgesSet rest c t) c') = _
      by_cases h3 : c0 = c'
      · have hcc : ¬c = c' := fun hc => h1 (h3.trans hc.symm)
        rw [if_pos h3, if_neg hcc]
        show some t0 = if c0 = c' then some t0 else edgesGet rest c'
        rw [if_pos h3]
      · rw [if_neg h3, ih c']
        by_cases h2 : c = c'
        · rw [if_pos h2, if_pos h2]
        · rw [if_neg h2, if_neg h2]
          show edgesGet rest c' = if c0 = c' then some t0 else edgesGet rest c'
          rw [if_neg h3]

/-- `setFinalVal` reads back at the written index. -/
theorem arena_setFinalVal_self (a : Arena) (n : Nat) (b : Bool) :
    (a.setFinalVal n b).get n = { a.get n with final := b } :=
  arena_get_setNode_self a n _

/-- `setFinalVal` leaves other indices unchanged. -/
theorem arena_setFinalVal_ne (a : Arena) (n : Nat) (b : Bool) (x : Nat)
    (h : x ≠ n) : (a.setFinalVal n b).get x = a.get x :=
  arena_get_setNode_ne a n _ x h

/-- `setFinal` reads back at the written index. -/
theorem arena_setFinal_self (a : Arena) (n : Nat) :
    (a.setFinal n).get n = { a.get n with final := true } :=
  arena_get_setNode_self a n _

/-- `setFinal` leaves other indices unchanged. -/
theorem arena_setFinal_ne (a : Arena) (n : Nat) (x : Nat) (h : x ≠ n) :
    (a.setFinal n).get x = a.get x :=
  arena_get_setNode_ne a n _ x h

/-- `setFinalVal` never changes edges. -/
theorem arena_setFinalVal_edges (a : Arena) (n : Nat) (b : Bool) :
    ∀ x, ((a.setFinalVal n b).get x).edges = (a.get x).edges := by
  intro x
  by_cases h : x = n
  · rw [h, arena_setFinalVal_self]
  · rw [arena_setFinalVal_ne a n b x h]

/-- `setFinal` never changes edges. -/
theorem arena_setFinal_edges (a : Arena) (n : Nat) :
    ∀ x, ((a.setFinal n).get x).edges = (a.get x).edges := by
  intro x
  by_cases h : x = n
  · rw [h, arena_setFinal_self]
  · rw [arena_setFinal_ne a n x h]

/-- Edge-preserving arena changes transport paths. -/
theorem epath_edges_eq {a a' : Arena}
    (h : ∀ n, (a'.get n).edges = (a.get n).edges) :
    ∀ {q p x}, EPath a' q p x → EPath a q p x := by
  intro q p x hp
  induction hp with
  | nil n => exact EPath.nil n
  | cons he _ ih => exact EPath.cons (h _ ▸ he) ih

/-- Under forward monotone edges, paths never decrease the index. -/
theorem epath_le (a : Arena)
    (hM : ∀ n c m, edgesGet (a.get n).edges c = some m → n < m ∧ m < a.size) :
    ∀ {q p x}, EPath a q p x → q ≤ x := by
  intro q p x hp
  induction hp with
  | nil => exact le_rfl
  | cons he _ ih => exact le_of_lt (lt_of_lt_of_le (hM _ _ _ he).1 ih)

/-- Under forward monotone edges, the only path from a node to itself is
empty. -/
theorem epath_self (a : Arena)
    (hM : ∀ n c m, edgesGet (a.get n).edges c = some m → n < m ∧ m < a.size) :
    ∀ {q p}, EPath a q p q → p = [] := by
  intro q p hp
  cases hp with
  | nil => rfl
  | cons he hp' =>
    have h1 := (hM _ _ _ he).1
    have h2 := epath_le a hM hp'
    omega

/-- Last-edge extraction from a non-trivial path. -/
theorem epath_last (a : Arena)
    (hM : ∀ n c m, edgesGet (a.get n).edges c = some m → n < m ∧ m < a.size) :
    ∀ {q p m}, EPath a q p m → m ≠ q →
      ∃ p0 n2 ℓ2, p = p0 ++ [ℓ2] ∧ EPath a q p0 n2 ∧
        edgesGet (a.get n2).edges ℓ2 = some m := by
  intro q p m hp
  induction hp with
  | nil n => intro hne; exact absurd rfl hne
  | cons he hp ih =>
    rename_i n m0 r c u
    intro _
    by_cases hrm : r = m0
    · have hu : u = [] := epath_self a hM (hrm ▸ hp)
      subst hu
      cases hp with
      | nil => exact ⟨[], n, c, rfl, EPath.nil n, he⟩
    · obtain ⟨p0, n2, ℓ2, hu, hpath, hedge⟩ := ih hrm
      exact ⟨c :: p0, n2, ℓ2, by rw [hu, List.cons_append],
        EPath.cons he hpath, hedge⟩

/-- The full specification of `getOrCreate` on a well-formed arena:
well-formedness is preserved, the queried edge exists afterwards,
finality flags are untouched, paths to previously existing nodes are
unchanged, and every path to the returned child decomposes into a path to
`n` followed by the label. -/
theorem getOrCreate_spec (a : Arena) (n : Nat) (ℓ : Char)
    (hA : AOK a) (hn : n < a.size) :
    AOK (getOrCreate a n ℓ).1 ∧
    a.size ≤ (getOrCreate a n ℓ).1.size ∧
    (getOrCreate a n ℓ).2 < (getOrCreate a n ℓ).1.size ∧
    edgesGet (((getOrCreate a n ℓ).1).get n).edges ℓ =
      some (getOrCreate a n ℓ).2 ∧
    (∀ x, (((getOrCreate a n ℓ).1).get x).final = (a.get x).final) ∧
    (∀ q p x, x < a.size → EPath (getOrCreate a n ℓ).1 q p x →
      EPath a q p x) ∧
    (∀ p, EPath (getOrCreate a n ℓ).1 0 p (getOrCreate a n ℓ).2 →
      ∃ p0, p = p0 ++ [ℓ] ∧ EPath (getOrCreate a n ℓ).1 0 p0 n) ∧
    (∀ q p x, EPath a q p x → EPath (getOrCreate a n ℓ).1 q p x) := by
  obtain ⟨hwf, hM, hU⟩ := hA
  cases hedge : edgesGet (a.get n).edges ℓ with
  | some m =>
    have hgoc : getOrCreate a n ℓ = (a, m) := by
      unfold getOrCreate
      rw [hedge]
    rw [hgoc]
    refine ⟨⟨hwf, hM, hU⟩, le_rfl, (hM n ℓ m hedge).2, hedge,
      fun _ => rfl, fun q p x _ hp => hp, ?_, fun q p x hp => hp⟩
    intro p hp
    have hm0 : m ≠ 0 := by
      have := (hM n ℓ m hedge).1
      omega
    obtain ⟨p0, n2, ℓ2, hu, hpath, hedge2⟩ := epath_last a hM hp hm0
    obtain ⟨hn2, hℓ2⟩ := hU m n2 ℓ2 n ℓ hedge2 hedge
    exact ⟨p0, by rw [hu, hℓ2], hn2 ▸ hpath⟩
  | none =>
    have hgoc : getOrCreate a n ℓ =
        ((a.alloc.1).setEdge n ℓ a.alloc.2, a.alloc.2) := by
      unfold getOrCreate
      rw [hedge]
    rw [hgoc]
    have hall2 : a.alloc.2 = a.size := rfl
    rw [hall2]
    set m := a.size with hm
    set a1 := a.alloc.1 with ha1
    set a2 := a1.setEdge n ℓ m with ha2
    have f1 : ∀ x, a1.get x = a.get x := arena_get_alloc a hwf
    have f2 : a1.size = a.size + 1 := rfl
    have f6 : a2.size = a.size + 1 := rfl
    have f3 : a2.get n = { a.get n with edges := edgesSet (a.get n).edges ℓ m } := by
      have h0 : a2.get n = { a1.get n with
          edges := edgesSet (a1.get n).edges ℓ m } :=
        arena_get_setNode_self a1 n _
      rw [h0, f1 n]
    have f4 : ∀ x, x ≠ n → a2.get x = a.get x := fun x hx =>
      (arena_get_setNode_ne a1 n _ x hx).trans (f1 x)
    have f5 : a.get m = Node.empty := arena_get_unalloc a hwf m le_rfl
    have g1 : ∀ c', edgesGet (a2.get n).edges c' =
        if ℓ = c' then some m else edgesGet (a.get n).edges c' := by
      intro c'
      rw [f3]
      exact edgesGet_edgesSet ℓ m (a.get n).edges c'
    have g2 : ∀ x, x ≠ n → (a2.get x).edges = (a.get x).edges := fun x hx => by
      rw [f4 x hx]
    have hedge2 : ∀ x c y, edgesGet (a2.get x).edges c = some y →
        (x = n ∧ c = ℓ ∧ y = m) ∨ edgesGet (a.get x).edges c = some y := by
      intro x c y hxy
      by_cases hx : x = n
      · subst hx
        rw [g1 c] at hxy
        by_cases hc : ℓ = c
        · rw [if_pos hc] at hxy
          exact Or.inl ⟨rfl, hc.symm, (Option.some.injEq _ _).mp hxy.symm⟩
        · rw [if_neg hc] at hxy
          exact Or.inr hxy
      · rw [g2 x hx] at hxy
        exact Or.inr hxy
    have hA2 : AOK a2 := by
      refine ⟨?_, ?_, ?_⟩
      · have hwf1 := arena_alloc_wf a hwf
        exact arena_setNode_wf a1 n _ (by rw [f2]; omega) hwf1
      · intro x c y hxy
        rcases hedge2 x c y hxy with ⟨hx, _, hy⟩ | hold
        · rw [hx, hy, f6]
          omega
        · have := hM x c y hold
          rw [f6]
          omega
      · intro y x1 c1 x2 c2 h1 h2
        rcases hedge2 x1 c1 y h1 with ⟨hx1, hc1, hy1⟩ | ho1
        · rcases hedge2 x2 c2 y h2 with ⟨hx2, hc2, _⟩ | ho2
          · rw [hx1, hx2, hc1, hc2]
            exact ⟨rfl, rfl⟩
          · have := (hM x2 c2 y ho2).2
            omega
        · rcases hedge2 x2 c2 y h2 with ⟨_, _, hy2⟩ | ho2
          · have := (hM x1 c1 y ho1).2
            omega
          · exact hU y x1 c1 x2 c2 ho1 ho2
    have hback : ∀ q p x, x < a.size → EPath a2 q p x → EPath a q p x := by
      intro q p x hx hp
      induction hp with
      | nil n0 => exact EPath.nil n0
      | cons he hp ih =>
        rename_i n0 m0 r c u
        rcases hedge2 n0 c m0 he with ⟨hn0, hc, hm0⟩ | hold
        · exfalso
          have hme : a2.get m0 = Node.empty := by
            rw [f4 m0 (by omega), hm0, f5]
          have : r = m0 := by
            cases hp with
            | nil => rfl
            | cons he2 _ =>
              rw [hme] at he2
              exact Option.noConfusion he2
          omega
        · exact EPath.cons hold (ih hx)
    have hfwd : ∀ q p x, EPath a q p x → EPath a2 q p x := by
      intro q p x hp
      induction hp with
      | nil n0 => exact EPath.nil n0
      | cons he hp ih =>
        rename_i n0 m0 r c u
        refine EPath.cons (m := m0) ?_ ih
        by_cases hx : n0 = n
        · subst hx
          have hcℓ : ¬ℓ = c := by
            intro hc
            rw [← hc] at he
            rw [he] at hedge
            exact Option.noConfusion hedge
          rw [g1 c, if_neg hcℓ]
          exact he
        · rw [g2 n0 hx]
          exact he
    refine ⟨hA2, by rw [f6]; omega, by rw [f6]; omega, ?_, ?_, hback, ?_, hfwd⟩
    · rw [g1 ℓ, if_pos rfl]
    · intro x
      by_cases hx : x = n
      · rw [hx, f3]
      · rw [f4 x hx]
    · intro p hp
      have hm0 : m ≠ 0 := by omega
      obtain ⟨p0, n2, ℓ2, hu, hpath, hedge3⟩ :=
        epath_last a2 hA2.2.1 hp hm0
      have hnew : edgesGet (a2.get n).edges ℓ = some m := by
        rw [g1 ℓ, if_pos rfl]
      obtain ⟨hn2, hℓ2⟩ := hA2.2.2 m n2 ℓ2 n ℓ hedge3 hnew
      exact ⟨p0, by rw [hu, hℓ2], hn2 ▸ hpath⟩

/-- Extend a wildcard trace by one exactly labeled edge. -/
theorem wpath_snoc_lit {a : Arena} {q r : Nat} {p : Str} {c : Char} {q2 : Nat}
    (hp : WPath a q p r) (he : edgesGet (a.get r).edges c = some q2) :
    WPath a q (p ++ [c]) q2 := by
  induction hp with
  | nil n => exact WPath.lit he (WPath.nil q2)
  | lit he2 _ ih => exact WPath.lit he2 (ih he)
  | star he2 _ ih => exact WPath.star he2 (ih he)

/-- Extend a wildcard trace by one `*` edge (consuming any character). -/
theorem wpath_snoc_star {a : Arena} {q r : Nat} {p : Str} {c : Char}
    {q2 : Nat} (hp : WPath a q p r)
    (he : edgesGet (a.get r).edges '*' = some q2) :
    WPath a q (p ++ [c]) q2 := by
  induction hp with
  | nil n => exact WPath.star he (WPath.nil q2)
  | lit he2 _ ih => exact WPath.lit he2 (ih he)
  | star he2 _ ih => exact WPath.star he2 (ih he)

/-- A wildcard trace yields an exact label path that wildcard-matches the
consumed string. -/
theorem wpath_epath {a : Arena} :
    ∀ {q t r}, WPath a q t r → ∃ p, EPath a q p r ∧ WMatch p t := by
  intro q t r h
  induction h with
  | nil n => exact ⟨[], EPath.nil n, WMatch.nil⟩
  | lit he _ ih =>
    obtain ⟨p, hp, hm⟩ := ih
    exact ⟨_ :: p, EPath.cons he hp, WMatch.lit _ hm⟩
  | star he _ ih =>
    obtain ⟨p, hp, hm⟩ := ih
    exact ⟨'*' :: p, EPath.cons he hp, WMatch.star _ hm⟩

/-- Soundness of the pattern grammar: a pattern producible from `s` with
`c` edits wildcard-matches only strings reachable from `s` by `c` edit
operations (for `s` without literal `*` characters). -/
theorem edc_sound :
    ∀ {s u c}, EdC s u c → '*' ∉ s → ∀ t, WMatch u t → Ed s t c := by
  intro s u c h
  induction h with
  | nil =>
    intro _ t hm
    cases hm
    exact Ed.nil
  | noEdit a _ ih =>
    intro hstar t hm
    have hstar' : '*' ∉ _ := fun hx => hstar (List.mem_cons_of_mem a hx)
    have ha : a ≠ '*' := fun hx => hstar (hx ▸ List.mem_cons_self a _)
    cases hm with
    | lit _ hm2 => exact Ed.keep a (ih hstar' _ hm2)
    | star _ hm2 => exact absurd rfl ha
  | del a _ ih =>
    intro hstar t hm
    exact Ed.del a (ih (fun hx => hstar (List.mem_cons_of_mem a hx)) t hm)
  | sub a _ ih =>
    intro hstar t hm
    have hstar' : '*' ∉ _ := fun hx => hstar (List.mem_cons_of_mem a hx)
    cases hm with
    | lit _ hm2 => exact Ed.sub a '*' (ih hstar' _ hm2)
    | star b hm2 => exact Ed.sub a b (ih hstar' _ hm2)
  | ins _ ih =>
    intro hstar t hm
    cases hm with
    | lit _ hm2 => exact Ed.ins '*' (ih hstar _ hm2)
    | star b hm2 => exact Ed.ins b (ih hstar _ hm2)
  | trans a b _ ih =>
    intro hstar t hm
    have hstar' : '*' ∉ _ :=
      fun hx => hstar (List.mem_cons_of_mem a (List.mem_cons_of_mem b hx))
    have hb : b ≠ '*' :=
      fun hx => hstar (List.mem_cons_of_mem a (hx ▸ List.mem_cons_self b _))
    cases hm with
    | lit _ hm2 =>
      exact Ed.trans a b
        (ih (fun hx => by
          rcases List.mem_cons.mp hx with h1 | h1
          · exact hstar (h1 ▸ List.mem_cons_self a _)
          · exact hstar' h1) _ hm2)
    | star _ hm2 => exact absurd rfl hb

/-- `insertChar` preserves membership. -/
theorem mem_insertChar (c x : Char) :
    ∀ (l : List Char), c ∈ insertChar x l ↔ c = x ∨ c ∈ l := by
  intro l
  induction l with
  | nil => simp [insertChar]
  | cons a l ih =>
    show c ∈ (if x ≤ a then x :: a :: l else a :: insertChar x l) ↔ _
    by_cases h : x ≤ a
    · rw [if_pos h]
      simp
    · rw [if_neg h]
      simp [ih]
      tauto

/-- `sortChars` preserves membership. -/
theorem mem_sortChars (c : Char) :
    ∀ (l : List Char), c ∈ sortChars l ↔ c ∈ l := by
  intro l
  induction l with
  | nil => simp [sortChars]
  | cons a l ih =>
    show c ∈ insertChar a (sortChars l) ↔ _
    rw [mem_insertChar, ih]
    simp

/-- Every key JavaScript enumerates is a key of the edge map. -/
theorem mem_jsKeys (c : Char) (es : List (Char × Nat)) (h : c ∈ jsKeys es) :
    c ∈ es.map Prod.fst := by
  unfold jsKeys at h
  rcases List.mem_append.mp h with h1 | h1
  · exact List.mem_of_mem_filter ((mem_sortChars c _).mp h1)
  · exact List.mem_of_mem_filter h1

/-- A key of the edge map has an edge. -/
theorem edgesGet_isSome_of_mem (c : Char) :
    ∀ (es : List (Char × Nat)), c ∈ es.map Prod.fst →
      ∃ m, edgesGet es c = some m := by
  intro es
  induction es with
  | nil => intro h; exact absurd h (List.not_mem_nil c)
  | cons hd rest ih =>
    obtain ⟨c0, t0⟩ := hd
    intro h
    show ∃ m, (if c0 = c then some t0 else edgesGet rest c) = some m
    by_cases h0 : c0 = c
    · exact ⟨t0, by rw [if_pos h0]⟩
    · rw [if_neg h0]
      refine ih ?_
      rcases List.mem_cons.mp h with h1 | h1
      · exact absurd h1.symm h0
      · exact h1

/-- Soundness of the depth-first traversal: every emitted string extends
some stack frame's path by an exact label path to a final node. -/
theorem toArray_sound (a : Arena) :
    ∀ (fuel : Nat) (stack : List (Str × Nat)) (t : Str),
      t ∈ toArrayFuel a fuel stack →
      ∃ pn ∈ stack, ∃ u m, t = pn.1 ++ u ∧ EPath a pn.2 u m ∧
        (a.get m).final = true := by
  intro fuel
  induction fuel with
  | zero =>
    intro stack t h
    cases stack with
    | nil => exact absurd h (List.not_mem_nil t)
    | cons pn rest => exact absurd h (List.not_mem_nil t)
  | succ fuel ih =>
    intro stack t h
    cases stack with
    | nil => exact absurd h (List.not_mem_nil t)
    | cons pn rest =>
      obtain ⟨path, n⟩ := pn
      have hsplit : t = path ∧ (a.get n).final = true ∨
          t ∈ toArrayFuel a fuel
            (((jsKeys (a.get n).edges).map
              (fun c => (path ++ [c], (edgesGet (a.get n).edges c).getD 0))).reverse
              ++ rest) := by
        rw [show toArrayFuel a (fuel + 1) ((path, n) :: rest) =
          (if (a.get n).final then
            path :: toArrayFuel a fuel
              (((jsKeys (a.get n).edges).map
                (fun c => (path ++ [c], (edgesGet (a.get n).edges c).getD 0))).reverse
                ++ rest)
          else
            toArrayFuel a fuel
              (((jsKeys (a.get n).edges).map
                (fun c => (path ++ [c], (edgesGet (a.get n).edges c).getD 0))).reverse
                ++ rest)) from rfl] at h
        by_cases hf : (a.get n).final = true
        · rw [if_pos hf] at h
          rcases List.mem_cons.mp h with h1 | h1
          · exact Or.inl ⟨h1, hf⟩
          · exact Or.inr h1
        · rw [if_neg (by simpa using hf)] at h
          exact Or.inr h
      rcases hsplit with ⟨ht, hf⟩ | hrec
      · exact ⟨(path, n), List.mem_cons_self _ _,
          [], n, by rw [ht, List.append_nil], EPath.nil n, hf⟩
      · obtain ⟨pn2, hpn2, u, m, ht, hpath, hfin⟩ := ih _ t hrec
        rcases List.mem_append.mp hpn2 with h1 | h1
        · rw [List.mem_reverse] at h1
          obtain ⟨c, hc, hpn⟩ := List.mem_map.mp h1
          obtain ⟨m0, hm0⟩ :=
            edgesGet_isSome_of_mem c _ (mem_jsKeys c _ hc)
          refine ⟨(path, n), List.mem_cons_self _ _, c :: u, m, ?_, ?_, hfin⟩
          · rw [ht, ← hpn]
            show (path ++ [c]) ++ u = path ++ c :: u
            rw [List.append_assoc]
            rfl
          · refine EPath.cons (m := m0) hm0 ?_
            have : pn2.2 = m0 := by
              rw [← hpn]
              show (edgesGet (a.get n).edges c).getD 0 = m0
              rw [hm0]
              rfl
            rw [← this]
            exact hpath
        · exact ⟨pn2, List.mem_cons_of_mem _ h1, u, m, ht, hpath, hfin⟩

/-- `AOK` is preserved by `setFinal` on an allocated node. -/
theorem aok_setFinal (a : Arena) (n : Nat) (hn : n < a.size) (hA : AOK a) :
    AOK (a.setFinal n) := by
  obtain ⟨hwf, hM, hU⟩ := hA
  have hedges := arena_setFinal_edges a n
  refine ⟨?_, ?_, ?_⟩
  · intro x hx
    exact arena_setNode_wf a n _ hn hwf x hx
  · intro x c m hxm
    rw [hedges x] at hxm
    exact hM x c m hxm
  · intro m x1 c1 x2 c2 h1 h2
    rw [hedges x1] at h1
    rw [hedges x2] at h2
    exact hU m x1 c1 x2 c2 h1 h2

/-- `FzGood` transports along path-preserving arena changes. -/
theorem fzgood_transport {s : Str} {k : Nat} {a a2 : Arena} {n e : Nat}
    {str : Str} (hback : ∀ p, EPath a2 0 p n → EPath a 0 p n)
    (hG : FzGood s k a n e str) : FzGood s k a2 n e str :=
  fun p hp => hG p (hback p hp)

/-- `FzGood` is insensitive to finality changes. -/
theorem fzgood_setFinal {s : Str} {k : Nat} {a : Arena} {n e : Nat}
    {str : Str} (y : Nat) (hG : FzGood s k a n e str) :
    FzGood s k (a.setFinal y) n e str :=
  fzgood_transport (fun p hp => epath_edges_eq (arena_setFinal_edges a y) hp) hG

/-- Adding a justified finality flag preserves `FzFinal`. -/
theorem fzfinal_setFinal {s : Str} {k : Nat} {a : Arena} {x : Nat}
    (hf : FzFinal s k a)
    (hjust : ∀ p, EPath a 0 p x → ∀ t, WMatch p t → dlLE s t k) :
    FzFinal s k (a.setFinal x) := by
  intro y hy p hp t hm
  have hp2 : EPath a 0 p y := epath_edges_eq (arena_setFinal_edges a x) hp
  by_cases hxy : y = x
  · exact hjust p (hxy ▸ hp2) t hm
  · have hfy : (a.get y).final = true := by
      rw [arena_setFinal_ne a x y hxy] at hy
      exact hy
    exact hf y hfy p hp2 t hm

/-- `FzFrames` is insensitive to finality changes. -/
theorem fzframes_setFinal {s : Str} {k : Nat} {a : Arena} {y : Nat}
    {l : List FzFrame} (h : FzFrames s k a l) :
    FzFrames s k (a.setFinal y) l := by
  intro g hg
  exact ⟨(h g hg).1, fzgood_setFinal y (h g hg).2⟩

/-- The bundled effect of one `getOrCreate` on the fuzzy invariants. -/
theorem fz_goc (s : Str) (k : Nat) (a : Arena) (n : Nat) (ℓ : Char)
    (hA : AOK a) (hn : n < a.size) (hfin : FzFinal s k a) :
    AOK (getOrCreate a n ℓ).1 ∧
    a.size ≤ (getOrCreate a n ℓ).1.size ∧
    (getOrCreate a n ℓ).2 < (getOrCreate a n ℓ).1.size ∧
    FzFinal s k (getOrCreate a n ℓ).1 ∧
    (∀ x e2 str2, x < a.size → FzGood s k a x e2 str2 →
      FzGood s k (getOrCreate a n ℓ).1 x e2 str2) ∧
    (∀ l, FzFrames s k a l → FzFrames s k (getOrCreate a n ℓ).1 l) ∧
    (∀ e2 str2,
      (∀ p0, EPath a 0 p0 n → ∀ u c, EdC str2 u c → c ≤ e2 →
        ∀ t, WMatch (p0 ++ ℓ :: u) t → dlLE s t k) →
      FzGood s k (getOrCreate a n ℓ).1 (getOrCreate a n ℓ).2 e2 str2) ∧
    ((∀ p0, EPath a 0 p0 n → ∀ t, WMatch (p0 ++ [ℓ]) t → dlLE s t k) →
      ∀ p, EPath (getOrCreate a n ℓ).1 0 p (getOrCreate a n ℓ).2 →
        ∀ t, WMatch p t → dlLE s t k) := by
  obtain ⟨hA2, hsz, hchild, hedge, hfins, hback, hdec, hfwd⟩ :=
    getOrCreate_spec a n ℓ hA hn
  have hbackn : ∀ x, x < a.size →
      ∀ p, EPath (getOrCreate a n ℓ).1 0 p x → EPath a 0 p x :=
    fun x hx p hp => hback 0 p x hx hp
  have hfin2 : FzFinal s k (getOrCreate a n ℓ).1 := by
    intro y hy p hp t hm
    have hfy : (a.get y).final = true := by rw [← hfins y]; exact hy
    have hylt : y < a.size := by
      by_contra hge
      rw [arena_get_unalloc a hA.1 y (by omega)] at hfy
      exact Bool.noConfusion hfy
    exact hfin y hfy p (hbackn y hylt p hp) t hm
  have hchildfin : (∀ p0, EPath a 0 p0 n →
      ∀ t, WMatch (p0 ++ [ℓ]) t → dlLE s t k) →
      ∀ p, EPath (getOrCreate a n ℓ).1 0 p (getOrCreate a n ℓ).2 →
        ∀ t, WMatch p t → dlLE s t k := by
    intro hjust p hp t hm
    obtain ⟨p0, hpeq, hp0⟩ := hdec p hp
    exact hjust p0 (hbackn n hn p0 hp0) t (hpeq ▸ hm)
  refine ⟨hA2, hsz, hchild, hfin2,
    fun x e2 str2 hx hG => fzgood_transport (hbackn x hx) hG,
    fun l hl g hg => ⟨lt_of_lt_of_le (hl g hg).1 hsz,
      fzgood_transport (hbackn g.node (hl g hg).1) (hl g hg).2⟩,
    ?_, hchildfin⟩
  intro e2 str2 hjust p hp u c hedc hc t hm
  obtain ⟨p0, hpeq, hp0⟩ := hdec p hp
  refine hjust p0 (hbackn n hn p0 hp0) u c hedc hc t ?_
  rw [hpeq, List.append_assoc] at hm
  exact hm


/-- `FzFrames` concatenation. -/
theorem fzframes_append {s : Str} {k : Nat} {a : Arena}
    {l1 l2 : List FzFrame} (h1 : FzFrames s k a l1) (h2 : FzFrames s k a l2) :
    FzFrames s k a (l1 ++ l2) := by
  intro g hg
  rcases List.mem_append.mp hg with h | h
  · exact h1 g h
  · exact h2 g h

/-- One frame of the fuzzy construction preserves the loop invariant. -/
theorem fz_step (s : Str) (k : Nat) (a : Arena) (fr : FzFrame)
    (rest : List FzFrame) (hA : AOK a) (hfin : FzFinal s k a)
    (hn : fr.node < a.size)
    (hG : FzGood s k a fr.node fr.editsRemaining fr.str)
    (hrest : FzFrames s k a rest) :
    AOK (fuzzFrameSteps a fr).1 ∧ FzFinal s k (fuzzFrameSteps a fr).1 ∧
    FzFrames s k (fuzzFrameSteps a fr).1 ((fuzzFrameSteps a fr).2 ++ rest) := by
  obtain ⟨n, e, str⟩ := fr
  dsimp only at hn hG ⊢
  cases str with
  | nil =>
    by_cases he : e > 0
    · rcases hgoc : getOrCreate a n '*' with ⟨b, ins⟩
      obtain ⟨sA, ssz, schild, sfin, sold, sframes, sgood, sfinrule⟩ :=
        fz_goc s k a n '*' hA hn hfin
      rw [hgoc] at sA ssz schild sfin sold sframes sgood sfinrule
      have heq : fuzzFrameSteps a ⟨n, e, []⟩ = ((b.setFinal ins), []) := by
        unfold fuzzFrameSteps
        dsimp only
        rw [if_neg (fun h : e > 0 ∧ ([] : Str).length = 1 => absurd h.2 (by decide)),
          if_neg (fun h : e > 0 ∧ ([] : Str).length ≥ 1 => absurd h.2 (by decide)),
          if_pos he, hgoc]
        simp
      rw [heq]
      have hjust : ∀ p0, EPath a 0 p0 n → ∀ t, WMatch (p0 ++ ['*']) t →
          dlLE s t k :=
        fun p0 hp0 t hm => hG p0 hp0 ['*'] 1 (EdC.ins EdC.nil) he t hm
      refine ⟨aok_setFinal b ins schild sA,
        fzfinal_setFinal sfin (sfinrule hjust), ?_⟩
      show FzFrames s k _ ([] ++ rest)
      exact fzframes_setFinal (sframes rest hrest)
    · have heq : fuzzFrameSteps a ⟨n, e, []⟩ = (a, []) := by
        unfold fuzzFrameSteps
        dsimp only
        rw [if_neg (fun h : e > 0 ∧ ([] : Str).length = 1 => he h.1),
          if_neg (fun h : e > 0 ∧ ([] : Str).length ≥ 1 => he h.1), if_neg he]
        simp
      rw [heq]
      exact ⟨hA, hfin, hrest⟩
  | cons c0 rest1 =>
    rcases h1 : getOrCreate a n c0 with ⟨b1, nE⟩
    obtain ⟨sA1, ssz1, schild1, sfin1, sold1, sframes1, sgood1, sfinrule1⟩ :=
      fz_goc s k a n c0 hA hn hfin
    rw [h1] at sA1 ssz1 schild1 sfin1 sold1 sframes1 sgood1 sfinrule1
    cases rest1 with
    | nil =>
      have hjust1 : ∀ p0, EPath a 0 p0 n → ∀ t, WMatch (p0 ++ [c0]) t →
          dlLE s t k :=
        fun p0 hp0 t hm =>
          hG p0 hp0 [c0] 0 (EdC.noEdit c0 EdC.nil) (Nat.zero_le e) t hm
      have hA1 : AOK (b1.setFinal nE) := aok_setFinal b1 nE schild1 sA1
      have hfin1 : FzFinal s k (b1.setFinal nE) :=
        fzfinal_setFinal sfin1 (sfinrule1 hjust1)
      have hn1 : n < (b1.setFinal nE).size := lt_of_lt_of_le hn ssz1
      have hG1 : FzGood s k (b1.setFinal nE) n e [c0] :=
        fzgood_setFinal nE (sold1 n e [c0] hn hG)
      have hrest1 : FzFrames s k (b1.setFinal nE) rest :=
        fzframes_setFinal (sframes1 rest hrest)
      have hP1good : FzGood s k (b1.setFinal nE) nE e [] :=
        fzgood_setFinal nE (sgood1 e []
          (fun p0 hp0 u c hedc hc t hm =>
            hG p0 hp0 (c0 :: u) c (EdC.noEdit c0 hedc) hc t hm))
      have hP1lt : nE < (b1.setFinal nE).size := schild1
      by_cases he : e > 0
      · have hjust3 : ∀ p, EPath (b1.setFinal nE) 0 p n → ∀ t, WMatch p t →
            dlLE s t k :=
          fun p hp t hm => hG1 p hp [] 1 (EdC.del c0 EdC.nil) he t
            ((List.append_nil p).symm ▸ hm)
        have hA3 : AOK ((b1.setFinal nE).setFinal n) :=
          aok_setFinal _ n hn1 hA1
        have hfin3 : FzFinal s k ((b1.setFinal nE).setFinal n) :=
          fzfinal_setFinal hfin1 hjust3
        have hn3 : n < ((b1.setFinal nE).setFinal n).size := hn1
        have hG3 : FzGood s k ((b1.setFinal nE).setFinal n) n e [c0] :=
          fzgood_setFinal n hG1
        have hrest3 : FzFrames s k ((b1.setFinal nE).setFinal n) rest :=
          fzframes_setFinal hrest1
        have hP1good3 : FzGood s k ((b1.setFinal nE).setFinal n) nE e [] :=
          fzgood_setFinal n hP1good
        have hP1lt3 : nE < ((b1.setFinal nE).setFinal n).size := hP1lt
        rcases h4 : getOrCreate ((b1.setFinal nE).setFinal n) n '*' with ⟨b4, sN⟩
        obtain ⟨sA4, ssz4, schild4, sfin4, sold4, sframes4, sgood4, sfinrule4⟩ :=
          fz_goc s k ((b1.setFinal nE).setFinal n) n '*' hA3 hn3 hfin3
        rw [h4] at sA4 ssz4 schild4 sfin4 sold4 sframes4 sgood4 sfinrule4
        have hjust4 : ∀ p0, EPath ((b1.setFinal nE).setFinal n) 0 p0 n →
            ∀ t, WMatch (p0 ++ ['*']) t → dlLE s t k :=
          fun p0 hp0 t hm => hG3 p0 hp0 ['*'] 1 (EdC.sub c0 EdC.nil) he t hm
        have hA4 : AOK (b4.setFinal sN) := aok_setFinal b4 sN schild4 sA4
        have hfin4 : FzFinal s k (b4.setFinal sN) :=
          fzfinal_setFinal sfin4 (sfinrule4 hjust4)
        have hn4 : n < (b4.setFinal sN).size := lt_of_lt_of_le hn3 ssz4
        have hG4 : FzGood s k (b4.setFinal sN) n e [c0] :=
          fzgood_setFinal sN (sold4 n e [c0] hn3 hG3)
        have hrest4 : FzFrames s k (b4.setFinal sN) rest :=
          fzframes_setFinal (sframes4 rest hrest3)
        have hP1good4 : FzGood s k (b4.setFinal sN) nE e [] :=
          fzgood_setFinal sN (sold4 nE e [] hP1lt3 hP1good3)
        have hP1lt4 : nE < (b4.setFinal sN).size := lt_of_lt_of_le hP1lt3 ssz4
        rcases h5 : getOrCreate (b4.setFinal sN) n '*' with ⟨b5, iN⟩
        obtain ⟨sA5, ssz5, schild5, sfin5, sold5, sframes5, sgood5, _⟩ :=
          fz_goc s k (b4.setFinal sN) n '*' hA4 hn4 hfin4
        rw [h5] at sA5 ssz5 schild5 sfin5 sold5 sframes5 sgood5
        have hP5good : FzGood s k b5 iN (e - 1) [c0] :=
          sgood5 (e - 1) [c0]
            (fun p0 hp0 u c hedc hc t hm =>
              hG4 p0 hp0 ('*' :: u) (c + 1) (EdC.ins hedc) (by omega) t hm)
        have heq : fuzzFrameSteps a ⟨n, e, [c0]⟩ =
            (b5, [⟨nE, e, []⟩, ⟨iN, e - 1, [c0]⟩]) := by
          unfold fuzzFrameSteps
          dsimp only
          rw [if_pos (show e > 0 ∧ ([c0] : Str).length = 1 from ⟨he, rfl⟩),
            if_pos (show e > 0 ∧ ([c0] : Str).length ≥ 1 from ⟨he, le_refl 1⟩),
            if_pos he, h1]
          simp [h4, h5]
        rw [heq]
        refine ⟨sA5, sfin5, ?_⟩
        intro g hg
        rcases List.mem_append.mp hg with hgl | hgr
        · rcases List.mem_cons.mp hgl with h | h
          · rw [h]
            exact ⟨lt_of_lt_of_le hP1lt4 ssz5,
              sold5 nE e [] hP1lt4 hP1good4⟩
          · rcases List.mem_cons.mp h with h2 | h2
            · rw [h2]
              exact ⟨schild5, hP5good⟩
            · exact absurd h2 (List.not_mem_nil g)
        · exact sframes5 rest hrest4 g hgr
      · have heq : fuzzFrameSteps a ⟨n, e, [c0]⟩ =
            (b1.setFinal nE, [⟨nE, e, []⟩]) := by
          unfold fuzzFrameSteps
          dsimp only
          rw [if_neg (fun h : e > 0 ∧ ([c0] : Str).length = 1 => he h.1),
            if_neg (fun h : e > 0 ∧ ([c0] : Str).length ≥ 1 => he h.1),
            if_neg he, h1]
          simp
        rw [heq]
        refine ⟨hA1, hfin1, ?_⟩
        intro g hg
        rcases List.mem_append.mp hg with hgl | hgr
        · rcases List.mem_cons.mp hgl with h | h
          · rw [h]
            exact ⟨hP1lt, hP1good⟩
          · exact absurd h (List.not_mem_nil g)
        · exact hrest1 g hgr
    | cons c1 rest2 =>
      have hn1 : n < b1.size := lt_of_lt_of_le hn ssz1
      have hG1 : FzGood s k b1 n e (c0 :: c1 :: rest2) :=
        sold1 n e (c0 :: c1 :: rest2) hn hG
      have hrest1 : FzFrames s k b1 rest := sframes1 rest hrest
      have hP1good : FzGood s k b1 nE e (c1 :: rest2) :=
        sgood1 e (c1 :: rest2)
          (fun p0 hp0 u c hedc hc t hm =>
            hG p0 hp0 (c0 :: u) c (EdC.noEdit c0 hedc) hc t hm)
      have hP1lt : nE < b1.size := schild1
      by_cases he : e > 0
      · rcases h2 : getOrCreate b1 n c1 with ⟨b2, dN⟩
        obtain ⟨sA2, ssz2, schild2, sfin2, sold2, sframes2, sgood2, sfinrule2⟩ :=
          fz_goc s k b1 n c1 sA1 hn1 sfin1
        rw [h2] at sA2 ssz2 schild2 sfin2 sold2 sframes2 sgood2 sfinrule2
        cases rest2 with
        | nil =>
          have hjust2 : ∀ p0, EPath b1 0 p0 n → ∀ t, WMatch (p0 ++ [c1]) t →
              dlLE s t k :=
            fun p0 hp0 t hm => hG1 p0 hp0 [c1] 1
              (EdC.del c0 (EdC.noEdit c1 EdC.nil)) he t hm
          have hA2 : AOK (b2.setFinal dN) := aok_setFinal b2 dN schild2 sA2
          have hfin2 : FzFinal s k (b2.setFinal dN) :=
            fzfinal_setFinal sfin2 (sfinrule2 hjust2)
          have hn2 : n < (b2.setFinal dN).size := lt_of_lt_of_le hn1 ssz2
          have hG2 : FzGood s k (b2.setFinal dN) n e (c0 :: c1 :: []) :=
            fzgood_setFinal dN (sold2 n e _ hn1 hG1)
          have hrest2 : FzFrames s k (b2.setFinal dN) rest :=
            fzframes_setFinal (sframes2 rest hrest1)
          have hP1good2 : FzGood s k (b2.setFinal dN) nE e (c1 :: []) :=
            fzgood_setFinal dN (sold2 nE e _ hP1lt hP1good)
          have hP1lt2 : nE < (b2.setFinal dN).size := lt_of_lt_of_le hP1lt ssz2
          rcases h4 : getOrCreate (b2.setFinal dN) n '*' with ⟨b4, sN⟩
          obtain ⟨sA4, ssz4, schild4, sfin4, sold4, sframes4, sgood4, _⟩ :=
            fz_goc s k (b2.setFinal dN) n '*' hA2 hn2 hfin2
          rw [h4] at sA4 ssz4 schild4 sfin4 sold4 sframes4 sgood4
          have hP4good : FzGood s k b4 sN (e - 1) (c1 :: []) :=
            sgood4 (e - 1) (c1 :: [])
              (fun p0 hp0 u c hedc hc t hm =>
                hG2 p0 hp0 ('*' :: u) (c + 1) (EdC.sub c0 hedc) (by omega) t hm)
          have hn4 : n < b4.size := lt_of_lt_of_le hn2 ssz4
          have hG4 : FzGood s k b4 n e (c0 :: c1 :: []) := sold4 n e _ hn2 hG2
          have hrest4 : FzFrames s k b4 rest := sframes4 rest hrest2
          have hP1good4 : FzGood s k b4 nE e (c1 :: []) :=
            sold4 nE e _ hP1lt2 hP1good2
          have hP1lt4 : nE < b4.size := lt_of_lt_of_le hP1lt2 ssz4
          rcases h5 : getOrCreate b4 n '*' with ⟨b5, iN⟩
          obtain ⟨sA5, ssz5, schild5, sfin5, sold5, sframes5, sgood5, _⟩ :=
            fz_goc s k b4 n '*' sA4 hn4 sfin4
          rw [h5] at sA5 ssz5 schild5 sfin5 sold5 sframes5 sgood5
          have hP5good : FzGood s k b5 iN (e - 1) (c0 :: c1 :: []) :=
            sgood5 (e - 1) _
              (fun p0 hp0 u c hedc hc t hm =>
                hG4 p0 hp0 ('*' :: u) (c + 1) (EdC.ins hedc) (by omega) t hm)
          have hn5 : n < b5.size := lt_of_lt_of_le hn4 ssz5
          have hG5 : FzGood s k b5 n e (c0 :: c1 :: []) := sold5 n e _ hn4 hG4
          have hrest5 : FzFrames s k b5 rest := sframes5 rest hrest4
          have hP1good5 : FzGood s k b5 nE e (c1 :: []) :=
            sold5 nE e _ hP1lt4 hP1good4
          have hP1lt5 : nE < b5.size := lt_of_lt_of_le hP1lt4 ssz5
          have hP4good5 : FzGood s k b5 sN (e - 1) (c1 :: []) :=
            sold5 sN (e - 1) _ schild4 hP4good
          have hP4lt5 : sN < b5.size := lt_of_lt_of_le schild4 ssz5
          rcases h6 : getOrCreate b5 n c1 with ⟨b6, tN⟩
          obtain ⟨sA6, ssz6, schild6, sfin6, sold6, sframes6, sgood6, _⟩ :=
            fz_goc s k b5 n c1 sA5 hn5 sfin5
          rw [h6] at sA6 ssz6 schild6 sfin6 sold6 sframes6 sgood6
          have hP6good : FzGood s k b6 tN (e - 1) (c0 :: []) :=
            sgood6 (e - 1) _
              (fun p0 hp0 u c hedc hc t hm =>
                hG5 p0 hp0 (c1 :: u) (c + 1) (EdC.trans c0 c1 hedc)
                  (by omega) t hm)
          have heq : fuzzFrameSteps a ⟨n, e, c0 :: c1 :: []⟩ =
              (b6, [⟨nE, e, c1 :: []⟩, ⟨sN, e - 1, c1 :: []⟩,
                ⟨iN, e - 1, c0 :: c1 :: []⟩, ⟨tN, e - 1, c0 :: []⟩]) := by
            unfold fuzzFrameSteps
            dsimp only
            rw [if_pos he,
              if_neg (fun h : e > 0 ∧ (c0 :: c1 :: ([] : Str)).length = 1 =>
                by simp at h),
              if_pos (show e > 0 ∧ (c0 :: c1 :: ([] : Str)).length ≥ 1 from
                ⟨he, by simp⟩),
              if_neg (fun h : (c0 :: c1 :: ([] : Str)).length = 1 =>
                by simp at h),
              if_pos he, if_pos he,
              if_neg (fun h : (c0 :: c1 :: ([] : Str)).length = 1 =>
                by simp at h),
              h1]
            simp [h2, h4, h5, h6]
          rw [heq]
          refine ⟨sA6, sfin6, ?_⟩
          intro g hg
          rcases List.mem_append.mp hg with hgl | hgr
          · rcases List.mem_cons.mp hgl with h | h
            · rw [h]
              exact ⟨lt_of_lt_of_le hP1lt5 ssz6, sold6 nE e _ hP1lt5 hP1good5⟩
            · rcases List.mem_cons.mp h with h2m | h2m
              · rw [h2m]
                exact ⟨lt_of_lt_of_le hP4lt5 ssz6,
                  sold6 sN (e - 1) _ hP4lt5 hP4good5⟩
              · rcases List.mem_cons.mp h2m with h3m | h3m
                · rw [h3m]
                  exact ⟨lt_of_lt_of_le schild5 ssz6,
                    sold6 iN (e - 1) _ schild5 hP5good⟩
                · rcases List.mem_cons.mp h3m with h4m | h4m
                  · rw [h4m]
                    exact ⟨schild6, hP6good⟩
                  · exact absurd h4m (List.not_mem_nil g)
          · exact sframes6 rest hrest5 g hgr
        | cons c2 rest3 =>
          have hP2good : FzGood s k b2 dN (e - 1) (c2 :: rest3) :=
            sgood2 (e - 1) (c2 :: rest3)
              (fun p0 hp0 u c hedc hc t hm =>
                hG1 p0 hp0 (c1 :: u) (c + 1)
                  (EdC.del c0 (EdC.noEdit c1 hedc)) (by omega) t hm)
          have hn2 : n < b2.size := lt_of_lt_of_le hn1 ssz2
          have hG2 : FzGood s k b2 n e (c0 :: c1 :: c2 :: rest3) :=
            sold2 n e _ hn1 hG1
          have hrest2 : FzFrames s k b2 rest := sframes2 rest hrest1
          have hP1good2 : FzGood s k b2 nE e (c1 :: c2 :: rest3) :=
            sold2 nE e _ hP1lt hP1good
          have hP1lt2 : nE < b2.size := lt_of_lt_of_le hP1lt ssz2
          rcases h4 : getOrCreate b2 n '*' with ⟨b4, sN⟩
          obtain ⟨sA4, ssz4, schild4, sfin4, sold4, sframes4, sgood4, _⟩ :=
            fz_goc s k b2 n '*' sA2 hn2 sfin2
          rw [h4] at sA4 ssz4 schild4 sfin4 sold4 sframes4 sgood4
          have hP4good : FzGood s k b4 sN (e - 1) (c1 :: c2 :: rest3) :=
            sgood4 (e - 1) _
              (fun p0 hp0 u c hedc hc t hm =>
                hG2 p0 hp0 ('*' :: u) (c + 1) (EdC.sub c0 hedc) (by omega) t hm)
          have hn4 : n < b4.size := lt_of_lt_of_le hn2 ssz4
          have hG4 : FzGood s k b4 n e (c0 :: c1 :: c2 :: rest3) :=
            sold4 n e _ hn2 hG2
          have hrest4 : FzFrames s k b4 rest := sframes4 rest hrest2
          have hP1good4 : FzGood s k b4 nE e (c1 :: c2 :: rest3) :=
            sold4 nE e _ hP1lt2 hP1good2
          have hP1lt4 : nE < b4.size := lt_of_lt_of_le hP1lt2 ssz4
          have hP2good4 : FzGood s k b4 dN (e - 1) (c2 :: rest3) :=
            sold4 dN (e - 1) _ schild2 hP2good
          have hP2lt4 : dN < b4.size := lt_of_lt_of_le schild2 ssz4
          rcases h5 : getOrCreate b4 n '*' with ⟨b5, iN⟩
          obtain ⟨sA5, ssz5, schild5, sfin5, sold5, sframes5, sgood5, _⟩ :=
            fz_goc s k b4 n '*' sA4 hn4 sfin4
          rw [h5] at sA5 ssz5 schild5 sfin5 sold5 sframes5 sgood5
          have hP5good : FzGood s k b5 iN (e - 1) (c0 :: c1 :: c2 :: rest3) :=
            sgood5 (e - 1) _
              (fun p0 hp0 u c hedc hc t hm =>
                hG4 p0 hp0 ('*' :: u) (c + 1) (EdC.ins hedc) (by omega) t hm)
          have hn5 : n < b5.size := lt_of_lt_of_le hn4 ssz5
          have hG5 : FzGood s k b5 n e (c0 :: c1 :: c2 :: rest3) :=
            sold5 n e _ hn4 hG4
          have hrest5 : FzFrames s k b5 rest := sframes5 rest hrest4
          have hP1good5 : FzGood s k b5 nE e (c1 :: c2 :: rest3) :=
            sold5 nE e _ hP1lt4 hP1good4
          have hP1lt5 : nE < b5.size := lt_of_lt_of_le hP1lt4 ssz5
          have hP2good5 : FzGood s k b5 dN (e - 1) (c2 :: rest3) :=
            sold5 dN (e - 1) _ hP2lt4 hP2good4
          have hP2lt5 : dN < b5.size := lt_of_lt_of_le hP2lt4 ssz5
          have hP4good5 : FzGood s k b5 sN (e - 1) (c1 :: c2 :: rest3) :=
            sold5 sN (e - 1) _ schild4 hP4good
          have hP4lt5 : sN < b5.size := lt_of_lt_of_le schild4 ssz5
          rcases h6 : getOrCreate b5 n c1 with ⟨b6, tN⟩
          obtain ⟨sA6, ssz6, schild6, sfin6, sold6, sframes6, sgood6, _⟩ :=
            fz_goc s k b5 n c1 sA5 hn5 sfin5
          rw [h6] at sA6 ssz6 schild6 sfin6 sold6 sframes6 sgood6
          have hP6good : FzGood s k b6 tN (e - 1) (c0 :: c2 :: rest3) :=
            sgood6 (e - 1) _
              (fun p0 hp0 u c hedc hc t hm =>
                hG5 p0 hp0 (c1 :: u) (c + 1) (EdC.trans c0 c1 hedc)
                  (by omega) t hm)
          have heq : fuzzFrameSteps a ⟨n, e, c0 :: c1 :: c2 :: rest3⟩ =
              (b6, [⟨nE, e, c1 :: c2 :: rest3⟩, ⟨dN, e - 1, c2 :: rest3⟩,
                ⟨sN, e - 1, c1 :: c2 :: rest3⟩,
                ⟨iN, e - 1, c0 :: c1 :: c2 :: rest3⟩,
                ⟨tN, e - 1, c0 :: c2 :: rest3⟩]) := by
            unfold fuzzFrameSteps
            dsimp only
            rw [if_pos he,
              if_neg
                (fun h : e > 0 ∧ (c0 :: c1 :: c2 :: rest3 : Str).length = 1 =>
                  by simp at h),
              if_pos (show e > 0 ∧ (c0 :: c1 :: c2 :: rest3 : Str).length ≥ 1
                from ⟨he, by simp⟩),
              if_neg (fun h : (c0 :: c1 :: c2 :: rest3 : Str).length = 1 =>
                by simp at h),
              if_pos he, if_pos he,
              if_neg (fun h : (c0 :: c1 :: c2 :: rest3 : Str).length = 1 =>
                by simp at h),
              h1]
            simp [h2, h4, h5, h6]
          rw [heq]
          refine ⟨sA6, sfin6, ?_⟩
          intro g hg
          rcases List.mem_append.mp hg with hgl | hgr
          · rcases List.mem_cons.mp hgl with h | h
            · rw [h]
              exact ⟨lt_of_lt_of_le hP1lt5 ssz6, sold6 nE e _ hP1lt5 hP1good5⟩
            · rcases List.mem_cons.mp h with h2m | h2m
              · rw [h2m]
                exact ⟨lt_of_lt_of_le hP2lt5 ssz6,
                  sold6 dN (e - 1) _ hP2lt5 hP2good5⟩
              · rcases List.mem_cons.mp h2m with h3m | h3m
                · rw [h3m]
                  exact ⟨lt_of_lt_of_le hP4lt5 ssz6,
                    sold6 sN (e - 1) _ hP4lt5 hP4good5⟩
                · rcases List.mem_cons.mp h3m with h4m | h4m
                  · rw [h4m]
                    exact ⟨lt_of_lt_of_le schild5 ssz6,
                      sold6 iN (e - 1) _ schild5 hP5good⟩
                  · rcases List.mem_cons.mp h4m with h5m | h5m
                    · rw [h5m]
                      exact ⟨schild6, hP6good⟩
                    · exact absurd h5m (List.not_mem_nil g)
          · exact sframes6 rest hrest5 g hgr
      · have heq : fuzzFrameSteps a ⟨n, e, c0 :: c1 :: rest2⟩ =
            (b1, [⟨nE, e, c1 :: rest2⟩]) := by
          unfold fuzzFrameSteps
          dsimp only
          rw [if_neg he,
            if_neg (fun h : e > 0 ∧ (c0 :: c1 :: rest2 : Str).length = 1 =>
              he h.1),
            if_neg (fun h : e > 0 ∧ (c0 :: c1 :: rest2 : Str).length ≥ 1 =>
              he h.1),
            if_neg he, if_neg he, h1]
          simp
        rw [heq]
        refine ⟨sA1, sfin1, ?_⟩
        intro g hg
        rcases List.mem_append.mp hg with hgl | hgr
        · rcases List.mem_cons.mp hgl with h | h
          · rw [h]
            exact ⟨hP1lt, hP1good⟩
          · exact absurd h (List.not_mem_nil g)
        · exact hrest1 g hgr



/-- Reading an untouched tree gives nothing. -/
theorem btree_get_nil : ∀ (p : List Bool), BTree.get .nil p = none := by
  intro p
  cases p <;> rfl

/-- `AOK` is preserved by `setFinalVal` on an allocated node. -/
theorem aok_setFinalVal (a : Arena) (n : Nat) (b : Bool) (hn : n < a.size)
    (hA : AOK a) : AOK (a.setFinalVal n b) := by
  obtain ⟨hwf, hM, hU⟩ := hA
  have hedges := arena_setFinalVal_edges a n b
  refine ⟨?_, ?_, ?_⟩
  · intro x hx
    exact arena_setNode_wf a n _ hn hwf x hx
  · intro x c m hxm
    rw [hedges x] at hxm
    exact hM x c m hxm
  · intro m x1 c1 x2 c2 h1 h2
    rw [hedges x1] at h1
    rw [hedges x2] at h2
    exact hU m x1 c1 x2 c2 h1 h2

/-- The fuzzy loop preserves the invariant: whenever it stops, the arena
is well-formed and its final nodes are justified. -/
theorem fz_loop (s : Str) (k : Nat) :
    ∀ (fuel : Nat) (a : Arena) (stack : List FzFrame),
      AOK a → FzFinal s k a → FzFrames s k a stack →
      AOK (fuzzLoop fuel a stack) ∧ FzFinal s k (fuzzLoop fuel a stack) := by
  intro fuel
  induction fuel with
  | zero =>
    intro a stack hA hf _
    cases stack with
    | nil => exact ⟨hA, hf⟩
    | cons fr rest => exact ⟨hA, hf⟩
  | succ fuel ih =>
    intro a stack hA hf hframes
    cases stack with
    | nil => exact ⟨hA, hf⟩
    | cons fr rest =>
      have h0 := hframes fr (List.mem_cons_self fr rest)
      have hrest : FzFrames s k a rest :=
        fun g hg => hframes g (List.mem_cons_of_mem fr hg)
      obtain ⟨hA2, hf2, hframes2⟩ := fz_step s k a fr rest hA hf h0.1 h0.2 hrest
      show AOK (fuzzLoop fuel (fuzzFrameSteps a fr).1
          ((fuzzFrameSteps a fr).2.reverse ++ rest)) ∧ _
      refine ih _ _ hA2 hf2 ?_
      intro g hg
      refine hframes2 g ?_
      rcases List.mem_append.mp hg with h | h
      · exact List.mem_append.mpr (Or.inl (List.mem_reverse.mp h))
      · exact List.mem_append.mpr (Or.inr h)

/-- The freshly allocated one-node arena is well-formed, has no edges and
no final node. -/
theorem arena_init_facts :
    AOK (Arena.alloc Arena.init).1 ∧
    (∀ x, ((Arena.alloc Arena.init).1.get x).edges = []) ∧
    (∀ x, ((Arena.alloc Arena.init).1.get x).final = false) ∧
    (Arena.alloc Arena.init).1.size = 1 := by
  have hget : ∀ x, (Arena.alloc Arena.init).1.get x = Node.empty := by
    intro x
    show ((BTree.set .nil (natBits 0) Node.empty).get (natBits x)).getD
      Node.empty = Node.empty
    by_cases hx : x = 0
    · rw [hx, btree_get_set_self]
      rfl
    · rw [btree_get_set_ne _ _ _ _
        (fun he => hx (natBits_inj he).symm), btree_get_nil]
      rfl
  have hwf : ∀ x, (Arena.alloc Arena.init).1.size ≤ x →
      (Arena.alloc Arena.init).1.tree.get (natBits x) = none := by
    intro x hx
    have hx1 : 1 ≤ x := hx
    show (BTree.set .nil (natBits 0) Node.empty).get (natBits x) = none
    rw [btree_get_set_ne _ _ _ _
      (fun he => by have := natBits_inj he; omega), btree_get_nil]
  refine ⟨⟨hwf, ?_, ?_⟩, fun x => by rw [hget x]; rfl,
    fun x => by rw [hget x]; rfl, rfl⟩
  · intro n c m hm
    rw [show ((Arena.alloc Arena.init).1.get n).edges = [] from by
      rw [hget n]; rfl] at hm
    exact Option.noConfusion hm
  · intro m n1 c1 n2 c2 h1 h2
    rw [show ((Arena.alloc Arena.init).1.get n1).edges = [] from by
      rw [hget n1]; rfl] at h1
    exact Option.noConfusion h1

/-- The arena built by `fromFuzzyString` is well-formed and its final
nodes' pattern paths only wildcard-match strings within distance `k` of
`s` (for `s` without `*`). -/
theorem fromFuzzyString_final (s : Str) (k : Nat) (fuel : Nat)
    (hs : '*' ∉ s) :
    AOK (TokenSet.fromFuzzyString fuel s k).1 ∧
    FzFinal s k (TokenSet.fromFuzzyString fuel s k).1 ∧
    (TokenSet.fromFuzzyString fuel s k).2 = 0 := by
  obtain ⟨hA0, hedges0, hfin0, hsz0⟩ := arena_init_facts
  have hfin : FzFinal s k (Arena.alloc Arena.init).1 := by
    intro x hx
    rw [hfin0 x] at hx
    exact Bool.noConfusion hx
  have hframes : FzFrames s k (Arena.alloc Arena.init).1 [⟨0, k, s⟩] := by
    intro g hg
    rcases List.mem_cons.mp hg with h | h
    · rw [h]
      show (0 : Nat) < _ ∧ FzGood s k _ 0 k s
      refine ⟨by rw [hsz0]; omega, ?_⟩
      intro p hp u c hedc hc t hm
      have hpnil : p = [] := by
        cases hp with
        | nil => rfl
        | cons he _ =>
          rw [hedges0 0] at he
          exact Option.noConfusion he
      rw [hpnil] at hm
      exact ⟨c, hc, edc_sound hedc hs t hm⟩
    · exact absurd h (List.not_mem_nil g)
  obtain ⟨hA, hf⟩ :=
    fz_loop s k fuel (Arena.alloc Arena.init).1 [⟨0, k, s⟩] hA0 hfin hframes
  exact ⟨hA, hf, rfl⟩



/-- `foldl` invariance where the step may use membership of the element. -/
theorem foldl_invariant_mem {α β : Type} (P : β → Prop) (g : β → α → β)
    (l : List α) (h : ∀ b x, x ∈ l → P b → P (g b x)) :
    ∀ (b : β), P b → P (l.foldl g b) := by
  induction l with
  | nil => intro b hb; exact hb
  | cons x l ih =>
    intro b hb
    exact ih (fun b2 y hy hb2 => h b2 y (List.mem_cons_of_mem x hy) hb2) _
      (h b x (List.mem_cons_self x l) hb)


/-- The composite allocation step of the intersection (allocate, write
the finality, connect): full specification on a well-formed arena. -/
theorem alloc_final_edge_spec (a : Arena) (n : Nat) (ℓ : Char) (b : Bool)
    (hA : AOK a) (hn : n < a.size)
    (hℓ : edgesGet (a.get n).edges ℓ = none) :
    AOK (((a.alloc.1).setFinalVal a.alloc.2 b).setEdge n ℓ a.alloc.2) ∧
    (((a.alloc.1).setFinalVal a.alloc.2 b).setEdge n ℓ a.alloc.2).size =
      a.size + 1 ∧
    a.alloc.2 = a.size ∧
    edgesGet (((((a.alloc.1).setFinalVal a.alloc.2 b).setEdge n ℓ
      a.alloc.2)).get n).edges ℓ = some a.alloc.2 ∧
    (∀ x, x ≠ a.alloc.2 →
      (((((a.alloc.1).setFinalVal a.alloc.2 b).setEdge n ℓ
        a.alloc.2)).get x).final = (a.get x).final) ∧
    ((((((a.alloc.1).setFinalVal a.alloc.2 b).setEdge n ℓ
      a.alloc.2)).get a.alloc.2).final = b) ∧
    (∀ q p x, x < a.size →
      EPath (((a.alloc.1).setFinalVal a.alloc.2 b).setEdge n ℓ a.alloc.2)
        q p x → EPath a q p x) ∧
    (∀ p, EPath (((a.alloc.1).setFinalVal a.alloc.2 b).setEdge n ℓ a.alloc.2)
        0 p a.alloc.2 →
      ∃ p0, p = p0 ++ [ℓ] ∧
        EPath (((a.alloc.1).setFinalVal a.alloc.2 b).setEdge n ℓ a.alloc.2)
          0 p0 n) := by
  obtain ⟨hwf, hM, hU⟩ := hA
  have hm : a.alloc.2 = a.size := rfl
  set m := a.alloc.2 with hmdef
  set a1 := a.alloc.1 with ha1def
  set a2 := a1.setFinalVal m b with ha2def
  set a3 := a2.setEdge n ℓ m with ha3def
  have hnm : n ≠ m := by omega
  have f1 : ∀ x, a1.get x = a.get x := arena_get_alloc a hwf
  have f5 : a.get m = Node.empty := arena_get_unalloc a hwf m (by omega)
  have f2 : a2.get m = { a.get m with final := b } := by
    have h0 : a2.get m = { a1.get m with final := b } :=
      arena_setFinalVal_self a1 m b
    rw [h0, f1 m]
  have f2x : ∀ x, x ≠ m → a2.get x = a.get x := fun x hx =>
    (arena_setFinalVal_ne a1 m b x hx).trans (f1 x)
  have f3 : a3.get n = { a.get n with edges := edgesSet (a.get n).edges ℓ m } := by
    have h0 : a3.get n = { a2.get n with
        edges := edgesSet (a2.get n).edges ℓ m } :=
      arena_get_setNode_self a2 n _
    rw [h0, f2x n hnm]
  have f4 : ∀ x, x ≠ n → a3.get x = a2.get x := fun x hx =>
    arena_get_setNode_ne a2 n _ x hx
  have f6 : a3.get m = { a.get m with final := b } :=
    (f4 m (fun he => hnm he.symm)).trans f2
  have f6e : (a3.get m).edges = [] := by
    rw [f6, f5]
    rfl
  have f6f : (a3.get m).final = b := by
    rw [f6]

  have hsz : a3.size = a.size + 1 := rfl
  have hsz1 : a1.size = a.size + 1 := rfl
  have hsz2 : a2.size = a.size + 1 := rfl
  have g1 : ∀ c', edgesGet (a3.get n).edges c' =
      if ℓ = c' then some m else edgesGet (a.get n).edges c' := by
    intro c'
    rw [f3]
    exact edgesGet_edgesSet ℓ m (a.get n).edges c'
  have g2 : ∀ x, x ≠ n → x ≠ m → (a3.get x).edges = (a.get x).edges :=
    fun x hx1 hx2 => by rw [f4 x hx1, f2x x hx2]
  have hedge2 : ∀ x c y, edgesGet (a3.get x).edges c = some y →
      (x = n ∧ c = ℓ ∧ y = m) ∨ edgesGet (a.get x).edges c = some y := by
    intro x c y hxy
    by_cases hx : x = n
    · subst hx
      rw [g1 c] at hxy
      by_cases hc : ℓ = c
      · rw [if_pos hc] at hxy
        exact Or.inl ⟨rfl, hc.symm, (Option.some.injEq _ _).mp hxy.symm⟩
      · rw [if_neg hc] at hxy
        exact Or.inr hxy
    · by_cases hx2 : x = m
      · rw [hx2, f6e] at hxy
        exact Option.noConfusion hxy
      · rw [g2 x hx hx2] at hxy
        exact Or.inr hxy
  have hA3 : AOK a3 := by
    refine ⟨?_, ?_, ?_⟩
    · have hwf1 : ∀ x, a1.size ≤ x → a1.tree.get (natBits x) = none :=
        arena_alloc_wf a hwf
      have hwf2 : ∀ x, a2.size ≤ x → a2.tree.get (natBits x) = none :=
        arena_setNode_wf a1 m _ (by omega) hwf1
      exact arena_setNode_wf a2 n _ (by omega) hwf2
    · intro x c y hxy
      rcases hedge2 x c y hxy with ⟨hx, _, hy⟩ | hold
      · rw [hx, hy, hsz]
        omega
      · have := hM x c y hold
        rw [hsz]
        omega
    · intro y x1 c1 x2 c2 h1 h2
      rcases hedge2 x1 c1 y h1 with ⟨hx1, hc1, hy1⟩ | ho1
      · rcases hedge2 x2 c2 y h2 with ⟨hx2, hc2, _⟩ | ho2
        · rw [hx1, hx2, hc1, hc2]
          exact ⟨rfl, rfl⟩
        · have := (hM x2 c2 y ho2).2
          omega
      · rcases hedge2 x2 c2 y h2 with ⟨_, _, hy2⟩ | ho2
        · have := (hM x1 c1 y ho1).2
          omega
        · exact hU y x1 c1 x2 c2 ho1 ho2
  have hback : ∀ q p x, x < a.size → EPath a3 q p x → EPath a q p x := by
    intro q p x hx hp
    induction hp with
    | nil n0 => exact EPath.nil n0
    | cons he hp ih =>
      rename_i n0 m0 r c u
      rcases hedge2 n0 c m0 he with ⟨hn0, hc, hm0⟩ | hold
      · exfalso
        have hr : r = m0 := by
          cases hp with
          | nil => rfl
          | cons he2 _ =>
            rw [hm0, f6e] at he2
            exact Option.noConfusion he2
        omega
      · exact EPath.cons hold (ih hx)
  refine ⟨hA3, hsz, hm, ?_, ?_, f6f, hback, ?_⟩
  · rw [g1 ℓ, if_pos rfl]
  · intro x hx
    by_cases hxn : x = n
    · rw [hxn, f3]
    · rw [f4 x hxn, f2x x hx]
  · intro p hp
    have hm0 : m ≠ 0 := by omega
    obtain ⟨p0, n2, ℓ2, hu, hpath, hedge3⟩ := epath_last a3 hA3.2.1 hp hm0
    have hnew : edgesGet (a3.get n).edges ℓ = some m := by
      rw [g1 ℓ, if_pos rfl]
    obtain ⟨hn2, hℓ2⟩ := hA3.2.2 m n2 ℓ2 n ℓ hedge3 hnew
    exact ⟨p0, by rw [hu, hℓ2], hn2 ▸ hpath⟩


/-- One matching `(qEdge, nEdge)` pair that reuses an existing output
child preserves the frame invariant. -/
theorem ipair_step_reuse (aQ : Arena) (rQ : Nat) (fr : IFrame)
    (others : List IFrame) (aO : Arena) (pushed : List IFrame)
    (qEdge nEdge : Char) (next qc node : Nat) (vfin : Bool)
    (hguard : nEdge = qEdge ∨ qEdge = '*')
    (hqc : edgesGet (aQ.get fr.qNode).edges qEdge = some qc)
    (hnext : edgesGet (aO.get fr.output).edges nEdge = some next)
    (hP : IPair aQ rQ fr others (aO, pushed)) :
    IPair aQ rQ fr others
      (aO.setFinalVal next ((aO.get next).final || (vfin && (aQ.get qc).final)),
       pushed ++ [⟨qc, next, node⟩]) := by
  obtain ⟨hA, ⟨hfrlt, hfrout⟩, hothers, hpush, hfin⟩ := hP
  set b2 := (aO.get next).final || (vfin && (aQ.get qc).final) with hb2
  have hedges := arena_setFinalVal_edges aO next b2
  have epb : ∀ {q p x}, EPath (aO.setFinalVal next b2) q p x → EPath aO q p x :=
    epath_edges_eq hedges
  have htr : ∀ o q, IOut aQ rQ aO o q → IOut aQ rQ (aO.setFinalVal next b2) o q :=
    fun o q hio p hp => hio p (epb hp)
  have hnextlt : next < aO.size := (hA.2.1 _ _ _ hnext).2
  have hnextgt : fr.output < next := (hA.2.1 _ _ _ hnext).1
  have hionext : IOut aQ rQ (aO.setFinalVal next b2) next qc := by
    intro p hp
    have hp' : EPath aO 0 p next := epb hp
    have hne : next ≠ 0 := by omega
    obtain ⟨p0, n2, ℓ2, hu, hpath, hedge⟩ := epath_last aO hA.2.1 hp' hne
    obtain ⟨hn2, hℓ2⟩ := hA.2.2 next n2 ℓ2 fr.output nEdge hedge hnext
    have hw0 : WPath aQ rQ p0 fr.qNode := hfrout p0 (hn2 ▸ hpath)
    rw [hu, hℓ2]
    rcases hguard with heq | hstar
    · exact wpath_snoc_lit hw0 (by rw [heq]; exact hqc)
    · exact wpath_snoc_star hw0 (by rw [← hstar]; exact hqc)
  refine ⟨aok_setFinalVal aO next b2 hnextlt hA, ⟨hfrlt, htr _ _ hfrout⟩,
    ?_, ?_, ?_⟩
  · intro g hg
    obtain ⟨h1, h2⟩ := hothers g hg
    exact ⟨h1, htr _ _ h2⟩
  · intro g hg
    rcases List.mem_append.mp hg with hg1 | hg1
    · obtain ⟨h1, h2⟩ := hpush g hg1
      exact ⟨h1, htr _ _ h2⟩
    · have hgeq : g = ⟨qc, next, node⟩ := List.mem_singleton.mp hg1
      subst hgeq
      exact ⟨hnextlt, hionext⟩
  · intro x hx
    by_cases hxn : x = next
    · subst hxn
      rw [arena_setFinalVal_self] at hx
      have hb : ((aO.get x).final || (vfin && (aQ.get qc).final)) = true := hx
      rw [Bool.or_eq_true] at hb
      rcases hb with hold | hnew
      · obtain ⟨q, hio, hq⟩ := hfin x hold
        exact ⟨q, htr _ _ hio, hq⟩
      · rw [Bool.and_eq_true] at hnew
        exact ⟨qc, hionext, hnew.2⟩
    · rw [arena_setFinalVal_ne aO next b2 x hxn] at hx
      obtain ⟨q, hio, hq⟩ := hfin x hx
      exact ⟨q, htr _ _ hio, hq⟩

/-- One matching `(qEdge, nEdge)` pair that allocates a fresh output
child preserves the frame invariant. -/
theorem ipair_step_create (aQ : Arena) (rQ : Nat) (fr : IFrame)
    (others : List IFrame) (aO : Arena) (pushed : List IFrame)
    (qEdge nEdge : Char) (qc node : Nat) (vfin : Bool)
    (hguard : nEdge = qEdge ∨ qEdge = '*')
    (hqc : edgesGet (aQ.get fr.qNode).edges qEdge = some qc)
    (hnone : edgesGet (aO.get fr.output).edges nEdge = none)
    (hP : IPair aQ rQ fr others (aO, pushed)) :
    IPair aQ rQ fr others
      (((aO.alloc.1).setFinalVal aO.alloc.2 (vfin && (aQ.get qc).final)).setEdge
          fr.output nEdge aO.alloc.2,
       pushed ++ [⟨qc, aO.alloc.2, node⟩]) := by
  obtain ⟨hA, ⟨hfrlt, hfrout⟩, hothers, hpush, hfin⟩ := hP
  obtain ⟨hA3, hsz3, hm, hedge3, hfin3ne, hfin3m, hback, hdec⟩ :=
    alloc_final_edge_spec aO fr.output nEdge (vfin && (aQ.get qc).final)
      hA hfrlt hnone
  set a3 := ((aO.alloc.1).setFinalVal aO.alloc.2
    (vfin && (aQ.get qc).final)).setEdge fr.output nEdge aO.alloc.2 with ha3
  have hfrlt2 : fr.output < aO.size := hfrlt
  have htr : ∀ o q, o < aO.size → IOut aQ rQ aO o q → IOut aQ rQ a3 o q :=
    fun o q ho hio p hp => hio p (hback 0 p o ho hp)
  have hionew : IOut aQ rQ a3 aO.alloc.2 qc := by
    intro p hp
    obtain ⟨p0, hpe, hp0⟩ := hdec p hp
    have hp0' : EPath aO 0 p0 fr.output := hback 0 p0 fr.output hfrlt hp0
    have hw0 : WPath aQ rQ p0 fr.qNode := hfrout p0 hp0'
    rw [hpe]
    rcases hguard with heq | hstar
    · exact wpath_snoc_lit hw0 (by rw [heq]; exact hqc)
    · exact wpath_snoc_star hw0 (by rw [← hstar]; exact hqc)
  refine ⟨hA3, ⟨by show fr.output < a3.size; omega,
    htr fr.output fr.qNode hfrlt hfrout⟩, ?_, ?_, ?_⟩
  · intro g hg
    obtain ⟨h1, h2⟩ := hothers g hg
    have h1b : g.output < aO.size := h1
    exact ⟨by show g.output < a3.size; omega, htr _ _ h1 h2⟩
  · intro g hg
    rcases List.mem_append.mp hg with hg1 | hg1
    · obtain ⟨h1, h2⟩ := hpush g hg1
      have h1b : g.output < aO.size := h1
      exact ⟨by show g.output < a3.size; omega, htr _ _ h1 h2⟩
    · have hgeq : g = ⟨qc, aO.alloc.2, node⟩ := List.mem_singleton.mp hg1
      subst hgeq
      exact ⟨by show aO.alloc.2 < a3.size; omega, hionew⟩
  · intro x hx
    by_cases hxm : x = aO.alloc.2
    · subst hxm
      rw [hfin3m, Bool.and_eq_true] at hx
      exact ⟨qc, hionew, hx.2⟩
    · rw [hfin3ne x hxm] at hx
      obtain ⟨q, hio, hq⟩ := hfin x hx
      have hxlt : x < aO.size := by
        by_contra hge
        have hempty : aO.get x = Node.empty :=
          arena_get_unalloc aO hA.1 x (by omega)
        rw [hempty] at hx
        exact Bool.noConfusion hx
      exact ⟨q, htr x q hxlt hio, hq⟩

/-- `intersectPair` preserves the frame invariant whenever the query
edge is real. -/
theorem ipair_inv (aV aQ : Arena) (rQ : Nat) (fr : IFrame)
    (others : List IFrame) (qEdge nEdge : Char) (qc : Nat)
    (hqc : edgesGet (aQ.get fr.qNode).edges qEdge = some qc)
    (acc : Arena × List IFrame)
    (hP : IPair aQ rQ fr others acc) :
    IPair aQ rQ fr others (intersectPair aV aQ fr qEdge nEdge acc) := by
  obtain ⟨aO, pushed⟩ := acc
  by_cases hguard : nEdge = qEdge ∨ qEdge = '*'
  · unfold intersectPair
    rw [if_pos hguard]
    dsimp only
    rw [hqc]
    simp only [Option.getD_some]
    cases hnext : edgesGet (aO.get fr.output).edges nEdge with
    | some next =>
      exact ipair_step_reuse aQ rQ fr others aO pushed qEdge nEdge next qc
        _ _ hguard hqc hnext hP
    | none =>
      exact ipair_step_create aQ rQ fr others aO pushed qEdge nEdge qc
        _ _ hguard hqc hnext hP
  · unfold intersectPair
    rw [if_neg hguard]
    exact hP


/-- `intersectFrame` preserves the frame invariant. -/
theorem iframe_inv (aV aQ : Arena) (rQ : Nat) (fr : IFrame)
    (others : List IFrame) (aO : Arena)
    (hP : IPair aQ rQ fr others (aO, [])) :
    IPair aQ rQ fr others (intersectFrame aV aQ aO fr) := by
  unfold intersectFrame
  dsimp only
  refine foldl_invariant_mem (IPair aQ rQ fr others) _ _ ?_ (aO, []) hP
  intro b qEdge hq hb
  obtain ⟨qc, hqc⟩ := edgesGet_isSome_of_mem qEdge _
    (mem_jsKeys qEdge _ hq)
  exact foldl_invariant (IPair aQ rQ fr others)
    (fun acc2 nEdge => intersectPair aV aQ fr qEdge nEdge acc2)
    (fun b2 nEdge hb2 => ipair_inv aV aQ rQ fr others qEdge nEdge qc hqc b2 hb2)
    _ b hb

/-- The intersection loop preserves its invariant until the stack
empties. -/
theorem iloop_inv (aV aQ : Arena) (rQ : Nat) :
    ∀ (fuel : Nat) (aO : Arena) (stack : List IFrame),
      IInv aQ rQ aO stack →
      IInv aQ rQ (intersectLoop aV aQ fuel aO stack) [] := by
  intro fuel
  induction fuel with
  | zero =>
    intro aO stack hI
    cases stack with
    | nil => exact ⟨hI.1, fun g hg => absurd hg (List.not_mem_nil g), hI.2.2⟩
    | cons fr rest =>
      exact ⟨hI.1, fun g hg => absurd hg (List.not_mem_nil g), hI.2.2⟩
  | succ fuel ih =>
    intro aO stack hI
    cases stack with
    | nil => exact ⟨hI.1, fun g hg => absurd hg (List.not_mem_nil g), hI.2.2⟩
    | cons fr rest =>
      obtain ⟨hA, hframes, hfin⟩ := hI
      have hP0 : IPair aQ rQ fr rest (aO, []) :=
        ⟨hA, hframes fr (List.mem_cons_self fr rest),
         fun g hg => hframes g (List.mem_cons_of_mem fr hg),
         fun g hg => absurd hg (List.not_mem_nil g), hfin⟩
      obtain ⟨hA1, _, hoth1, hpush1, hfin1⟩ := iframe_inv aV aQ rQ fr rest aO hP0
      have hI1 : IInv aQ rQ (intersectFrame aV aQ aO fr).1
          ((intersectFrame aV aQ aO fr).2.reverse ++ rest) := by
        refine ⟨hA1, ?_, hfin1⟩
        intro g hg
        rcases List.mem_append.mp hg with hg1 | hg1
        · exact hpush1 g (List.mem_reverse.mp hg1)
        · exact hoth1 g hg1
      show IInv aQ rQ (intersectLoop aV aQ fuel (intersectFrame aV aQ aO fr).1
        ((intersectFrame aV aQ aO fr).2.reverse ++ rest)) []
      exact ih _ _ hI1

/-- Soundness of `TokenSet.intersect`: the result root is 0, the result
arena is well-formed, and every final output node is reached only along
paths that wildcard-trace to a final query node. -/
theorem intersect_sound (aV aQ : Arena) (rV rQ : Nat) (fuel : Nat) :
    (TokenSet.intersect fuel aV rV aQ rQ).2 = 0 ∧
    AOK (TokenSet.intersect fuel aV rV aQ rQ).1 ∧
    (∀ x, (((TokenSet.intersect fuel aV rV aQ rQ).1).get x).final = true →
      ∃ q, IOut aQ rQ (TokenSet.intersect fuel aV rV aQ rQ).1 x q ∧
        (aQ.get q).final = true) := by
  obtain ⟨hA0, hedges0, hfin0, hsz0⟩ := arena_init_facts
  have hinv : IInv aQ rQ (Arena.alloc Arena.init).1
      [⟨rQ, (Arena.alloc Arena.init).2, rV⟩] := by
    refine ⟨hA0, ?_, ?_⟩
    · intro g hg
      rcases List.mem_cons.mp hg with h | h
      · rw [h]
        show (Arena.alloc Arena.init).2 < _ ∧
          IOut aQ rQ (Arena.alloc Arena.init).1 (Arena.alloc Arena.init).2 rQ
        refine ⟨by rw [hsz0]; exact Nat.zero_lt_one, ?_⟩
        intro p hp
        have hpnil : p = [] := by
          cases hp with
          | nil => rfl
          | cons he _ =>
            rw [hedges0 0] at he
            exact Option.noConfusion he
        rw [hpnil]
        exact WPath.nil rQ
      · exact absurd h (List.not_mem_nil g)
    · intro x hx
      rw [hfin0 x] at hx
      exact Bool.noConfusion hx
  obtain ⟨hA, _, hfin⟩ := iloop_inv aV aQ rQ fuel _ _ hinv
  exact ⟨rfl, hA, hfin⟩


/-- An edit derivation of cost zero connects equal strings. -/
theorem ed_zero_eq : ∀ {s t : Str} {c : Nat}, Ed s t c → c = 0 → s = t := by
  intro s t c h
  induction h with
  | nil => intro _; rfl
  | keep a _ ih => intro hc; rw [ih hc]
  | del a _ _ => intro hc; exact absurd hc (Nat.succ_ne_zero _)
  | ins b _ _ => intro hc; exact absurd hc (Nat.succ_ne_zero _)
  | sub a b _ _ => intro hc; exact absurd hc (Nat.succ_ne_zero _)
  | trans a b _ _ => intro hc; exact absurd hc (Nat.succ_ne_zero _)


/-- Claim C4 (amended): for every fuzzy string `s` that does not itself
contain a literal `*`, every edit budget `k`, every vocabulary and every
member `t` of
`TokenSet.fromArray(sort(V)).intersect(TokenSet.fromFuzzyString(s, k)).toArray()`,
the Damerau-Levenshtein distance between `s` and `t` is at most `k`. -/
theorem C4_fuzzy_within_edit_distance (fuel : Nat) (vocab : List Str) (s : Str) (k : Nat)
    (res : List Str) (hs : '*' ∉ s)
    (hres : fuzzyExpansion fuel vocab s k = .ok res)
    (t : Str) (ht : t ∈ res) : dlLE s t k := by
  unfold fuzzyExpansion at hres
  cases hV : TokenSet.fromArray (sortStrs vocab) with
  | error e =>
    rw [hV] at hres
    exact Except.noConfusion hres
  | ok pV =>
    rw [hV] at hres
    obtain ⟨aV, rV⟩ := pV
    dsimp only at hres
    have hres2 : TokenSet.toArray
        (TokenSet.intersect fuel aV rV (TokenSet.fromFuzzyString fuel s k).1
          (TokenSet.fromFuzzyString fuel s k).2).1
        (TokenSet.intersect fuel aV rV (TokenSet.fromFuzzyString fuel s k).1
          (TokenSet.fromFuzzyString fuel s k).2).2 fuel = res :=
      (Except.ok.injEq _ _).mp hres
    obtain ⟨hfA, hfF, hfR⟩ := fromFuzzyString_final s k fuel hs
    obtain ⟨hiR, hiA, hiFin⟩ := intersect_sound aV
      (TokenSet.fromFuzzyString fuel s k).1 rV
      (TokenSet.fromFuzzyString fuel s k).2 fuel
    rw [← hres2] at ht
    have ht2 : t ∈ toArrayFuel
        (TokenSet.intersect fuel aV rV (TokenSet.fromFuzzyString fuel s k).1
          (TokenSet.fromFuzzyString fuel s k).2).1 fuel
        [([], (TokenSet.intersect fuel aV rV
          (TokenSet.fromFuzzyString fuel s k).1
          (TokenSet.fromFuzzyString fuel s k).2).2)] := ht
    obtain ⟨pn, hpn, u, m, htu, hpath, hfinal⟩ :=
      toArray_sound _ fuel _ t ht2
    have hpn2 : pn = ([], (TokenSet.intersect fuel aV rV
        (TokenSet.fromFuzzyString fuel s k).1
        (TokenSet.fromFuzzyString fuel s k).2).2) := by
      rcases List.mem_cons.mp hpn with h | h
      · exact h
      · exact absurd h (List.not_mem_nil pn)
    rw [hpn2] at htu hpath
    have htu2 : t = u := htu
    rw [hiR] at hpath
    obtain ⟨q, hio, hqfin⟩ := hiFin m hfinal
    have hw : WPath (TokenSet.fromFuzzyString fuel s k).1
        (TokenSet.fromFuzzyString fuel s k).2 u q := hio u hpath
    rw [hfR] at hw
    obtain ⟨p, hpq, hmt⟩ := wpath_epath hw
    rw [htu2]
    exact hfF q hqfin p hpq u hmt


/-- Claim C4 (counterexample to the unrestricted claim): for `s = "*"`
and `k = 0` over the vocabulary `{"x"}`, the expansion contains `"x"`,
yet the Damerau-Levenshtein distance between `"*"` and `"x"` is 1, not
at most 0: a literal `*` in the fuzzy string acts as a wildcard edge in
the intersection. -/
theorem C4_star_escapes_distance :
    fuzzyExpansion 20 [['x']] ['*'] 0 = .ok [['x']] ∧
    ¬ dlLE ['*'] ['x'] 0 := by
  refine ⟨by rfl, ?_⟩
  rintro ⟨c, hc, hed⟩
  exact absurd (ed_zero_eq hed (Nat.le_zero.mp hc)) (by decide)

/-- Claim C4 (witness): the amended theorem applied to the concrete
fuzzy expansion of `"ab"` with one edit over the vocabulary `{"ab"}`. -/
theorem C4_fuzzy_witness :
    ('*' ∉ (['a','b'] : Str)) ∧
    fuzzyExpansion 20 [['a','b']] ['a','b'] 1 = .ok [['a','b']] ∧
    (['a','b'] : Str) ∈ [(['a','b'] : Str)] ∧
    dlLE ['a','b'] ['a','b'] 1 :=
  ⟨by decide, by rfl, by decide,
   C4_fuzzy_within_edit_distance 20 [['a','b']] ['a','b'] 1 [['a','b']]
     (by decide) (by rfl) ['a','b'] (by decide)⟩
end Lunr
